import Mathlib

/-!
Verification of the structural converter, options generator and helpers of
`nix-yang-tools` (`src/main.rs`), shallowly embedded in Lean.

The embedding models `serde_json::Value` as `Json` (numbers restricted to
integers, which covers every numeric value the verified claims exercise),
JSON objects as association lists with unique keys (serde's map; field
order is quotiented away by the `Json.equiv` relation where a claim asks
for "up to object-field order"), and the schema surface of `yang2`
(`SchemaNode`, `SchemaNodeKind`, `DataValueType`) as plain inductive trees.
-/

namespace NixYang

/-- JSON values (`serde_json::Value`); numbers are modelled as integers. -/
inductive Json where
  | null : Json
  | bool : Bool → Json
  | num : Int → Json
  | str : String → Json
  | arr : List Json → Json
  | obj : List (String × Json) → Json
deriving Repr, Inhabited

/-- Field lookup in an object's field list (`serde_json::Map::get`). -/
def lookupF : List (String × Json) → String → Option Json
  | [], _ => none
  | (k, v) :: rest, key => if k = key then some v else lookupF rest key

/-- Field insertion (`serde_json::Map::insert`): replace the value in place
if the key exists, otherwise add the field. -/
def insertF : List (String × Json) → String → Json → List (String × Json)
  | [], key, v => [(key, v)]
  | (k, w) :: rest, key, v =>
    if k = key then (k, v) :: rest else (k, w) :: insertF rest key v

/-- Field removal (`serde_json::Map::remove`): the removed value and the
remaining fields, or `none` if the key is absent. -/
def removeF : List (String × Json) → String → Option (Json × List (String × Json))
  | [], _ => none
  | (k, v) :: rest, key =>
    if k = key then some (v, rest)
    else match removeF rest key with
      | some (w, rest2) => some (w, (k, v) :: rest2)
      | none => none

def Json.isObj : Json → Bool
  | .obj _ => true
  | _ => false

def Json.isArr : Json → Bool
  | .arr _ => true
  | _ => false

/-- The character for a decimal digit. -/
def digitChar (n : Nat) : Char := Char.ofNat (48 + n)

/-- The value of a decimal digit character. -/
def digitVal (c : Char) : Option Nat :=
  if 48 ≤ c.toNat ∧ c.toNat ≤ 57 then some (c.toNat - 48) else none

/-- Decimal digits, least significant first, with explicit recursion fuel
(`fuel ≥ n` suffices, and the wrapper below passes `n` itself). -/
def natDigitsRevAux : Nat → Nat → List Char
  | 0, _ => []
  | fuel + 1, n => if n = 0 then [] else digitChar (n % 10) :: natDigitsRevAux fuel (n / 10)

/-- Decimal digits of `n`, least significant first. -/
def natDigitsRev (n : Nat) : List Char := natDigitsRevAux n n

/-- Canonical decimal rendering of a natural number. -/
def natToStr (n : Nat) : String :=
  if n = 0 then "0" else String.mk (natDigitsRev n).reverse

/-- Canonical decimal rendering of an integer: the text `serde_json`
produces for an integer `Number` (`serde_json::to_string`). -/
def intToStr : Int → String
  | .ofNat n => natToStr n
  | .negSucc n => "-" ++ natToStr (n + 1)

/-- Accumulating decimal parser over a character list. -/
def parseNatAux (acc : Nat) : List Char → Option Nat
  | [] => some acc
  | c :: cs =>
    match digitVal c with
    | some d => parseNatAux (acc * 10 + d) cs
    | none => none

/-- Parse a non-empty all-digit character list. -/
def parseNatChars (cs : List Char) : Option Nat :=
  if cs.isEmpty then none else parseNatAux 0 cs

/-- `serde_json::from_str::<Value>` restricted to the scalar JSON texts
that can occur as accumulated map keys: integer numerals, the keywords
`null`/`true`/`false`, and simple (escape-free) string literals.  Whole
documents are never re-parsed through this function in the source, only
single map-key strings, so the scalar fragment is the faithful part. -/
def jsonFromStr (s : String) : Except String Json :=
  match s.data with
  | [] => .error "EOF while parsing a value"
  | c :: cs =>
    if c = '-' then
      match parseNatChars cs with
      | some n => .ok (.num (-(n : Int)))
      | none => .error "invalid number"
    else if (digitVal c).isSome then
      match parseNatChars (c :: cs) with
      | some n => .ok (.num (n : Int))
      | none => .error "invalid number"
    else if s = "null" then .ok .null
    else if s = "true" then .ok (.bool true)
    else if s = "false" then .ok (.bool false)
    else if c = '"' ∧ cs.getLast? = some '"' ∧ '"' ∉ cs.dropLast ∧ '\\' ∉ cs.dropLast then
      .ok (.str (String.mk cs.dropLast))
    else .error "invalid value"

/-! ## Schema model (`yang2` capability surface) -/

/-- `yang2::schema::DataValueType` (the variants used by the source). -/
inductive DataValueType where
  | unknown | binary | uint8 | uint16 | uint32 | uint64 | string | bits
  | boolean | dec64 | empty | enumeration | identityRef | instanceId
  | leafRef | union | int8 | int16 | int32 | int64
deriving DecidableEq, Repr

/-- `yang2::schema::SchemaNodeKind` (the variants used by the source). -/
inductive SchemaNodeKind where
  | container | list | choice | caseNode | leaf | leafList
deriving DecidableEq, Repr

mutual
/-- A schema node: name, kind, the ordered key fields (name and declared
base type of each `list_keys()` child — only meaningful on `list` nodes),
and the remaining children.  The children are a `SchemaForest` (a mutual
inductive standing for `List SchemaNode`) so that schema traversal can be
defined by structural recursion. -/
inductive SchemaNode where
  | mk : String → SchemaNodeKind → List (String × DataValueType) → SchemaForest → SchemaNode
deriving Repr

inductive SchemaForest where
  | nil : SchemaForest
  | cons : SchemaNode → SchemaForest → SchemaForest
deriving Repr
end

def SchemaNode.name : SchemaNode → String
  | .mk n _ _ _ => n

def SchemaNode.kind : SchemaNode → SchemaNodeKind
  | .mk _ k _ _ => k

def SchemaNode.keys : SchemaNode → List (String × DataValueType)
  | .mk _ _ ks _ => ks

def SchemaNode.children : SchemaNode → SchemaForest
  | .mk _ _ _ cs => cs

/-- Build a forest from a list of schema nodes. -/
def SchemaForest.ofList : List SchemaNode → SchemaForest
  | [] => .nil
  | n :: ns => .cons n (SchemaForest.ofList ns)

/-- Flatten a forest back to a list of schema nodes. -/
def SchemaForest.toList : SchemaForest → List SchemaNode
  | .nil => []
  | .cons n ns => n :: ns.toList

/-- `node.is_keyless_list()`. -/
def SchemaNode.isKeylessList (n : SchemaNode) : Bool :=
  n.kind = .list ∧ n.keys = []

/-- The numeric base types: the ones the `Nix2Yang` branch re-parses a map
key string for (`main.rs`, the `match key_name.base_type()` arms). -/
def DataValueType.isNumeric : DataValueType → Bool
  | .int8 | .int16 | .int32 | .int64 => true
  | .uint8 | .uint16 | .uint32 | .uint64 => true
  | .dec64 => true
  | _ => false

/-! ## ListToMap (`Yang2Nix`) rewrite at one list node -/

/-- Coerce one removed key value to a map-key string:
`k.as_str() … .or(k.as_number() … to_string)` — a string passes through,
a number is rendered canonically, anything else panics. -/
def coerceKey : Json → Except String String
  | .str s => .ok s
  | .num n => .ok (intToStr n)
  | _ => .error "can not determine key"

/-- Remove each key field from an element in schema key order
(`el.as_object_mut().expect("expected an object").remove(key).expect("expected key")`),
returning the coerced key strings and the stripped element. -/
def stripKeys : List String → Json → Except String (List String × Json)
  | [], el => .ok ([], el)
  | k :: ks, el => do
    let o ← match el with
      | .obj o => Except.ok o
      | _ => Except.error "expected an object"
    let (v, rest) ← match removeF o k with
      | some p => Except.ok p
      | none => Except.error "expected key"
    let s ← coerceKey v
    let (ss, el2) ← stripKeys ks (.obj rest)
    .ok (s :: ss, el2)

/-- Descend/create one nested object level per key string and insert the
element at the end: the `p2` pointer walk.  A level that is not an object
is replaced by an empty object (`if !p2.is_object() { *p2 = Object }`);
the final position is overwritten by the element (`*p2 = el`). -/
def insertPath : Json → List String → Json → Json
  | _, [], el => el
  | v, k :: ks, el =>
    let o := match v with
      | .obj o => o
      | _ => []
    let cur := (lookupF o k).getD .null
    .obj (insertF o k (insertPath cur ks el))

/-- Insert one array element into the accumulated map value. -/
def insertEl (ks : List String) (acc el : Json) : Except String Json := do
  let (ss, el2) ← stripKeys ks el
  .ok (insertPath acc ss el2)

/-- The `Yang2Nix` rewrite at a keyed list node: take the value (leaving
`Null`), require an array, and insert every element in order. -/
def yang2nixRewrite (ks : List String) (v : Json) : Except String Json :=
  match v with
  | .arr els => els.foldlM (insertEl ks) .null
  | _ => .error "Expected an array. Are you sure this is a YANG-style file?"

/-! ## MapToList (`Nix2Yang`) rewrite at one list node -/

/-- Explore the nested map to depth `d`, collecting (key-string sequence,
leaf) pairs in depth-first field order.  The source drains a LIFO work
list seeded with the taken value, which visits the same pairs in exactly
the reverse of this order. -/
def collectLeaves : Nat → List String → Json → Except String (List (List String × Json))
  | 0, ks, v => .ok [(ks, v)]
  | d + 1, ks, v =>
    match v with
    | .obj o => List.flatten <$> o.mapM (fun kv => collectLeaves d (ks ++ [kv.1]) kv.2)
    | _ => .error "Expected an object. Are you sure this is a Nix-style file?"

/-- Re-parse one accumulated key string against the key field's declared
base type: numeric types go back through the JSON parser
(`serde_json::from_str(&key).unwrap()`), everything else is inserted as a
string (`serde_json::Value::from(key.to_string())`). -/
def parseKeyVal (t : DataValueType) (s : String) : Except String Json :=
  if t.isNumeric then jsonFromStr s else .ok (.str s)

/-- Insert the accumulated key strings back into a reconstructed element
(`depth.into_iter().zip(node.list_keys())` followed by
`el.as_object_mut().expect("expected object").insert(…)`). -/
def reinsertKeys : List (String × DataValueType) → List String → Json → Except String Json
  | _, [], el => .ok el
  | [], _, el => .ok el
  | (kn, t) :: kd, s :: ss, el => do
    let kv ← parseKeyVal t s
    let o ← match el with
      | .obj o => Except.ok o
      | _ => Except.error "expected object"
    reinsertKeys kd ss (.obj (insertF o kn kv))

/-- The `Nix2Yang` rewrite at a keyed list node: explore `|keys|` nested
object levels, rebuild each leaf element with its key fields, and replace
the node's value by the array of rebuilt elements (in the LIFO traversal
order of the source, i.e. the reverse of depth-first field order). -/
def nix2yangRewrite (kd : List (String × DataValueType)) (v : Json) : Except String Json := do
  let leaves ← collectLeaves kd.length [] v
  let a ← leaves.reverse.mapM (fun p => reinsertKeys kd p.1 p.2)
  .ok (.arr a)

/-! ## Schema-driven navigation -/

/-- One step of the ancestor descent: a named object-field lookup, or one
representation-agnostic flattening level (`Array` → elements, `Object` →
values, anything else panics). -/
inductive NavStep where
  | fieldStep : String → NavStep
  | flattenStep : NavStep
deriving DecidableEq, Repr

/-- Apply `f` at every reference reached by the remaining steps.  A field
lookup that fails (absent field, or a non-object) drops the reference:
the value is left unchanged (`get_mut` returning `None`, then
`if p.len() == 0 break`). -/
def applySteps (f : Json → Except String Json) : List NavStep → Json → Except String Json
  | [], v => f v
  | .fieldStep k :: rest, v =>
    match v with
    | .obj o =>
      match lookupF o k with
      | some x => (fun x2 => Json.obj (insertF o k x2)) <$> applySteps f rest x
      | none => .ok v
    | _ => .ok v
  | .flattenStep :: rest, v =>
    match v with
    | .arr xs => Json.arr <$> xs.mapM (applySteps f rest)
    | .obj o => Json.obj <$> o.mapM (fun kv => (fun x2 => (kv.1, x2)) <$> applySteps f rest kv.2)
    | _ => .error "flatten panic"

/-- Module-qualify the outermost ancestor's name
(`format!("rtbrick-config:{}", an.name())` at `i == 0`). -/
def qualify (first : Bool) (n : String) : String :=
  if first then "rtbrick-config:" ++ n else n

/-- Compile an inclusive-ancestor chain (root first, the node itself
last) into navigation steps: each ancestor contributes its name lookup;
each non-terminal `list` ancestor additionally contributes one flattening
step per key field; the terminal node contributes only its name lookup
(the conversion happens there, before any flattening of its own keys). -/
def ancestorSteps (first : Bool) : List SchemaNode → List NavStep
  | [] => []
  | n :: rest =>
    .fieldStep (qualify first n.name) ::
      (match rest with
       | [] => []
       | _ :: _ =>
         (if n.kind = .list then List.replicate n.keys.length .flattenStep else []) ++
           ancestorSteps false rest)

/-- `ConvertMode` from the source. -/
inductive ConvertMode where
  | nix2yang | yang2nix
deriving DecidableEq, Repr

/-- The direction-specific rewrite applied at a keyed list node. -/
def nodeRewrite : ConvertMode → SchemaNode → Json → Except String Json
  | .yang2nix, n => yang2nixRewrite (n.keys.map Prod.fst)
  | .nix2yang, n => nix2yangRewrite n.keys

mutual
/-- Preorder traversal collecting every node with its inclusive ancestor
chain (root first, the node itself last): `root.traverse()` plus
`inclusive_ancestors().rev()`. -/
def preorderChains (anc : List SchemaNode) : SchemaNode → List (List SchemaNode × SchemaNode)
  | .mk nm k ky cs =>
    (anc ++ [.mk nm k ky cs], .mk nm k ky cs) :: preorderChainsF (anc ++ [.mk nm k ky cs]) cs

def preorderChainsF (anc : List SchemaNode) : SchemaForest → List (List SchemaNode × SchemaNode)
  | .nil => []
  | .cons c cs => preorderChains anc c ++ preorderChainsF anc cs
end

/-- The node enumeration of the converter:
`roots.flat_map(|root| root.traverse().collect().rev())` filtered to
lists that have keys. -/
def keyedListEntries (roots : List SchemaNode) : List (List SchemaNode × SchemaNode) :=
  (roots.flatMap (fun r => (preorderChains [] r).reverse)).filter
    (fun p => decide (p.2.kind = .list) && !p.2.keys.isEmpty)

/-- Convert one enumerated node: navigate its ancestor chain and apply
the direction-specific rewrite at every resolved reference. -/
def convertEntry (mode : ConvertMode) (entry : List SchemaNode × SchemaNode) (d : Json) :
    Except String Json :=
  applySteps (nodeRewrite mode entry.2) (ancestorSteps true entry.1) d

/-- Convert a given sequence of enumerated nodes in order. -/
def convertEntries (mode : ConvertMode) (es : List (List SchemaNode × SchemaNode)) (d : Json) :
    Except String Json :=
  es.foldlM (fun d e => convertEntry mode e d) d

/-- The whole converter: enumerate the keyed list nodes and convert each,
mutating the document; an error models the process aborting with no JSON
emitted. -/
def convert (mode : ConvertMode) (roots : List SchemaNode) (d : Json) : Except String Json :=
  convertEntries mode (keyedListEntries roots) d

/-! ## Options generator leaf type table -/

/-- The `leaf_type` table of `print_nix_options` (`main.rs:105-116`);
`other => todo!` is a hard failure. -/
def leafType : Option DataValueType → Except String String
  | some .enumeration => .ok "lib.types.str"
  | some .union => .ok "lib.types.str"
  | some .string => .ok "lib.types.str"
  | some .int8 => .ok "lib.types.ints.s8"
  | some .uint8 => .ok "lib.types.ints.u8"
  | some .uint16 => .ok "lib.types.ints.u16"
  | some .uint32 => .ok "lib.types.ints.u32"
  | some .uint64 => .ok "lib.types.ints.unsigned"
  | some .dec64 => .ok "lib.types.number"
  | other => .error ("not yet implemented: " ++ toString (repr other))

/-! ## Observation helpers and equivalence up to object-field order -/

/-- Follow a sequence of object fields. -/
def getPath : Json → List String → Option Json
  | v, [] => some v
  | .obj o, k :: ks => (lookupF o k).bind (fun x => getPath x ks)
  | _, _ :: _ => none

/-- Does every navigation branch die at a failed field lookup?  (`true`
means the ancestor path is absent from the instance: every reference is
dropped before the rewrite is ever applied.) -/
def absentAt : List NavStep → Json → Bool
  | [], _ => false
  | .fieldStep k :: rest, v =>
    match v with
    | .obj o =>
      match lookupF o k with
      | some x => absentAt rest x
      | none => true
    | _ => true
  | .flattenStep :: rest, v =>
    match v with
    | .arr xs => xs.all (absentAt rest)
    | .obj o => o.all (fun kv => absentAt rest kv.2)
    | _ => false

/-- One nested singleton object level per key string, ending in the leaf
element: the shape `ListToMap` produces for a single element. -/
def nestedObj : List String → Json → Json
  | [], el => el
  | k :: ks, el => .obj [(k, nestedObj ks el)]

/-- Fuelled equality of JSON values up to object-field order: arrays must
match pointwise and in order, objects must have the same number of fields
and, in both directions, every field must be matched by an equivalent
field of the same name.  `fuel` bounds the recursion depth; it only ever
turns answers into `false`, so `Json.equiv` below quantifies it away. -/
def equivF : Nat → Json → Json → Bool
  | 0, _, _ => false
  | fuel + 1, a, b =>
    match a, b with
    | .null, .null => true
    | .bool x, .bool y => x == y
    | .num x, .num y => x == y
    | .str x, .str y => x == y
    | .arr xs, .arr ys =>
      xs.length == ys.length && (List.zip xs ys).all (fun p => equivF fuel p.1 p.2)
    | .obj xs, .obj ys =>
      xs.length == ys.length &&
        xs.all (fun kv =>
          match lookupF ys kv.1 with
          | some w => equivF fuel kv.2 w
          | none => false) &&
        ys.all (fun kv =>
          match lookupF xs kv.1 with
          | some w => equivF fuel kv.2 w
          | none => false)
    | _, _ => false

/-- Equality up to object-field order. -/
def Json.equiv (a b : Json) : Prop := ∃ fuel, equivF fuel a b = true

mutual
/-- Structural similarity of JSON values: scalars must be equal, arrays
must match up to a permutation of their elements, objects up to a
permutation of their fields (with equal names and similar values).  This
is the equivalence "up to object-field order and array element order" of
the amended round-trip claim; numeric key canonicalization is the
identity here because numbers are modelled as integers. -/
inductive JsonSim : Json → Json → Prop where
  | null : JsonSim .null .null
  | bool (b : Bool) : JsonSim (.bool b) (.bool b)
  | num (n : Int) : JsonSim (.num n) (.num n)
  | str (s : String) : JsonSim (.str s) (.str s)
  | arr {xs ys : List Json} : JsonSimL xs ys → JsonSim (.arr xs) (.arr ys)
  | obj {xs ys : List (String × Json)} : JsonSimO xs ys → JsonSim (.obj xs) (.obj ys)

/-- The left list matches the right list up to permutation, with similar
elements (the right element may sit anywhere). -/
inductive JsonSimL : List Json → List Json → Prop where
  | nil : JsonSimL [] []
  | cons {x y : Json} {xs l1 l2 : List Json} :
      JsonSim x y → JsonSimL xs (l1 ++ l2) → JsonSimL (x :: xs) (l1 ++ y :: l2)

/-- Field lists match up to permutation: equal names, similar values. -/
inductive JsonSimO : List (String × Json) → List (String × Json) → Prop where
  | nil : JsonSimO [] []
  | cons {k : String} {x y : Json} {xs l1 l2 : List (String × Json)} :
      JsonSim x y → JsonSimO xs (l1 ++ l2) → JsonSimO ((k, x) :: xs) (l1 ++ (k, y) :: l2)
end

mutual
theorem simRefl : (x : Json) → JsonSim x x
  | .null => .null
  | .bool b => .bool b
  | .num n => .num n
  | .str s => .str s
  | .arr xs => .arr (simLRefl xs)
  | .obj fs => .obj (simORefl fs)

theorem simLRefl : (xs : List Json) → JsonSimL xs xs
  | [] => .nil
  | x :: xs => @JsonSimL.cons x x xs [] xs (simRefl x) (simLRefl xs)

theorem simORefl : (fs : List (String × Json)) → JsonSimO fs fs
  | [] => .nil
  | (k, v) :: fs => @JsonSimO.cons k v v fs [] fs (simRefl v) (simORefl fs)
end

/-- Pointwise similar lists are similar. -/
theorem simL_ofPointwise : ∀ {xs ys : List Json}, List.Forall₂ JsonSim xs ys → JsonSimL xs ys
  | _, _, .nil => .nil
  | _, _, .cons h hs => @JsonSimL.cons _ _ _ [] _ h (simL_ofPointwise hs)

/-- Pointwise similar field lists (same names in order) are similar. -/
theorem simO_ofPointwise {xs ys : List (String × Json)}
    (h : List.Forall₂ (fun p q => p.1 = q.1 ∧ JsonSim p.2 q.2) xs ys) : JsonSimO xs ys := by
  induction h with
  | nil => exact .nil
  | @cons p q xs2 ys2 hpq hs ih =>
    obtain ⟨k, x⟩ := p
    obtain ⟨k2, y⟩ := q
    obtain ⟨hk, hsim⟩ := hpq
    subst hk
    exact @JsonSimO.cons k x y xs2 [] ys2 hsim ih

/-- A list similar to `ys'` is similar to any permutation source of it:
if `ys` is a permutation of `ys'` and `xs` matches `ys'` pointwise,
then `xs` matches `ys` up to permutation. -/
theorem simL_of_perm_pointwise {xs ys ys' : List Json} (hp : ys.Perm ys')
    (hf : List.Forall₂ JsonSim xs ys') : JsonSimL xs ys := by
  induction hf generalizing ys with
  | nil =>
    have h0 : ys = [] := List.Perm.eq_nil hp
    subst h0
    exact .nil
  | @cons x y xs2 ys2 h hs ih =>
    have hy : y ∈ ys := hp.mem_iff.mpr (List.mem_cons_self y ys2)
    obtain ⟨l1, l2, rfl⟩ := List.append_of_mem hy
    have hperm : (l1 ++ l2).Perm ys2 := by
      have h1 : (l1 ++ y :: l2).Perm (y :: (l1 ++ l2)) := List.perm_middle
      have h2 : (y :: (l1 ++ l2)).Perm (y :: ys2) := h1.symm.trans hp
      exact h2.cons_inv
    exact JsonSimL.cons h (ih hperm)

/-! ## Generic `Except`-valued `mapM` helpers -/

theorem mapM_ok_exists {α β : Type} (g : α → Except String β) :
    ∀ xs : List α, (∀ x ∈ xs, ∃ y, g x = .ok y) →
      ∃ ys, xs.mapM g = .ok ys ∧ List.Forall₂ (fun x y => g x = .ok y) xs ys := by
  intro xs h
  induction xs with
  | nil => exact ⟨[], rfl, .nil⟩
  | cons x xs ih =>
    obtain ⟨y, hy⟩ := h x (List.mem_cons_self x xs)
    obtain ⟨ys, hys, hf⟩ := ih (fun z hz => h z (List.mem_cons_of_mem x hz))
    refine ⟨y :: ys, ?_, .cons hy hf⟩
    rw [List.mapM_cons, hy, hys]
    rfl

theorem mapM_ok_forall₂ {α β : Type} (g : α → Except String β) :
    ∀ (xs : List α) (ys : List β), xs.mapM g = .ok ys →
      List.Forall₂ (fun x y => g x = .ok y) xs ys := by
  intro xs
  induction xs with
  | nil =>
    intro ys h
    rw [List.mapM_nil] at h
    cases h
    exact .nil
  | cons x xs ih =>
    intro ys h
    rw [List.mapM_cons] at h
    cases hy : g x with
    | error e => rw [hy] at h; exact Except.noConfusion h
    | ok y =>
      rw [hy] at h
      cases hys : xs.mapM g with
      | error e => rw [hys] at h; exact Except.noConfusion h
      | ok ys2 =>
        rw [hys] at h
        have h2 : y :: ys2 = ys := Except.ok.inj h
        subst h2
        exact .cons hy (ih ys2 hys)

theorem mapM_congr_mem {α β : Type} (G H : α → Except String β) :
    ∀ xs : List α, (∀ x ∈ xs, G x = H x) → xs.mapM G = xs.mapM H := by
  intro xs h
  induction xs with
  | nil => rfl
  | cons x xs ih =>
    rw [List.mapM_cons, List.mapM_cons, h x (List.mem_cons_self x xs),
      ih (fun z hz => h z (List.mem_cons_of_mem x hz))]

theorem mapM_eq_of_forall₂ {α β γ : Type} (G : β → Except String γ) (H : α → Except String γ)
    {xs : List α} {ys : List β}
    (h : List.Forall₂ (fun x y => G y = H x) xs ys) : ys.mapM G = xs.mapM H := by
  induction h with
  | nil => rfl
  | cons hxy hf ih => rw [List.mapM_cons, List.mapM_cons, hxy, ih]

theorem forall₂_mem_right {α β : Type} {R : α → β → Prop} :
    ∀ {xs : List α} {ys : List β}, List.Forall₂ R xs ys → ∀ y ∈ ys, ∃ x ∈ xs, R x y := by
  intro xs ys h
  induction h with
  | nil => intro y hy; cases hy
  | @cons x y2 xs2 ys2 hxy hf ih =>
    intro y hy
    rcases List.mem_cons.mp hy with rfl | hy2
    · exact ⟨x, List.mem_cons_self x xs2, hxy⟩
    · obtain ⟨x2, hx2, hr⟩ := ih y hy2
      exact ⟨x2, List.mem_cons_of_mem x hx2, hr⟩

/-! ## Field-list helper lemmas -/

theorem lookupF_insertF_self (o : List (String × Json)) (k : String) (y : Json) :
    lookupF (insertF o k y) k = some y := by
  induction o with
  | nil => simp [insertF, lookupF]
  | cons kv rest ih =>
    obtain ⟨k2, v⟩ := kv
    by_cases hk : k2 = k
    · simp [insertF, hk, lookupF]
    · simp [insertF, hk, lookupF, ih]

theorem insertF_insertF (o : List (String × Json)) (k : String) (y z : Json) :
    insertF (insertF o k y) k z = insertF o k z := by
  induction o with
  | nil => simp [insertF]
  | cons kv rest ih =>
    obtain ⟨k2, v⟩ := kv
    by_cases hk : k2 = k
    · simp [insertF, hk]
    · simp [insertF, hk, ih]

theorem lookupF_insertF_ne (o : List (String × Json)) (k k2 : String) (y : Json)
    (h : k2 ≠ k) : lookupF (insertF o k y) k2 = lookupF o k2 := by
  induction o with
  | nil =>
    simp only [insertF, lookupF]
    rw [if_neg (fun hh => h hh.symm)]
  | cons kv rest ih =>
    obtain ⟨k3, v⟩ := kv
    by_cases hk : k3 = k
    · subst hk
      simp only [insertF, if_pos rfl, lookupF]
      rw [if_neg (fun hh => h hh.symm), if_neg (fun hh => h hh.symm)]
    · simp only [insertF, if_neg hk, lookupF]
      by_cases hk2 : k3 = k2
      · rw [if_pos hk2, if_pos hk2]
      · rw [if_neg hk2, if_neg hk2, ih]

/-! ## Decimal rendering / re-parsing round trip -/

theorem parseNatAux_append (acc : Nat) (xs ys : List Char) :
    parseNatAux acc (xs ++ ys) =
      match parseNatAux acc xs with
      | some a => parseNatAux a ys
      | none => none := by
  induction xs generalizing acc with
  | nil => simp [parseNatAux]
  | cons c cs ih =>
    simp only [List.cons_append, parseNatAux]
    cases digitVal c with
    | none => rfl
    | some d => exact ih _

theorem digitVal_digitChar {d : Nat} (h : d < 10) : digitVal (digitChar d) = some d := by
  interval_cases d <;> decide

theorem mem_natDigitsRevAux {fuel n : Nat} {c : Char} (h : c ∈ natDigitsRevAux fuel n) :
    ∃ d, d < 10 ∧ c = digitChar d := by
  induction fuel generalizing n with
  | zero => simp [natDigitsRevAux] at h
  | succ fuel ih =>
    simp only [natDigitsRevAux] at h
    by_cases h0 : n = 0
    · simp [h0] at h
    · simp [h0] at h
      rcases h with h | h
      · exact ⟨n % 10, Nat.mod_lt _ (by decide), h⟩
      · exact ih h

theorem parseNatAux_digits {fuel n : Nat} (hf : n ≤ fuel) (acc : Nat) :
    parseNatAux acc (natDigitsRevAux fuel n).reverse =
      some (acc * 10 ^ (natDigitsRevAux fuel n).length + n) := by
  induction fuel generalizing n acc with
  | zero =>
    have : n = 0 := Nat.le_zero.mp hf
    simp [this, natDigitsRevAux, parseNatAux]
  | succ fuel ih =>
    by_cases h0 : n = 0
    · simp [h0, natDigitsRevAux, parseNatAux]
    · have hdiv : n / 10 ≤ fuel := by
        have h1 : n / 10 < n := Nat.div_lt_self (Nat.pos_of_ne_zero h0) (by decide)
        omega
      simp only [natDigitsRevAux, h0, if_false, List.reverse_cons]
      rw [parseNatAux_append, ih hdiv acc]
      simp only [parseNatAux, digitVal_digitChar (Nat.mod_lt n (by decide))]
      have hmod : n / 10 * 10 + n % 10 = n := by omega
      have hpow : (10 : Nat) ^ ((natDigitsRevAux fuel (n / 10)).length + 1) =
          10 ^ (natDigitsRevAux fuel (n / 10)).length * 10 := pow_succ 10 _
      simp only [List.length_cons, hpow]
      congr 1
      ring_nf
      omega


theorem parseNatChars_natToStr (n : Nat) : parseNatChars (natToStr n).data = some n := by
  by_cases h0 : n = 0
  · simp [h0, natToStr, parseNatChars, parseNatAux, digitVal]
  · have hne : natDigitsRevAux n n ≠ [] := by
      cases n with
      | zero => exact absurd rfl h0
      | succ m => simp [natDigitsRevAux]
    simp only [natToStr, h0, if_false, natDigitsRev]
    show parseNatChars (natDigitsRevAux n n).reverse = some n
    unfold parseNatChars
    have : ((natDigitsRevAux n n).reverse).isEmpty = false := by
      simp [List.isEmpty_iff, hne]
    rw [this]
    simpa using parseNatAux_digits (Nat.le_refl n) 0

theorem jsonFromStr_natToStr (n : Nat) : jsonFromStr (natToStr n) = .ok (.num n) := by
  by_cases h0 : n = 0
  · subst h0; rfl
  · have hp := parseNatChars_natToStr n
    have hdata : (natToStr n).data = (natDigitsRevAux n n).reverse := by
      simp [natToStr, h0, natDigitsRev]
    have hne : natDigitsRevAux n n ≠ [] := by
      cases n with
      | zero => exact absurd rfl h0
      | succ m => simp [natDigitsRevAux]
    have hner : (natDigitsRevAux n n).reverse ≠ [] := by
      simpa using hne
    obtain ⟨c, cs, hcs⟩ := List.exists_cons_of_ne_nil hner
    have hcmem : c ∈ natDigitsRevAux n n := by
      rw [← List.mem_reverse, hcs]
      exact List.mem_cons_self _ _
    obtain ⟨d, hd10, hcd⟩ := mem_natDigitsRevAux hcmem
    have hdv : digitVal c = some d := by rw [hcd]; exact digitVal_digitChar hd10
    have hdash : ¬ (c = '-') := by
      intro h
      rw [h] at hdv
      have hnone : digitVal '-' = none := by decide
      rw [hnone] at hdv
      exact Option.noConfusion hdv
    rw [hdata, hcs] at hp
    unfold jsonFromStr
    rw [hdata, hcs]
    simp only [hdash, if_false, hdv, Option.isSome_some, if_true, hp]

theorem jsonFromStr_intToStr (i : Int) : jsonFromStr (intToStr i) = .ok (.num i) := by
  cases i with
  | ofNat n => exact jsonFromStr_natToStr n
  | negSucc n =>
    have hp := parseNatChars_natToStr (n + 1)
    have hdata : (intToStr (Int.negSucc n)).data = '-' :: (natToStr (n + 1)).data := by
      show (("-" : String) ++ natToStr (n + 1)).data = _
      rw [String.data_append]
      rfl
    unfold jsonFromStr
    rw [hdata]
    simp only [if_pos rfl, hp]
    rw [Int.negSucc_eq]
    norm_num

/-! ## Supporting lemmas -/

theorem insertPath_null (ss : List String) (el : Json) :
    insertPath .null ss el = nestedObj ss el := by
  induction ss with
  | nil => rfl
  | cons k ks ih => simp [insertPath, nestedObj, lookupF, insertF, ih]

theorem mapM_ok_id {α : Type} (g : α → Except String α) (xs : List α)
    (h : ∀ x ∈ xs, g x = .ok x) : xs.mapM g = .ok xs := by
  induction xs with
  | nil => rfl
  | cons x xs ih =>
    rw [List.mapM_cons, h x (List.mem_cons_self x xs), ih (fun y hy => h y (List.mem_cons_of_mem x hy))]
    rfl

theorem insertF_self {o : List (String × Json)} {k : String} {x : Json}
    (h : lookupF o k = some x) : insertF o k x = o := by
  induction o with
  | nil => simp [lookupF] at h
  | cons kv rest ih =>
    obtain ⟨k2, v⟩ := kv
    simp only [lookupF] at h
    simp only [insertF]
    by_cases hk : k2 = k
    · rw [if_pos hk] at h
      rw [if_pos hk, Option.some.inj h]
    · rw [if_neg hk] at h
      rw [if_neg hk, ih h]

theorem applySteps_absent (f : Json → Except String Json) (steps : List NavStep) :
    ∀ v : Json, absentAt steps v = true → applySteps f steps v = .ok v := by
  induction steps with
  | nil => intro v h; simp [absentAt] at h
  | cons s rest ih =>
    intro v h
    match s, v with
    | .fieldStep k, .null | .fieldStep k, .bool _ | .fieldStep k, .num _
    | .fieldStep k, .str _ | .fieldStep k, .arr _ => rfl
    | .fieldStep k, .obj o =>
      simp only [absentAt] at h
      simp only [applySteps]
      cases hl : lookupF o k with
      | none => rfl
      | some x =>
        rw [hl] at h
        show (fun x2 => Json.obj (insertF o k x2)) <$> applySteps f rest x = Except.ok (Json.obj o)
        rw [ih x h]
        show Except.ok (Json.obj (insertF o k x)) = Except.ok (Json.obj o)
        rw [insertF_self hl]
    | .flattenStep, .null | .flattenStep, .bool _ | .flattenStep, .num _
    | .flattenStep, .str _ =>
      simp [absentAt] at h
    | .flattenStep, .arr xs =>
      simp only [absentAt, List.all_eq_true] at h
      simp only [applySteps]
      rw [mapM_ok_id _ _ (fun x hx => ih x (h x hx))]
      rfl
    | .flattenStep, .obj o =>
      simp only [absentAt, List.all_eq_true] at h
      simp only [applySteps]
      have : o.mapM (fun kv => (fun x2 => (kv.1, x2)) <$> applySteps f rest kv.2) = .ok o := by
        apply mapM_ok_id
        intro kv hkv
        rw [ih kv.2 (h kv hkv)]
        rfl
      rw [this]
      rfl

/-! ## Reference-set reasoning for the step navigator -/

/-- `Q` holds at every reference the remaining steps resolve in `v`,
every flattened position is a container (no panic), and references
dropped at failed lookups are ignored. -/
def AtRefs : List NavStep → (Json → Prop) → Json → Prop
  | [], Q, v => Q v
  | .fieldStep k :: rest, Q, v =>
    match v with
    | .obj o => ∀ x, lookupF o k = some x → AtRefs rest Q x
    | _ => True
  | .flattenStep :: rest, Q, v =>
    match v with
    | .arr xs => ∀ x ∈ xs, AtRefs rest Q x
    | .obj o => ∀ kv ∈ o, AtRefs rest Q kv.2
    | _ => False

theorem atRefs_mono {Q R : Json → Prop} (h : ∀ x, Q x → R x) :
    ∀ (steps : List NavStep) (v : Json), AtRefs steps Q v → AtRefs steps R v := by
  intro steps
  induction steps with
  | nil => exact fun v hv => h v hv
  | cons st rest ih =>
    intro v hv
    cases st with
    | fieldStep k =>
      cases v with
      | obj o => exact fun x hx => ih x (hv x hx)
      | null => trivial
      | bool b => trivial
      | num n => trivial
      | str s => trivial
      | arr xs => trivial
    | flattenStep =>
      cases v with
      | arr xs => exact fun x hx => ih x (hv x hx)
      | obj o => exact fun kv hkv => ih kv.2 (hv kv hkv)
      | null => exact hv
      | bool b => exact hv
      | num n => exact hv
      | str s => exact hv

theorem applySteps_append (f : Json → Except String Json) :
    ∀ (s t : List NavStep) (v : Json),
      applySteps f (s ++ t) v = applySteps (applySteps f t) s v := by
  intro s
  induction s with
  | nil => intro t v; rfl
  | cons st rest ih =>
    intro t v
    have ihf : applySteps f (rest ++ t) = applySteps (applySteps f t) rest :=
      funext (fun w => ih t w)
    cases st with
    | fieldStep k =>
      cases v with
      | obj o =>
        simp only [List.cons_append, applySteps]
        cases lookupF o k with
        | none => rfl
        | some x =>
          show (fun x2 => Json.obj (insertF o k x2)) <$> applySteps f (rest ++ t) x =
            (fun x2 => Json.obj (insertF o k x2)) <$> applySteps (applySteps f t) rest x
          rw [ih t x]
      | null => rfl
      | bool b => rfl
      | num n => rfl
      | str s2 => rfl
      | arr xs => rfl
    | flattenStep =>
      cases v with
      | arr xs =>
        show Json.arr <$> xs.mapM (applySteps f (rest ++ t)) =
          Json.arr <$> xs.mapM (applySteps (applySteps f t) rest)
        rw [ihf]
      | obj o =>
        show Json.obj <$> o.mapM (fun kv => (fun x2 => (kv.1, x2)) <$> applySteps f (rest ++ t) kv.2) =
          Json.obj <$> o.mapM (fun kv => (fun x2 => (kv.1, x2)) <$> applySteps (applySteps f t) rest kv.2)
        rw [ihf]
      | null => rfl
      | bool b => rfl
      | num n => rfl
      | str s2 => rfl

theorem applySteps_ok_id (g : Json → Except String Json) :
    ∀ (steps : List NavStep) (v : Json), AtRefs steps (fun x => g x = .ok x) v →
      applySteps g steps v = .ok v := by
  intro steps
  induction steps with
  | nil => exact fun v hv => hv
  | cons st rest ih =>
    intro v hv
    cases st with
    | fieldStep k =>
      cases v with
      | obj o =>
        simp only [applySteps]
        cases hl : lookupF o k with
        | none => rfl
        | some x =>
          show (fun x2 => Json.obj (insertF o k x2)) <$> applySteps g rest x =
            Except.ok (Json.obj o)
          rw [ih x (hv x hl)]
          show Except.ok (Json.obj (insertF o k x)) = Except.ok (Json.obj o)
          rw [insertF_self hl]
      | null => rfl
      | bool b => rfl
      | num n => rfl
      | str s => rfl
      | arr xs => rfl
    | flattenStep =>
      cases v with
      | arr xs =>
        simp only [applySteps]
        rw [mapM_ok_id _ _ (fun x hx => ih x (hv x hx))]
        rfl
      | obj o =>
        simp only [applySteps]
        have hm : o.mapM (fun kv => (fun x2 => (kv.1, x2)) <$> applySteps g rest kv.2) = .ok o := by
          apply mapM_ok_id
          intro kv hkv
          rw [ih kv.2 (hv kv hkv)]
          rfl
        rw [hm]
        rfl
      | null => exact False.elim hv
      | bool b => exact False.elim hv
      | num n => exact False.elim hv
      | str s => exact False.elim hv

theorem applySteps_exists_ok (g : Json → Except String Json) :
    ∀ (steps : List NavStep) (v : Json), AtRefs steps (fun x => ∃ y, g x = .ok y) v →
      ∃ w, applySteps g steps v = .ok w := by
  intro steps
  induction steps with
  | nil => exact fun v hv => hv
  | cons st rest ih =>
    intro v hv
    cases st with
    | fieldStep k =>
      cases v with
      | obj o =>
        simp only [applySteps]
        cases hl : lookupF o k with
        | none => exact ⟨.obj o, rfl⟩
        | some x =>
          obtain ⟨w, hw⟩ := ih x (hv x hl)
          refine ⟨.obj (insertF o k w), ?_⟩
          show (fun x2 => Json.obj (insertF o k x2)) <$> applySteps g rest x =
            Except.ok (Json.obj (insertF o k w))
          rw [hw]
          rfl
      | null => exact ⟨_, rfl⟩
      | bool b => exact ⟨_, rfl⟩
      | num n => exact ⟨_, rfl⟩
      | str s => exact ⟨_, rfl⟩
      | arr xs => exact ⟨_, rfl⟩
    | flattenStep =>
      cases v with
      | arr xs =>
        simp only [applySteps]
        obtain ⟨ys, hys, _⟩ := mapM_ok_exists (applySteps g rest) xs (fun x hx => ih x (hv x hx))
        rw [hys]
        exact ⟨.arr ys, rfl⟩
      | obj o =>
        simp only [applySteps]
        obtain ⟨ys, hys, _⟩ := mapM_ok_exists
          (fun kv => (fun x2 => (kv.1, x2)) <$> applySteps g rest kv.2) o
          (by
            intro kv hkv
            obtain ⟨w, hw⟩ := ih kv.2 (hv kv hkv)
            refine ⟨(kv.1, w), ?_⟩
            show (fun x2 => (kv.1, x2)) <$> applySteps g rest kv.2 = Except.ok (kv.1, w)
            rw [hw]
            rfl)
        rw [hys]
        exact ⟨.obj ys, rfl⟩
      | null => exact False.elim hv
      | bool b => exact False.elim hv
      | num n => exact False.elim hv
      | str s => exact False.elim hv

/-! ## The converter as a list of navigation operations -/

/-- One conversion operation: navigation steps from the document root
and the rewrite applied at every resolved reference. -/
abbrev ConvOp := List NavStep × (Json → Except String Json)

/-- Run a list of operations in order. -/
def convertOps (ops : List ConvOp) (d : Json) : Except String Json :=
  ops.foldlM (fun v op => applySteps op.2 op.1 v) d

/-- The flattening steps a list ancestor contributes (one per key). -/
def flattensOf (k : SchemaNodeKind) (ky : List (String × DataValueType)) : List NavStep :=
  if k = SchemaNodeKind.list then List.replicate ky.length .flattenStep else []

/-- Prefix every operation's steps. -/
def prefixOps (P : List NavStep) (ops : List ConvOp) : List ConvOp :=
  ops.map (fun op => (P ++ op.1, op.2))

theorem prefixOps_nil (ops : List ConvOp) : prefixOps [] ops = ops := by
  rw [prefixOps]
  conv_rhs => rw [← List.map_id ops]
  apply List.map_congr_left
  intro op _
  rfl

theorem prefixOps_append (P : List NavStep) (ops1 ops2 : List ConvOp) :
    prefixOps P (ops1 ++ ops2) = prefixOps P ops1 ++ prefixOps P ops2 :=
  List.map_append _ _ _

theorem prefixOps_prefixOps (A B : List NavStep) (ops : List ConvOp) :
    prefixOps A (prefixOps B ops) = prefixOps (A ++ B) ops := by
  rw [prefixOps, prefixOps, prefixOps, List.map_map]
  apply List.map_congr_left
  intro op _
  simp [List.append_assoc]

/-- The self-rewrite operation of a node (empty unless a keyed list). -/
def opsSelf (mode : ConvertMode) (b : Bool) (n : SchemaNode) : List ConvOp :=
  if n.kind = SchemaNodeKind.list ∧ n.keys ≠ [] then
    [([NavStep.fieldStep (qualify b n.name)], nodeRewrite mode n)]
  else []

mutual
/-- The operations the converter performs for the subtree rooted at a
node, in visiting order (reversed preorder: descendants before the node,
later siblings before earlier ones), with navigation steps relative to
the node's parent; `b` module-qualifies the node's own field name (true
only for top-level roots). -/
def opsN (mode : ConvertMode) (b : Bool) : SchemaNode → List ConvOp
  | .mk nm k ky cs =>
    prefixOps (NavStep.fieldStep (qualify b nm) :: flattensOf k ky) (opsF mode cs) ++
    opsSelf mode b (.mk nm k ky cs)

def opsF (mode : ConvertMode) : SchemaForest → List ConvOp
  | .nil => []
  | .cons c cs => opsF mode cs ++ opsN mode false c
end

/-- The operation of one enumerated entry. -/
def entryOp (mode : ConvertMode) (first : Bool) (e : List SchemaNode × SchemaNode) : ConvOp :=
  (ancestorSteps first e.1, nodeRewrite mode e.2)

/-- The node filter of the converter, as used by `keyedListEntries`. -/
def keyedP (e : List SchemaNode × SchemaNode) : Bool :=
  decide (e.2.kind = SchemaNodeKind.list) && !e.2.keys.isEmpty

/-- The navigation steps contributed by a list of ancestors that are all
*passed through* (name lookup plus flattening for list ancestors). -/
def stepsThrough (first : Bool) : List SchemaNode → List NavStep
  | [] => []
  | n :: rest =>
    NavStep.fieldStep (qualify first n.name) ::
      (flattensOf n.kind n.keys ++ stepsThrough false rest)

theorem stepsThrough_append (first : Bool) (xs ys : List SchemaNode) :
    stepsThrough first (xs ++ ys) =
      stepsThrough first xs ++ stepsThrough (first && xs.isEmpty) ys := by
  induction xs generalizing first with
  | nil => simp [stepsThrough]
  | cons x xs ih =>
    simp only [List.cons_append, stepsThrough, List.append_eq]
    rw [ih false]
    simp [Bool.false_and, Bool.and_false, List.isEmpty_cons, List.append_assoc]

theorem ancestorSteps_split (first : Bool) (xs ys : List SchemaNode) (h : ys ≠ []) :
    ancestorSteps first (xs ++ ys) =
      stepsThrough first xs ++ ancestorSteps (first && xs.isEmpty) ys := by
  induction xs generalizing first with
  | nil => simp [stepsThrough]
  | cons x xs ih =>
    cases xs with
    | nil =>
      obtain ⟨y, ys2, rfl⟩ := List.exists_cons_of_ne_nil h
      show NavStep.fieldStep (qualify first x.name) ::
        ((if x.kind = SchemaNodeKind.list then List.replicate x.keys.length .flattenStep
          else []) ++ ancestorSteps false (y :: ys2)) = _
      simp [stepsThrough, flattensOf]
    | cons x2 xs2 =>
      show NavStep.fieldStep (qualify first x.name) ::
        ((if x.kind = SchemaNodeKind.list then List.replicate x.keys.length .flattenStep
          else []) ++ ancestorSteps false (x2 :: xs2 ++ ys)) = _
      rw [show (x2 :: xs2 ++ ys : List SchemaNode) = (x2 :: xs2) ++ ys from rfl, ih false]
      simp [stepsThrough, flattensOf, Bool.false_and, Bool.and_false, List.isEmpty_cons,
        List.append_assoc]

theorem ancestorSteps_single (first : Bool) (n : SchemaNode) :
    ancestorSteps first [n] = [NavStep.fieldStep (qualify first n.name)] := rfl

theorem stepsThrough_single (b : Bool) (n : SchemaNode) :
    stepsThrough b [n] = NavStep.fieldStep (qualify b n.name) :: flattensOf n.kind n.keys := by
  simp [stepsThrough]

theorem opsSelf_spec (mode : ConvertMode) (first : Bool) (anc : List SchemaNode) (n : SchemaNode) :
    ([(anc ++ [n], n)].filter keyedP).map (entryOp mode first) =
      prefixOps (stepsThrough first anc) (opsSelf mode (first && anc.isEmpty) n) := by
  by_cases h : n.kind = SchemaNodeKind.list ∧ n.keys ≠ []
  · have hkp : keyedP (anc ++ [n], n) = true := by
      simp [keyedP, h.1, List.isEmpty_iff, h.2]
    simp only [List.filter_cons, hkp, if_true, List.filter_nil, List.map_cons, List.map_nil]
    rw [opsSelf, if_pos h, prefixOps, List.map_cons, List.map_nil]
    rw [entryOp, ancestorSteps_split first anc [n] (by simp), ancestorSteps_single]
  · have hkp : keyedP (anc ++ [n], n) = false := by
      rw [keyedP]
      rcases not_and_or.mp h with h1 | h2
      · simp [h1]
      · have : n.keys = [] := not_not.mp h2
        simp [this]
    simp only [List.filter_cons, hkp, List.filter_nil, List.map_nil]
    rw [opsSelf, if_neg h, prefixOps, List.map_nil]
    rfl

mutual
theorem opsN_spec (mode : ConvertMode) :
    ∀ (n : SchemaNode) (anc : List SchemaNode) (first : Bool),
      ((preorderChains anc n).reverse.filter keyedP).map (entryOp mode first) =
        prefixOps (stepsThrough first anc) (opsN mode (first && anc.isEmpty) n)
  | .mk nm k ky cs, anc, first => by
    have hf := opsF_spec mode cs (anc ++ [SchemaNode.mk nm k ky cs]) first (by simp)
    have hself := opsSelf_spec mode first anc (SchemaNode.mk nm k ky cs)
    show (((SchemaNode.mk nm k ky cs :: [] |> fun _ => preorderChains anc (SchemaNode.mk nm k ky cs)).reverse.filter keyedP).map (entryOp mode first)) = _
    rw [show preorderChains anc (SchemaNode.mk nm k ky cs) =
        (anc ++ [SchemaNode.mk nm k ky cs], SchemaNode.mk nm k ky cs) ::
          preorderChainsF (anc ++ [SchemaNode.mk nm k ky cs]) cs from rfl]
    rw [List.reverse_cons, List.filter_append, List.map_append, hf]
    rw [show ((List.filter keyedP [(anc ++ [SchemaNode.mk nm k ky cs], SchemaNode.mk nm k ky cs)]).map (entryOp mode first)) =
      prefixOps (stepsThrough first anc)
        (opsSelf mode (first && anc.isEmpty) (SchemaNode.mk nm k ky cs)) from hself]
    rw [show opsN mode (first && anc.isEmpty) (SchemaNode.mk nm k ky cs) =
        prefixOps (NavStep.fieldStep (qualify (first && anc.isEmpty) nm) :: flattensOf k ky)
          (opsF mode cs) ++
        opsSelf mode (first && anc.isEmpty) (SchemaNode.mk nm k ky cs) from rfl]
    rw [prefixOps_append, prefixOps_prefixOps]
    congr 2
    rw [stepsThrough_append first anc [SchemaNode.mk nm k ky cs], stepsThrough_single]
    rfl

theorem opsF_spec (mode : ConvertMode) :
    ∀ (cs : SchemaForest) (anc : List SchemaNode) (first : Bool), anc ≠ [] →
      ((preorderChainsF anc cs).reverse.filter keyedP).map (entryOp mode first) =
        prefixOps (stepsThrough first anc) (opsF mode cs)
  | .nil, anc, first, _ => by
    simp [preorderChainsF, prefixOps, opsF]
  | .cons c cs, anc, first, h => by
    have hc := opsN_spec mode c anc first
    have hcs := opsF_spec mode cs anc first h
    have hanc : anc.isEmpty = false := by
      cases anc with
      | nil => exact absurd rfl h
      | cons a anc2 => rfl
    rw [show preorderChainsF anc (.cons c cs) =
        preorderChains anc c ++ preorderChainsF anc cs from rfl]
    rw [List.reverse_append, List.filter_append, List.map_append, hcs, hc, hanc,
      Bool.and_false]
    rw [show opsF mode (.cons c cs) = opsF mode cs ++ opsN mode false c from rfl,
      prefixOps_append]
end

theorem keyedEntries_ops (mode : ConvertMode) (roots : List SchemaNode) :
    (keyedListEntries roots).map (entryOp mode true) = roots.flatMap (opsN mode true) := by
  rw [keyedListEntries]
  induction roots with
  | nil => rfl
  | cons r rs ih =>
    rw [List.flatMap_cons, List.flatMap_cons, List.filter_append, List.map_append, ih]
    congr 1
    have h := opsN_spec mode r [] true
    rw [show stepsThrough true [] = [] from rfl] at h
    rw [prefixOps_nil] at h
    exact h

theorem convert_ops (mode : ConvertMode) (roots : List SchemaNode) (d : Json) :
    convert mode roots d = convertOps (roots.flatMap (opsN mode true)) d := by
  rw [← keyedEntries_ops, convert, convertEntries, convertOps, List.foldlM_map]
  rfl

theorem convertOps_append (ops1 ops2 : List ConvOp) (d : Json) :
    convertOps (ops1 ++ ops2) d = convertOps ops1 d >>= convertOps ops2 := by
  show List.foldlM (fun v op => applySteps op.2 op.1 v) d (ops1 ++ ops2) =
    List.foldlM (fun v op => applySteps op.2 op.1 v) d ops1 >>= fun d2 =>
      List.foldlM (fun v op => applySteps op.2 op.1 v) d2 ops2
  induction ops1 generalizing d with
  | nil =>
    cases h : List.foldlM (fun v op => applySteps op.2 op.1 v) d ops2 <;> rfl
  | cons op ops ih =>
    rw [List.cons_append, List.foldlM_cons, List.foldlM_cons]
    cases h : applySteps op.2 op.1 d with
    | error e => rfl
    | ok d1 => exact ih d1

/-! ## Schema well-formedness and list-style validity -/

/-- Names of the nodes of a forest. -/
def namesF : SchemaForest → List String
  | .nil => []
  | .cons c cs => c.name :: namesF cs

mutual
/-- Does the subtree contain a keyed list node? -/
def hasKeyedN : SchemaNode → Bool
  | .mk _ k ky cs => (decide (k = SchemaNodeKind.list) && !ky.isEmpty) || hasKeyedF cs

def hasKeyedF : SchemaForest → Bool
  | .nil => false
  | .cons c cs => hasKeyedN c || hasKeyedF cs
end

mutual
/-- Well-formed schema subtree: key-field names and child names are
pairwise distinct, and a keyed list with two or more keys has no
keyed-list descendant (the single-key-ancestor proviso of the amended
round-trip claim, forced by the over-flattening shown in the C2 bug). -/
def wfN : SchemaNode → Bool
  | .mk _ k ky cs =>
    decide ((ky.map Prod.fst ++ namesF cs).Nodup) &&
    (!(decide (k = SchemaNodeKind.list) && decide (2 ≤ ky.length)) || !hasKeyedF cs) &&
    wfF cs

def wfF : SchemaForest → Bool
  | .nil => true
  | .cons c cs => wfN c && wfF cs
end

/-- A key value of the declared scalar kind: a number for numeric key
types, a string otherwise. -/
def keyValOk : DataValueType → Json → Bool
  | t, .num _ => t.isNumeric
  | t, .str _ => !t.isNumeric
  | _, _ => false

/-- Every key field present in the element with a coercible value. -/
def keysPresent (ky : List (String × DataValueType)) (el : Json) : Bool :=
  ky.all (fun kt =>
    match el with
    | .obj fields =>
      match lookupF fields kt.1 with
      | some w => keyValOk kt.2 w
      | none => false
    | _ => false)

/-- The coerced map-key strings of an element, in schema key order. -/
def keyStrsOf (ky : List (String × DataValueType)) (el : Json) : List String :=
  ky.map (fun kt =>
    match el with
    | .obj fields =>
      match lookupF fields kt.1 with
      | some (.str s) => s
      | some (.num n) => intToStr n
      | _ => ""
    | _ => "")

/-- Distinct field names (objects only). -/
def fieldNamesNodup : Json → Bool
  | .obj fields => decide ((fields.map Prod.fst).Nodup)
  | _ => false

mutual
/-- Validity of a list-style value at a schema node: a keyed list is a
non-empty array of objects with distinct field names, all key fields
present with coercible values, distinct coerced key tuples, and valid
child fields; a keyless list is an array (and is then never touched);
any other node recurses into whichever child-named fields are present
when the value is an object, and constrains nothing otherwise. -/
def validN : SchemaNode → Json → Bool
  | .mk _ k ky cs, v =>
    if k = SchemaNodeKind.list then
      if ky.isEmpty then v.isArr
      else
        match v with
        | .arr els =>
          !els.isEmpty &&
          els.all (fun el => fieldNamesNodup el && keysPresent ky el && validF cs el) &&
          decide ((els.map (keyStrsOf ky)).Nodup)
        | _ => false
    else
      match v with
      | .obj fields => decide ((fields.map Prod.fst).Nodup) && validF cs v
      | _ => true

def validF : SchemaForest → Json → Bool
  | .nil, _ => true
  | .cons c cs, v =>
    (match v with
     | .obj fields =>
       match lookupF fields c.name with
       | some x => validN c x
       | none => true
     | _ => true) &&
    validF cs v
end

/-! ## Compositional reference conversions -/

/-- Update one named field of an object through `g` (absent field or
non-object: unchanged) — exactly a single `fieldStep` navigation. -/
def childUpdate (nm : String) (g : Json → Except String Json) (v : Json) : Except String Json :=
  applySteps g [NavStep.fieldStep nm] v

mutual
/-- The compositional `Yang2Nix` (ListToMap) conversion at a schema
node: a keyed list first converts the interiors of its array's elements
(descendants are visited before the node), then restructures the array
into the nested map; a keyless list is untouched; any other node
converts whichever child-named fields are present.  Under validity this
is what the navigating converter computes. -/
def specY2Nnode : SchemaNode → Json → Except String Json
  | .mk _ k ky cs, x =>
    if k = SchemaNodeKind.list then
      if ky.isEmpty then .ok x
      else
        match x with
        | .arr els => do
          let els2 ← specY2Nelems cs els
          els2.foldlM (insertEl (ky.map Prod.fst)) .null
        | _ => .error "Expected an array. Are you sure this is a YANG-style file?"
    else specY2NintoF cs x
termination_by n _ => (sizeOf n, 1, 0)

def specY2Nelems : SchemaForest → List Json → Except String (List Json)
  | _, [] => .ok []
  | cs, el :: els => do
    let el2 ← specY2NintoF cs el
    let els2 ← specY2Nelems cs els
    .ok (el2 :: els2)
termination_by cs els => (sizeOf cs, 0, els.length + 1)

/-- Convert the child-named fields of a container-like value, later
children first (the converter's sibling visiting order). -/
def specY2NintoF : SchemaForest → Json → Except String Json
  | .nil, v => .ok v
  | .cons c cs, v => do
    let v1 ← specY2NintoF cs v
    match v1 with
    | .obj fields =>
      match lookupF fields c.name with
      | some x => do
        let x2 ← specY2Nnode c x
        .ok (.obj (insertF fields c.name x2))
      | none => .ok v1
    | _ => .ok v1
termination_by cs _ => (sizeOf cs, 0, 0)
end

mutual
/-- The compositional `Nix2Yang` (MapToList) conversion at a schema
node: a keyed list first converts the interiors at the leaves of its
nested map (one shape-agnostic flattening level per key, exactly as the
navigator descends), then restructures the map into the array; a
keyless list is untouched; any other node converts whichever child-named
fields are present. -/
def specN2Ynode : SchemaNode → Json → Except String Json
  | .mk _ k ky cs, x =>
    if k = SchemaNodeKind.list then
      if ky.isEmpty then .ok x
      else do
        let x2 ← specN2Yleaves ky.length cs x
        nix2yangRewrite ky x2
    else specN2YintoF cs x
termination_by n _ => (sizeOf n, 0, 1, 0)

def specN2Yleaves : Nat → SchemaForest → Json → Except String Json
  | 0, cs, x => specN2YintoF cs x
  | d + 1, cs, x =>
    match x with
    | .arr xs => Json.arr <$> specN2YleavesList d cs xs
    | .obj o => Json.obj <$> specN2YleavesFields d cs o
    | _ => .error "flatten panic"
termination_by d cs _ => (sizeOf cs, d + 1, 0, 0)

def specN2YleavesList : Nat → SchemaForest → List Json → Except String (List Json)
  | _, _, [] => .ok []
  | d, cs, x :: xs => do
    let y ← specN2Yleaves d cs x
    let ys ← specN2YleavesList d cs xs
    .ok (y :: ys)
termination_by d cs xs => (sizeOf cs, d + 1, 0, xs.length + 1)

def specN2YleavesFields : Nat → SchemaForest → List (String × Json) →
    Except String (List (String × Json))
  | _, _, [] => .ok []
  | d, cs, kv :: o => do
    let y ← specN2Yleaves d cs kv.2
    let ys ← specN2YleavesFields d cs o
    .ok ((kv.1, y) :: ys)
termination_by d cs o => (sizeOf cs, d + 1, 0, o.length + 1)

def specN2YintoF : SchemaForest → Json → Except String Json
  | .nil, v => .ok v
  | .cons c cs, v => do
    let v1 ← specN2YintoF cs v
    match v1 with
    | .obj fields =>
      match lookupF fields c.name with
      | some x => do
        let x2 ← specN2Ynode c x
        .ok (.obj (insertF fields c.name x2))
      | none => .ok v1
    | _ => .ok v1
termination_by cs _ => (sizeOf cs, 0, 0, 0)
end

theorem specY2Nelems_eq_mapM (cs : SchemaForest) (els : List Json) :
    specY2Nelems cs els = els.mapM (specY2NintoF cs) := by
  induction els with
  | nil => simp only [specY2Nelems]; rfl
  | cons el els ih =>
    rw [List.mapM_cons]
    simp only [specY2Nelems]
    rw [ih]
    rfl

theorem specN2YleavesList_eq_mapM (d : Nat) (cs : SchemaForest) (xs : List Json) :
    specN2YleavesList d cs xs = xs.mapM (specN2Yleaves d cs) := by
  induction xs with
  | nil => simp only [specN2YleavesList]; rfl
  | cons x xs ih =>
    rw [List.mapM_cons]
    simp only [specN2YleavesList]
    rw [ih]
    rfl

theorem specN2YleavesFields_eq_mapM (d : Nat) (cs : SchemaForest)
    (o : List (String × Json)) :
    specN2YleavesFields d cs o =
      o.mapM (fun kv => (fun y => (kv.1, y)) <$> specN2Yleaves d cs kv.2) := by
  induction o with
  | nil => simp only [specN2YleavesFields]; rfl
  | cons kv o ih =>
    rw [List.mapM_cons]
    simp only [specN2YleavesFields]
    rw [ih]
    cases h : specN2Yleaves d cs kv.2 with
    | error e => rfl
    | ok y =>
      cases h2 : o.mapM (fun kv => (fun y => (kv.1, y)) <$> specN2Yleaves d cs kv.2) with
      | error e => rfl
      | ok ys => rfl

theorem specN2Yleaves_eq_applySteps (cs : SchemaForest) :
    ∀ (d : Nat) (x : Json),
      specN2Yleaves d cs x =
        applySteps (specN2YintoF cs) (List.replicate d .flattenStep) x := by
  intro d
  induction d with
  | zero =>
    intro x
    simp only [specN2Yleaves]
    rfl
  | succ d ih =>
    intro x
    rw [List.replicate_succ]
    cases x with
    | arr xs =>
      simp only [specN2Yleaves]
      rw [specN2YleavesList_eq_mapM]
      show _ = Json.arr <$> xs.mapM (applySteps (specN2YintoF cs) (List.replicate d .flattenStep))
      rw [mapM_congr_mem _ _ xs (fun x _ => ih x)]
    | obj o =>
      simp only [specN2Yleaves]
      rw [specN2YleavesFields_eq_mapM]
      show _ = Json.obj <$> o.mapM (fun kv =>
        (fun x2 => (kv.1, x2)) <$>
          applySteps (specN2YintoF cs) (List.replicate d .flattenStep) kv.2)
      rw [mapM_congr_mem _ _ o (fun kv _ => by rw [ih kv.2])]
    | null => simp [specN2Yleaves]; rfl
    | bool b => simp [specN2Yleaves]; rfl
    | num n => simp [specN2Yleaves]; rfl
    | str s => simp [specN2Yleaves]; rfl

theorem specY2NintoF_cons (c : SchemaNode) (cs : SchemaForest) (v : Json) :
    specY2NintoF (.cons c cs) v =
      specY2NintoF cs v >>= childUpdate c.name (specY2Nnode c) := by
  simp only [specY2NintoF]
  cases h : specY2NintoF cs v with
  | error e => rfl
  | ok v1 =>
    cases v1 with
    | obj fields =>
      show (match lookupF fields c.name with
            | some x => do
              let x2 ← specY2Nnode c x
              (Except.ok (Json.obj (insertF fields c.name x2)) : Except String Json)
            | none => Except.ok (Json.obj fields)) =
          (match lookupF fields c.name with
            | some x => (fun x2 => Json.obj (insertF fields c.name x2)) <$> specY2Nnode c x
            | none => Except.ok (Json.obj fields))
      cases hl : lookupF fields c.name with
      | none => rfl
      | some x =>
        cases hx : specY2Nnode c x with
        | error e => rfl
        | ok x2 => rfl
    | null => rfl
    | bool b => rfl
    | num n => rfl
    | str s => rfl
    | arr xs => rfl

theorem specN2YintoF_cons (c : SchemaNode) (cs : SchemaForest) (v : Json) :
    specN2YintoF (.cons c cs) v =
      specN2YintoF cs v >>= childUpdate c.name (specN2Ynode c) := by
  simp only [specN2YintoF]
  cases h : specN2YintoF cs v with
  | error e => rfl
  | ok v1 =>
    cases v1 with
    | obj fields =>
      show (match lookupF fields c.name with
            | some x => do
              let x2 ← specN2Ynode c x
              (Except.ok (Json.obj (insertF fields c.name x2)) : Except String Json)
            | none => Except.ok (Json.obj fields)) =
          (match lookupF fields c.name with
            | some x => (fun x2 => Json.obj (insertF fields c.name x2)) <$> specN2Ynode c x
            | none => Except.ok (Json.obj fields))
      cases hl : lookupF fields c.name with
      | none => rfl
      | some x =>
        cases hx : specN2Ynode c x with
        | error e => rfl
        | ok x2 => rfl
    | null => rfl
    | bool b => rfl
    | num n => rfl
    | str s => rfl
    | arr xs => rfl

theorem pairF_ok {g : Json → Except String Json} {kv kv1 : String × Json}
    (h : ((fun x2 => (kv.1, x2)) <$> g kv.2) = .ok kv1) :
    kv1.1 = kv.1 ∧ g kv.2 = .ok kv1.2 := by
  cases hx : g kv.2 with
  | error e => rw [hx] at h; exact Except.noConfusion h
  | ok w =>
    rw [hx] at h
    injection h with h2
    constructor
    · rw [← h2]
    · rw [← h2]

theorem applySteps_comp (f g : Json → Except String Json) :
    ∀ (steps : List NavStep) (v v1 : Json), applySteps f steps v = .ok v1 →
      applySteps g steps v1 = applySteps (fun x => f x >>= g) steps v := by
  intro steps
  induction steps with
  | nil =>
    intro v v1 h
    show g v1 = f v >>= g
    have h2 : f v = .ok v1 := h
    rw [h2]
    rfl
  | cons st rest ih =>
    intro v v1 h
    cases st with
    | fieldStep k =>
      cases v with
      | obj o =>
        cases hl : lookupF o k with
        | none =>
          simp only [applySteps, hl] at h ⊢
          injection h with h2
          subst h2
          simp only [applySteps, hl]
        | some x =>
          simp only [applySteps, hl] at h ⊢
          cases hx : applySteps f rest x with
          | error e => rw [hx] at h; exact Except.noConfusion h
          | ok x1 =>
            rw [hx] at h
            injection h with h2
            subst h2
            simp only [applySteps, lookupF_insertF_self]
            rw [ih x x1 hx]
            cases hz : applySteps (fun x => f x >>= g) rest x with
            | error e => rfl
            | ok z =>
              show Except.ok (Json.obj (insertF (insertF o k x1) k z)) =
                Except.ok (Json.obj (insertF o k z))
              rw [insertF_insertF]
      | null =>
        have h2 : Json.null = v1 := Except.ok.inj h
        subst h2
        rfl
      | bool b =>
        have h2 : Json.bool b = v1 := Except.ok.inj h
        subst h2
        rfl
      | num n =>
        have h2 : Json.num n = v1 := Except.ok.inj h
        subst h2
        rfl
      | str s =>
        have h2 : Json.str s = v1 := Except.ok.inj h
        subst h2
        rfl
      | arr xs =>
        have h2 : Json.arr xs = v1 := Except.ok.inj h
        subst h2
        rfl
    | flattenStep =>
      cases v with
      | arr xs =>
        simp only [applySteps] at h ⊢
        cases hm : xs.mapM (applySteps f rest) with
        | error e => rw [hm] at h; exact Except.noConfusion h
        | ok xs1 =>
          rw [hm] at h
          injection h with h2
          subst h2
          simp only [applySteps]
          have hf := mapM_ok_forall₂ (applySteps f rest) xs xs1 hm
          have he : xs1.mapM (applySteps g rest) =
              xs.mapM (applySteps (fun x => f x >>= g) rest) :=
            mapM_eq_of_forall₂ _ _ (hf.imp (fun a b hxy => ih a b hxy))
          rw [he]
      | obj o =>
        simp only [applySteps] at h ⊢
        cases hm : o.mapM (fun kv => (fun x2 => (kv.1, x2)) <$> applySteps f rest kv.2) with
        | error e => rw [hm] at h; exact Except.noConfusion h
        | ok o1 =>
          rw [hm] at h
          injection h with h2
          subst h2
          simp only [applySteps]
          have hf := mapM_ok_forall₂ _ _ _ hm
          have he : o1.mapM (fun kv => (fun x2 => (kv.1, x2)) <$> applySteps g rest kv.2) =
              o.mapM (fun kv => (fun x2 => (kv.1, x2)) <$>
                applySteps (fun x => f x >>= g) rest kv.2) := by
            apply mapM_eq_of_forall₂
            refine hf.imp ?_
            intro kv kv1 hkv
            obtain ⟨hname, happ⟩ := pairF_ok hkv
            rw [hname, ih _ _ happ]
          rw [he]
      | null => exact Except.noConfusion h
      | bool b => exact Except.noConfusion h
      | num n => exact Except.noConfusion h
      | str s => exact Except.noConfusion h

theorem applySteps_congr (f g : Json → Except String Json) (Q : Json → Prop)
    (hfg : ∀ x, Q x → f x = g x) :
    ∀ (steps : List NavStep) (v : Json), AtRefs steps Q v →
      applySteps f steps v = applySteps g steps v := by
  intro steps
  induction steps with
  | nil => exact fun v hv => hfg v hv
  | cons st rest ih =>
    intro v hv
    cases st with
    | fieldStep k =>
      cases v with
      | obj o =>
        cases hl : lookupF o k with
        | none => simp only [applySteps, hl]
        | some x =>
          simp only [applySteps, hl]
          rw [ih x (hv x hl)]
      | null => rfl
      | bool b => rfl
      | num n => rfl
      | str s => rfl
      | arr xs => rfl
    | flattenStep =>
      cases v with
      | arr xs =>
        simp only [applySteps]
        rw [mapM_congr_mem _ _ xs (fun x hx => ih x (hv x hx))]
      | obj o =>
        simp only [applySteps]
        rw [mapM_congr_mem _ _ o (fun kv hkv => by rw [ih kv.2 (hv kv hkv)])]
      | null => exact False.elim hv
      | bool b => exact False.elim hv
      | num n => exact False.elim hv
      | str s => exact False.elim hv

theorem atRefs_after (f : Json → Except String Json) (Q R : Json → Prop)
    (hfr : ∀ x y, Q x → f x = .ok y → R y) :
    ∀ (steps : List NavStep) (v v1 : Json), AtRefs steps Q v →
      applySteps f steps v = .ok v1 → AtRefs steps R v1 := by
  intro steps
  induction steps with
  | nil => exact fun v v1 hv h => hfr v v1 hv h
  | cons st rest ih =>
    intro v v1 hv h
    cases st with
    | fieldStep k =>
      cases v with
      | obj o =>
        cases hl : lookupF o k with
        | none =>
          simp only [applySteps, hl] at h
          injection h with h2
          subst h2
          intro x hx
          rw [hl] at hx
          exact Option.noConfusion hx
        | some x =>
          simp only [applySteps, hl] at h
          cases hx : applySteps f rest x with
          | error e => rw [hx] at h; exact Except.noConfusion h
          | ok x1 =>
            rw [hx] at h
            injection h with h2
            subst h2
            intro z hz
            rw [lookupF_insertF_self] at hz
            injection hz with hz2
            subst hz2
            exact ih x x1 (hv x hl) hx
      | null =>
        have h2 : Json.null = v1 := Except.ok.inj h
        subst h2
        trivial
      | bool b =>
        have h2 : Json.bool b = v1 := Except.ok.inj h
        subst h2
        trivial
      | num n =>
        have h2 : Json.num n = v1 := Except.ok.inj h
        subst h2
        trivial
      | str s =>
        have h2 : Json.str s = v1 := Except.ok.inj h
        subst h2
        trivial
      | arr xs =>
        have h2 : Json.arr xs = v1 := Except.ok.inj h
        subst h2
        trivial
    | flattenStep =>
      cases v with
      | arr xs =>
        simp only [applySteps] at h
        cases hm : xs.mapM (applySteps f rest) with
        | error e => rw [hm] at h; exact Except.noConfusion h
        | ok xs1 =>
          rw [hm] at h
          injection h with h2
          subst h2
          intro y hy
          obtain ⟨x, hx, happ⟩ := forall₂_mem_right (mapM_ok_forall₂ _ _ _ hm) y hy
          exact ih x y (hv x hx) happ
      | obj o =>
        simp only [applySteps] at h
        cases hm : o.mapM (fun kv => (fun x2 => (kv.1, x2)) <$> applySteps f rest kv.2) with
        | error e => rw [hm] at h; exact Except.noConfusion h
        | ok o1 =>
          rw [hm] at h
          injection h with h2
          subst h2
          intro kv1 hkv1
          obtain ⟨kv, hkv, happ⟩ := forall₂_mem_right (mapM_ok_forall₂ _ _ _ hm) kv1 hkv1
          obtain ⟨hname, happ2⟩ := pairF_ok happ
          exact ih kv.2 kv1.2 (hv kv hkv) happ2
      | null => exact False.elim hv
      | bool b => exact False.elim hv
      | num n => exact False.elim hv
      | str s => exact False.elim hv

/-! ## Field-list algebra -/

/-- Remove the first binding of a name (the surgery `remove` performs on
the ordered field list). -/
def dropF : List (String × Json) → String → List (String × Json)
  | [], _ => []
  | (k, v) :: rest, key => if k = key then rest else (k, v) :: dropF rest key

theorem removeF_eq (o : List (String × Json)) (key : String) :
    removeF o key = (lookupF o key).map (fun v => (v, dropF o key)) := by
  induction o with
  | nil => rfl
  | cons kv rest ih =>
    obtain ⟨k, v⟩ := kv
    by_cases h : k = key
    · simp [removeF, lookupF, dropF, h]
    · simp only [removeF, lookupF, dropF, if_neg h]
      rw [ih]
      cases lookupF rest key <;> rfl

theorem lookupF_dropF_ne (o : List (String × Json)) (key k2 : String) (h : k2 ≠ key) :
    lookupF (dropF o key) k2 = lookupF o k2 := by
  induction o with
  | nil => rfl
  | cons kv rest ih =>
    obtain ⟨k, v⟩ := kv
    by_cases hk : k = key
    · subst hk
      rw [dropF, if_pos rfl, lookupF, if_neg (fun hh => h hh.symm)]
    · rw [dropF, if_neg hk, lookupF, lookupF]
      by_cases hk2 : k = k2
      · rw [if_pos hk2, if_pos hk2]
      · rw [if_neg hk2, if_neg hk2, ih]

theorem lookupF_append_none {a : List (String × Json)} (b : List (String × Json))
    {key : String} (h : lookupF a key = none) : lookupF (a ++ b) key = lookupF b key := by
  induction a with
  | nil => rfl
  | cons kv rest ih =>
    obtain ⟨k, v⟩ := kv
    rw [lookupF] at h
    by_cases hk : k = key
    · rw [if_pos hk] at h
      exact Option.noConfusion h
    · rw [if_neg hk] at h
      rw [List.cons_append, lookupF, if_neg hk]
      exact ih h

theorem lookupF_append_some {a : List (String × Json)} (b : List (String × Json))
    {key : String} {v : Json} (h : lookupF a key = some v) :
    lookupF (a ++ b) key = some v := by
  induction a with
  | nil => exact Option.noConfusion h
  | cons kv rest ih =>
    obtain ⟨k, w⟩ := kv
    rw [lookupF] at h
    rw [List.cons_append, lookupF]
    by_cases hk : k = key
    · rw [if_pos hk] at h ⊢
      exact h
    · rw [if_neg hk] at h ⊢
      exact ih h

theorem insertF_append_of_absent {o : List (String × Json)} {key : String} (y : Json)
    (h : lookupF o key = none) : insertF o key y = o ++ [(key, y)] := by
  induction o with
  | nil => rfl
  | cons kv rest ih =>
    obtain ⟨k, v⟩ := kv
    rw [lookupF] at h
    by_cases hk : k = key
    · rw [if_pos hk] at h
      exact Option.noConfusion h
    · rw [if_neg hk] at h
      rw [insertF, if_neg hk, ih h, List.cons_append]

theorem insertF_names_of_present {o : List (String × Json)} {key : String} {x : Json}
    (y : Json) (h : lookupF o key = some x) :
    (insertF o key y).map Prod.fst = o.map Prod.fst := by
  induction o with
  | nil => exact Option.noConfusion h
  | cons kv rest ih =>
    obtain ⟨k, v⟩ := kv
    rw [lookupF] at h
    by_cases hk : k = key
    · rw [insertF, if_pos hk, List.map_cons, List.map_cons]
    · rw [if_neg hk] at h
      rw [insertF, if_neg hk, List.map_cons, List.map_cons, ih h]

theorem insertF_comm_of_present {o : List (String × Json)} {nm nm2 : String} {w : Json}
    (x y : Json) (hne : nm ≠ nm2) (hp : lookupF o nm2 = some w) :
    insertF (insertF o nm2 y) nm x = insertF (insertF o nm x) nm2 y := by
  induction o with
  | nil => exact Option.noConfusion hp
  | cons kv rest ih =>
    obtain ⟨k, v⟩ := kv
    rw [lookupF] at hp
    by_cases h2 : k = nm2
    · rw [insertF, if_pos h2, insertF, if_neg (fun hh : k = nm => hne (hh ▸ h2)), insertF,
        if_neg (fun hh : k = nm => hne (hh ▸ h2)), insertF, if_pos h2]
    · rw [if_neg h2] at hp
      by_cases h1 : k = nm
      · rw [insertF, if_neg h2, insertF, if_pos h1, insertF, if_pos h1, insertF, if_neg h2]
      · rw [insertF, if_neg h2, insertF, if_neg h1, insertF, if_neg h1, insertF, if_neg h2,
          ih hp]

theorem insertF_dropF_comm {o : List (String × Json)} {nm nm2 : String}
    (x : Json) (hne : nm ≠ nm2) :
    insertF (dropF o nm2) nm x = dropF (insertF o nm x) nm2 := by
  induction o with
  | nil =>
    show ([(nm, x)] : List (String × Json)) = dropF [(nm, x)] nm2
    rw [dropF, if_neg hne]
    rfl
  | cons kv rest ih =>
    obtain ⟨k, v⟩ := kv
    by_cases h2 : k = nm2
    · rw [dropF, if_pos h2, insertF, if_neg (fun hh : k = nm => hne (hh ▸ h2)), dropF,
        if_pos h2]
    · by_cases h1 : k = nm
      · rw [dropF, if_neg h2, insertF, if_pos h1, insertF, if_pos h1, dropF, if_neg h2]
      · rw [dropF, if_neg h2, insertF, if_neg h1, insertF, if_neg h1, dropF, if_neg h2, ih]

theorem perm_drop {o : List (String × Json)} {key : String} {v : Json}
    (h : lookupF o key = some v) : o.Perm ((key, v) :: dropF o key) := by
  induction o with
  | nil => exact Option.noConfusion h
  | cons kv rest ih =>
    obtain ⟨k, w⟩ := kv
    rw [lookupF] at h
    by_cases hk : k = key
    · rw [if_pos hk] at h
      injection h with h2
      subst hk
      subst h2
      rw [dropF, if_pos rfl]
    · rw [if_neg hk] at h
      rw [dropF, if_neg hk]
      exact ((ih h).cons (k, w)).trans (List.Perm.swap (key, v) (k, w) (dropF rest key))

theorem lookupF_split {o : List (String × Json)} {key : String} {v : Json}
    (h : lookupF o key = some v) :
    ∃ o1 o2, o = o1 ++ (key, v) :: o2 ∧ lookupF o1 key = none := by
  induction o with
  | nil => exact Option.noConfusion h
  | cons kv rest ih =>
    obtain ⟨k, w⟩ := kv
    rw [lookupF] at h
    by_cases hk : k = key
    · rw [if_pos hk] at h
      injection h with h2
      subst hk
      subst h2
      exact ⟨[], rest, rfl, rfl⟩
    · rw [if_neg hk] at h
      obtain ⟨o1, o2, heq, hnone⟩ := ih h
      refine ⟨(k, w) :: o1, o2, by rw [heq, List.cons_append], ?_⟩
      rw [lookupF, if_neg hk, hnone]

theorem insertF_split {o1 : List (String × Json)} (o2 : List (String × Json))
    {key : String} (v y : Json) (h : lookupF o1 key = none) :
    insertF (o1 ++ (key, v) :: o2) key y = o1 ++ (key, y) :: o2 := by
  induction o1 with
  | nil => rw [List.nil_append, insertF, if_pos rfl, List.nil_append]
  | cons kv rest ih =>
    obtain ⟨k, w⟩ := kv
    rw [lookupF] at h
    by_cases hk : k = key
    · rw [if_pos hk] at h
      exact Option.noConfusion h
    · rw [if_neg hk] at h
      rw [List.cons_append, insertF, if_neg hk, ih h, List.cons_append]

theorem all_insertF {o : List (String × Json)} {key : String} {y : Json}
    {p : String × Json → Bool} (ho : o.all p = true) (hy : p (key, y) = true) :
    (insertF o key y).all p = true := by
  induction o with
  | nil => simp [insertF, hy]
  | cons kv rest ih =>
    obtain ⟨k, v⟩ := kv
    rw [List.all_cons, Bool.and_eq_true] at ho
    by_cases hk : k = key
    · subst hk
      rw [insertF, if_pos rfl, List.all_cons, hy, ho.2]
      rfl
    · rw [insertF, if_neg hk, List.all_cons, ho.1, ih ho.2]
      rfl

/-! ## Frame properties of the compositional conversions -/

/-- `w` differs from `v` only inside the fields named in `ns`: a
non-object is unchanged, an object keeps its exact field-name list and
all lookups outside `ns`. -/
def FramedBy (ns : List String) (v w : Json) : Prop :=
  match v with
  | .obj o => ∃ o1, w = .obj o1 ∧ o1.map Prod.fst = o.map Prod.fst ∧
      ∀ nm, ¬ nm ∈ ns → lookupF o1 nm = lookupF o nm
  | _ => w = v

theorem framedBy_refl (ns : List String) (v : Json) : FramedBy ns v v := by
  cases v with
  | obj o => exact ⟨o, rfl, rfl, fun _ _ => rfl⟩
  | null => rfl
  | bool b => rfl
  | num n => rfl
  | str s => rfl
  | arr xs => rfl

theorem framedBy_trans {A B : List String} {v w u : Json}
    (h1 : FramedBy A v w) (h2 : FramedBy B w u) : FramedBy (A ++ B) v u := by
  cases v with
  | obj o =>
    obtain ⟨o1, rfl, hn1, hl1⟩ := h1
    obtain ⟨o2, rfl, hn2, hl2⟩ := h2
    refine ⟨o2, rfl, hn2.trans hn1, fun nm hnm => ?_⟩
    rw [List.mem_append] at hnm
    push_neg at hnm
    exact (hl2 nm hnm.2).trans (hl1 nm hnm.1)
  | null => subst h1; exact h2
  | bool b => subst h1; exact h2
  | num n => subst h1; exact h2
  | str s => subst h1; exact h2
  | arr xs => subst h1; exact h2

theorem framedBy_mono {A B : List String} {v w : Json} (hsub : ∀ x ∈ A, x ∈ B)
    (h : FramedBy A v w) : FramedBy B v w := by
  cases v with
  | obj o =>
    obtain ⟨o1, rfl, hn, hl⟩ := h
    exact ⟨o1, rfl, hn, fun nm hnm => hl nm (fun hin => hnm (hsub nm hin))⟩
  | null => exact h
  | bool b => exact h
  | num n => exact h
  | str s => exact h
  | arr xs => exact h

theorem childUpdate_nonobj {nm : String} (g : Json → Except String Json) {v : Json}
    (h : v.isObj = false) : childUpdate nm g v = .ok v := by
  cases v with
  | obj o => exact Bool.noConfusion h
  | null => rfl
  | bool b => rfl
  | num n => rfl
  | str s => rfl
  | arr xs => rfl

theorem childUpdate_frame {nm : String} {g : Json → Except String Json} {v w : Json}
    (h : childUpdate nm g v = .ok w) : FramedBy [nm] v w := by
  cases v with
  | obj o =>
    rw [childUpdate] at h
    cases hl : lookupF o nm with
    | none =>
      simp only [applySteps, hl] at h
      injection h with h2
      subst h2
      exact framedBy_refl _ _
    | some x =>
      simp only [applySteps, hl] at h
      cases hx : g x with
      | error e => rw [hx] at h; exact Except.noConfusion h
      | ok y =>
        rw [hx] at h
        injection h with h2
        subst h2
        refine ⟨insertF o nm y, rfl, insertF_names_of_present y hl, fun nm2 hnm2 => ?_⟩
        exact lookupF_insertF_ne o nm nm2 y (fun hh => hnm2 (hh ▸ List.mem_singleton_self nm))
  | null =>
    have h2 : Json.null = w := Except.ok.inj h
    subst h2
    exact framedBy_refl _ _
  | bool b =>
    have h2 : Json.bool b = w := Except.ok.inj h
    subst h2
    exact framedBy_refl _ _
  | num n =>
    have h2 : Json.num n = w := Except.ok.inj h
    subst h2
    exact framedBy_refl _ _
  | str s =>
    have h2 : Json.str s = w := Except.ok.inj h
    subst h2
    exact framedBy_refl _ _
  | arr xs =>
    have h2 : Json.arr xs = w := Except.ok.inj h
    subst h2
    exact framedBy_refl _ _

theorem specY2NintoF_nonobj : ∀ (cs : SchemaForest) (v : Json), v.isObj = false →
    specY2NintoF cs v = .ok v
  | .nil, v, _ => by simp only [specY2NintoF]
  | .cons c cs, v, h => by
    rw [specY2NintoF_cons, specY2NintoF_nonobj cs v h]
    show childUpdate c.name (specY2Nnode c) v = .ok v
    exact childUpdate_nonobj _ h

theorem specN2YintoF_nonobj : ∀ (cs : SchemaForest) (v : Json), v.isObj = false →
    specN2YintoF cs v = .ok v
  | .nil, v, _ => by simp only [specN2YintoF]
  | .cons c cs, v, h => by
    rw [specN2YintoF_cons, specN2YintoF_nonobj cs v h]
    show childUpdate c.name (specN2Ynode c) v = .ok v
    exact childUpdate_nonobj _ h

theorem specY2NintoF_frame : ∀ (cs : SchemaForest) (v w : Json),
    specY2NintoF cs v = .ok w → FramedBy (namesF cs) v w
  | .nil, v, w, h => by
    simp only [specY2NintoF] at h
    injection h with h2
    subst h2
    exact framedBy_refl _ _
  | .cons c cs, v, w, h => by
    rw [specY2NintoF_cons] at h
    cases hm : specY2NintoF cs v with
    | error e => rw [hm] at h; exact Except.noConfusion h
    | ok v1 =>
      rw [hm] at h
      have h2 : childUpdate c.name (specY2Nnode c) v1 = .ok w := h
      have hf := framedBy_trans (specY2NintoF_frame cs v v1 hm) (childUpdate_frame h2)
      refine framedBy_mono (fun x hx => ?_) hf
      rw [List.mem_append, List.mem_singleton] at hx
      show x ∈ c.name :: namesF cs
      rcases hx with hx | hx
      · exact List.mem_cons_of_mem _ hx
      · exact hx ▸ List.mem_cons_self _ _

theorem specN2YintoF_frame : ∀ (cs : SchemaForest) (v w : Json),
    specN2YintoF cs v = .ok w → FramedBy (namesF cs) v w
  | .nil, v, w, h => by
    simp only [specN2YintoF] at h
    injection h with h2
    subst h2
    exact framedBy_refl _ _
  | .cons c cs, v, w, h => by
    rw [specN2YintoF_cons] at h
    cases hm : specN2YintoF cs v with
    | error e => rw [hm] at h; exact Except.noConfusion h
    | ok v1 =>
      rw [hm] at h
      have h2 : childUpdate c.name (specN2Ynode c) v1 = .ok w := h
      have hf := framedBy_trans (specN2YintoF_frame cs v v1 hm) (childUpdate_frame h2)
      refine framedBy_mono (fun x hx => ?_) hf
      rw [List.mem_append, List.mem_singleton] at hx
      show x ∈ c.name :: namesF cs
      rcases hx with hx | hx
      · exact List.mem_cons_of_mem _ hx
      · exact hx ▸ List.mem_cons_self _ _

/-! ## Structure of the operation lists -/

theorem convertOps_cons (op : ConvOp) (ops : List ConvOp) (d : Json) :
    convertOps (op :: ops) d = applySteps op.2 op.1 d >>= convertOps ops := by
  show List.foldlM (fun v op => applySteps op.2 op.1 v) d (op :: ops) = _
  rw [List.foldlM_cons]
  cases h : applySteps op.2 op.1 d with
  | error e => rfl
  | ok d1 => rfl

mutual
theorem opsN_nil_of_no_keyed (mode : ConvertMode) :
    ∀ (n : SchemaNode) (b : Bool), hasKeyedN n = false → opsN mode b n = []
  | .mk nm k ky cs, b, h => by
    obtain ⟨h1, h2⟩ := Bool.or_eq_false_iff.mp (by rw [hasKeyedN] at h; exact h)
    show prefixOps (NavStep.fieldStep (qualify b nm) :: flattensOf k ky) (opsF mode cs) ++
      opsSelf mode b (.mk nm k ky cs) = []
    rw [opsF_nil_of_no_keyed mode cs h2]
    show ([] : List ConvOp) ++ opsSelf mode b (.mk nm k ky cs) = []
    rw [List.nil_append, opsSelf, if_neg]
    intro hkk
    have hd : decide (k = SchemaNodeKind.list) = true :=
      decide_eq_true (show k = SchemaNodeKind.list from hkk.1)
    have hne : ky ≠ [] := show ky ≠ [] from hkk.2
    have he : ky.isEmpty = false := by
      cases hky : ky with
      | nil => exact absurd rfl (hky ▸ hne)
      | cons a l => rfl
    rw [hd, he] at h1
    exact Bool.noConfusion h1

theorem opsF_nil_of_no_keyed (mode : ConvertMode) :
    ∀ (cs : SchemaForest), hasKeyedF cs = false → opsF mode cs = []
  | .nil, _ => rfl
  | .cons c cs, h => by
    obtain ⟨h1, h2⟩ := Bool.or_eq_false_iff.mp (by rw [hasKeyedF] at h; exact h)
    show opsF mode cs ++ opsN mode false c = []
    rw [opsF_nil_of_no_keyed mode cs h2, opsN_nil_of_no_keyed mode c false h1]
    rfl
end

mutual
/-- A subtree without keyed lists converts to itself. -/
theorem specY2Nnode_id_of_no_keyed :
    ∀ (n : SchemaNode), hasKeyedN n = false → ∀ x, specY2Nnode n x = .ok x
  | .mk nm k ky cs, h, x => by
    obtain ⟨h1, h2⟩ := Bool.or_eq_false_iff.mp (by rw [hasKeyedN] at h; exact h)
    simp only [specY2Nnode.eq_def]
    by_cases hk : k = SchemaNodeKind.list
    · rw [if_pos hk]
      have he : ky.isEmpty = true := by
        rw [decide_eq_true hk] at h1
        cases hky : ky with
        | nil => rfl
        | cons a l =>
          rw [hky] at h1
          exact Bool.noConfusion h1
      rw [if_pos he]
    · rw [if_neg hk]
      exact specY2NintoF_id_of_no_keyed cs h2 x

theorem specY2NintoF_id_of_no_keyed :
    ∀ (cs : SchemaForest), hasKeyedF cs = false → ∀ x, specY2NintoF cs x = .ok x
  | .nil, _, x => by simp only [specY2NintoF]
  | .cons c cs, h, x => by
    obtain ⟨h1, h2⟩ := Bool.or_eq_false_iff.mp (by rw [hasKeyedF] at h; exact h)
    rw [specY2NintoF_cons, specY2NintoF_id_of_no_keyed cs h2 x]
    show applySteps (specY2Nnode c) [NavStep.fieldStep c.name] x = .ok x
    apply applySteps_ok_id
    cases x with
    | obj o => exact fun y _ => specY2Nnode_id_of_no_keyed c h1 y
    | null => trivial
    | bool b => trivial
    | num n => trivial
    | str s => trivial
    | arr xs => trivial
end

mutual
theorem opsN_head (mode : ConvertMode) :
    ∀ (n : SchemaNode) (b : Bool) (op : ConvOp), op ∈ opsN mode b n →
      ∃ nm rest, op.1 = NavStep.fieldStep nm :: rest
  | .mk nm k ky cs, b, op, hop => by
    rcases List.mem_append.mp hop with h | h
    · obtain ⟨op0, _, rfl⟩ := List.mem_map.mp h
      exact ⟨qualify b nm, flattensOf k ky ++ op0.1, by rw [List.cons_append]⟩
    · rw [opsSelf] at h
      by_cases hkk : SchemaNode.kind (.mk nm k ky cs) = SchemaNodeKind.list ∧
          SchemaNode.keys (.mk nm k ky cs) ≠ []
      · rw [if_pos hkk] at h
        rw [List.mem_singleton.mp h]
        exact ⟨qualify b (SchemaNode.name (.mk nm k ky cs)), [], rfl⟩
      · rw [if_neg hkk] at h
        exact absurd h (List.not_mem_nil op)

theorem opsF_head (mode : ConvertMode) :
    ∀ (cs : SchemaForest) (op : ConvOp), op ∈ opsF mode cs →
      ∃ nm rest, op.1 = NavStep.fieldStep nm :: rest
  | .cons c cs, op, hop => by
    rcases List.mem_append.mp hop with h | h
    · exact opsF_head mode cs op h
    · exact opsN_head mode c false op h
end

theorem convertOps_nonobj :
    ∀ (ops : List ConvOp),
      (∀ op ∈ ops, ∃ nm rest, op.1 = NavStep.fieldStep nm :: rest) →
      ∀ (v : Json), v.isObj = false → convertOps ops v = .ok v := by
  intro ops
  induction ops with
  | nil => intro _ v _; rfl
  | cons op ops ih =>
    intro hhead v h
    obtain ⟨nm, rest, hop⟩ := hhead op (List.mem_cons_self op ops)
    rw [convertOps_cons, hop]
    have hstep : applySteps op.2 (NavStep.fieldStep nm :: rest) v = .ok v := by
      cases v with
      | obj o => exact Bool.noConfusion h
      | null => rfl
      | bool b => rfl
      | num n => rfl
      | str s => rfl
      | arr xs => rfl
    rw [hstep]
    exact ih (fun op2 h2 => hhead op2 (List.mem_cons_of_mem op h2)) v h

/-- The heart of the refinement: a block of operations all prefixed by
the same navigation `P` equals one navigation of `P` running the block
at every resolved reference, provided the block succeeds at references
(so intermediate errors cannot differ). -/
theorem convertOps_prefixed (P : List NavStep) :
    ∀ (ops : List ConvOp) (Q : Json → Prop),
      (∀ x, Q x → ∃ w, convertOps ops x = .ok w) →
      ∀ d : Json, AtRefs P Q d →
        convertOps (prefixOps P ops) d = applySteps (convertOps ops) P d := by
  intro ops
  induction ops with
  | nil =>
    intro Q _ d hd
    show Except.ok d = applySteps (convertOps []) P d
    exact (applySteps_ok_id _ P d (atRefs_mono (fun x _ => rfl) P d hd)).symm
  | cons op ops ih =>
    intro Q hok d hd
    have hQ1 : ∀ x, Q x → ∃ w1, applySteps op.2 op.1 x = .ok w1 ∧
        ∃ w, convertOps ops w1 = .ok w := by
      intro x hx
      obtain ⟨w, hw⟩ := hok x hx
      rw [convertOps_cons] at hw
      cases h1 : applySteps op.2 op.1 x with
      | error e => rw [h1] at hw; exact Except.noConfusion hw
      | ok w1 =>
        rw [h1] at hw
        exact ⟨w1, rfl, w, hw⟩
    obtain ⟨d1, hd1⟩ := applySteps_exists_ok (applySteps op.2 op.1) P d
      (atRefs_mono (fun x hx => (hQ1 x hx).imp (fun w1 hw1 => hw1.1)) P d hd)
    have hAt1 : AtRefs P (fun y => ∃ w, convertOps ops y = .ok w) d1 :=
      atRefs_after _ Q _ (fun x y hx hxy => by
        obtain ⟨w1, h1, w, hw⟩ := hQ1 x hx
        rw [h1] at hxy
        injection hxy with h2
        subst h2
        exact ⟨w, hw⟩) P d d1 hd hd1
    calc convertOps (prefixOps P (op :: ops)) d
        = applySteps op.2 (P ++ op.1) d >>= convertOps (prefixOps P ops) := by
          rw [show prefixOps P (op :: ops) = (P ++ op.1, op.2) :: prefixOps P ops from rfl,
            convertOps_cons]
      _ = convertOps (prefixOps P ops) d1 := by
          rw [applySteps_append, hd1]
          rfl
      _ = applySteps (convertOps ops) P d1 := ih _ (fun y hy => hy) d1 hAt1
      _ = applySteps (fun x => applySteps op.2 op.1 x >>= convertOps ops) P d :=
          applySteps_comp _ _ P d d1 hd1
      _ = applySteps (convertOps (op :: ops)) P d := by
          rw [show (fun x => applySteps op.2 op.1 x >>= convertOps ops) =
            convertOps (op :: ops) from funext (fun x => (convertOps_cons op ops x).symm)]

/-! ## Similarity transport helpers -/

theorem simO_of_perm_pointwise {xs ys ys2 : List (String × Json)} (hp : ys.Perm ys2)
    (hf : List.Forall₂ (fun p q => p.1 = q.1 ∧ JsonSim p.2 q.2) xs ys2) : JsonSimO xs ys := by
  induction hf generalizing ys with
  | nil =>
    have h0 : ys = [] := List.Perm.eq_nil hp
    subst h0
    exact .nil
  | @cons p q xs2 ys3 hpq hs ih =>
    obtain ⟨k, x⟩ := p
    obtain ⟨k2, y⟩ := q
    obtain ⟨hk, hsim⟩ := hpq
    have hk2 : k = k2 := hk
    subst hk2
    have hy : (k, y) ∈ ys := hp.mem_iff.mpr (List.mem_cons_self _ ys3)
    obtain ⟨l1, l2, rfl⟩ := List.append_of_mem hy
    have h1 : (l1 ++ (k, y) :: l2).Perm ((k, y) :: (l1 ++ l2)) := List.perm_middle
    have h2 : ((k, y) :: (l1 ++ l2)).Perm ((k, y) :: ys3) := h1.symm.trans hp
    exact JsonSimO.cons hsim (ih h2.cons_inv)

theorem forall₂_perm_left {α β : Type} {R : α → β → Prop} :
    ∀ {xs xs2 : List α}, xs.Perm xs2 → ∀ {ys : List β}, List.Forall₂ R xs ys →
      ∃ ys2, ys.Perm ys2 ∧ List.Forall₂ R xs2 ys2 := by
  intro xs xs2 hp
  induction hp with
  | nil =>
    intro ys hf
    cases hf
    exact ⟨[], List.Perm.refl _, .nil⟩
  | cons a hp ih =>
    intro ys hf
    cases hf with
    | cons hab hf2 =>
      obtain ⟨ys2, hyp, hf3⟩ := ih hf2
      exact ⟨_ :: ys2, hyp.cons _, .cons hab hf3⟩
  | swap a b l =>
    intro ys hf
    cases hf with
    | cons h1 hf2 =>
      cases hf2 with
      | cons h2 hf3 =>
        exact ⟨_ :: _ :: _, List.Perm.swap _ _ _, .cons h2 (.cons h1 hf3)⟩
  | trans h1 h2 ih1 ih2 =>
    intro ys hf
    obtain ⟨ys2, hp2, hf2⟩ := ih1 hf
    obtain ⟨ys3, hp3, hf3⟩ := ih2 hf2
    exact ⟨ys3, hp2.trans hp3, hf3⟩

theorem forall₂_append_both {α β : Type} {R : α → β → Prop} :
    ∀ {a : List α} {b : List β} {c : List α} {d : List β},
      List.Forall₂ R a b → List.Forall₂ R c d → List.Forall₂ R (a ++ c) (b ++ d) := by
  intro a b c d h1 h2
  induction h1 with
  | nil => exact h2
  | cons hab h ih => exact .cons hab ih

theorem forall₂_rev {α β : Type} {R : α → β → Prop} {xs : List α} {ys : List β}
    (h : List.Forall₂ R xs ys) : List.Forall₂ R xs.reverse ys.reverse := by
  induction h with
  | nil => exact .nil
  | cons hab h ih =>
    rw [List.reverse_cons, List.reverse_cons]
    exact forall₂_append_both ih (.cons hab .nil)

theorem forall₂_append_left_split {α β : Type} {R : α → β → Prop} :
    ∀ (a c : List α) {ys : List β}, List.Forall₂ R (a ++ c) ys →
      ∃ b d, ys = b ++ d ∧ List.Forall₂ R a b ∧ List.Forall₂ R c d := by
  intro a
  induction a with
  | nil =>
    intro c ys h
    exact ⟨[], ys, rfl, .nil, h⟩
  | cons x a ih =>
    intro c ys h
    cases h with
    | cons hxy h2 =>
      obtain ⟨b, d, rfl, hb, hd⟩ := ih c h2
      exact ⟨_ :: b, d, rfl, .cons hxy hb, hd⟩

theorem forall₂_flatten {α β : Type} {R : α → β → Prop} :
    ∀ {Ls : List (List α)} {Ms : List (List β)},
      List.Forall₂ (List.Forall₂ R) Ls Ms → List.Forall₂ R Ls.flatten Ms.flatten := by
  intro Ls Ms h
  induction h with
  | nil => exact .nil
  | cons hab h ih =>
    rw [List.flatten_cons, List.flatten_cons]
    exact forall₂_append_both hab ih

theorem mapM_of_forall₂ {α β : Type} {g : α → Except String β} :
    ∀ {xs : List α} {ys : List β}, List.Forall₂ (fun a b => g a = .ok b) xs ys →
      xs.mapM g = .ok ys := by
  intro xs ys h
  induction h with
  | nil => rfl
  | cons hab h ih =>
    rw [List.mapM_cons, hab, ih]
    rfl

theorem forall₂_insertF {wo o : List (String × Json)} {nm : String} {x : Json} (z : Json)
    (hf : List.Forall₂ (fun a b => a.1 = b.1 ∧ JsonSim a.2 b.2) wo o)
    (hl : lookupF o nm = some x) (hz : JsonSim z x) :
    List.Forall₂ (fun a b => a.1 = b.1 ∧ JsonSim a.2 b.2) (insertF wo nm z) o := by
  induction hf with
  | nil => exact Option.noConfusion hl
  | @cons a b wo2 o2 hab hf2 ih =>
    obtain ⟨ak, av⟩ := a
    obtain ⟨bk, bv⟩ := b
    rw [lookupF] at hl
    have hk1 : ak = bk := hab.1
    by_cases hk : bk = nm
    · rw [if_pos hk] at hl
      injection hl with hl2
      subst hl2
      subst hk
      rw [insertF, if_pos hk1]
      exact .cons ⟨hab.1, hz⟩ hf2
    · rw [if_neg hk] at hl
      rw [insertF, if_neg (hk1 ▸ hk)]
      exact .cons hab (ih hl)

/-- `w` matches `v` with identical object spine: for objects, the same
field names in the same order with similar values; otherwise equality. -/
def SimFields (w v : Json) : Prop :=
  match v with
  | .obj o => ∃ wo, w = .obj wo ∧
      List.Forall₂ (fun a b => a.1 = b.1 ∧ JsonSim a.2 b.2) wo o
  | _ => w = v

theorem simFields_refl (v : Json) : SimFields v v := by
  cases v with
  | obj o =>
    exact ⟨o, rfl, List.forall₂_same.mpr (fun p _ => ⟨rfl, simRefl p.2⟩)⟩
  | null => rfl
  | bool b => rfl
  | num n => rfl
  | str s => rfl
  | arr xs => rfl

theorem simFields_to_sim {w v : Json} (h : SimFields w v) : JsonSim w v := by
  cases v with
  | obj o =>
    obtain ⟨wo, rfl, hf⟩ := h
    exact JsonSim.obj (simO_ofPointwise hf)
  | null => exact h ▸ simRefl _
  | bool b => exact h ▸ simRefl _
  | num n => exact h ▸ simRefl _
  | str s => exact h ▸ simRefl _
  | arr xs => exact h ▸ simRefl _

/-! ## Case unfolding lemmas for the conversion primitives -/

theorem bind_ok {α β : Type} (a : α) (f : α → Except String β) :
    (Except.ok a >>= f) = f a := rfl

theorem bind_error {α β : Type} (e : String) (f : α → Except String β) :
    ((Except.error e : Except String α) >>= f) = .error e := rfl

theorem stripKeys_cons (k : String) (ks : List String) (o : List (String × Json)) :
    stripKeys (k :: ks) (.obj o) =
      (match removeF o k with
        | some p => Except.ok p
        | none => Except.error "expected key") >>= fun p =>
        coerceKey p.1 >>= fun s =>
          stripKeys ks (.obj p.2) >>= fun q => Except.ok (s :: q.1, q.2) := by
  simp only [stripKeys, bind_ok]
  cases hr : removeF o k with
  | none => rfl
  | some p =>
    obtain ⟨v, rest⟩ := p
    cases hc : coerceKey v with
    | error e => rfl
    | ok s2 =>
      cases hs : stripKeys ks (.obj rest) with
      | error e => rfl
      | ok q => rfl

theorem insertEl_eq (ks : List String) (acc el : Json) :
    insertEl ks acc el = stripKeys ks el >>= fun p => Except.ok (insertPath acc p.1 p.2) := by
  rw [insertEl]

theorem nix2yangRewrite_eq (kd : List (String × DataValueType)) (v : Json) :
    nix2yangRewrite kd v =
      collectLeaves kd.length [] v >>= fun leaves =>
        (leaves.reverse.mapM (fun p => reinsertKeys kd p.1 p.2)) >>= fun a =>
          Except.ok (.arr a) := by
  rw [nix2yangRewrite]

theorem reinsertKeys_cons (kt : String × DataValueType)
    (kd : List (String × DataValueType)) (sv : String) (ss : List String)
    (o : List (String × Json)) :
    reinsertKeys (kt :: kd) (sv :: ss) (.obj o) =
      parseKeyVal kt.2 sv >>= fun kv => reinsertKeys kd ss (.obj (insertF o kt.1 kv)) := by
  obtain ⟨kn, t⟩ := kt
  simp only [reinsertKeys, bind_ok]

theorem specY2Nnode_keyed (nm : String) {k : SchemaNodeKind}
    (ky : List (String × DataValueType)) (cs : SchemaForest)
    (hk : k = SchemaNodeKind.list) (hke : ky.isEmpty = false) (x : Json) :
    specY2Nnode (.mk nm k ky cs) x =
      (match x with
        | .arr els => specY2Nelems cs els >>= fun els2 =>
            els2.foldlM (insertEl (ky.map Prod.fst)) .null
        | _ => .error "Expected an array. Are you sure this is a YANG-style file?") := by
  subst hk
  cases x <;> simp [specY2Nnode.eq_def, hke]

theorem specY2Nnode_keyless (nm : String) {k : SchemaNodeKind}
    {ky : List (String × DataValueType)} (cs : SchemaForest)
    (hk : k = SchemaNodeKind.list) (hke : ky.isEmpty = true) (x : Json) :
    specY2Nnode (.mk nm k ky cs) x = .ok x := by
  subst hk
  simp [specY2Nnode.eq_def, hke]

theorem specY2Nnode_nonlist (nm : String) {k : SchemaNodeKind}
    (ky : List (String × DataValueType)) (cs : SchemaForest)
    (hk : ¬ k = SchemaNodeKind.list) (x : Json) :
    specY2Nnode (.mk nm k ky cs) x = specY2NintoF cs x := by
  simp [specY2Nnode.eq_def, hk]

theorem specN2Ynode_keyed (nm : String) {k : SchemaNodeKind}
    (ky : List (String × DataValueType)) (cs : SchemaForest)
    (hk : k = SchemaNodeKind.list) (hke : ky.isEmpty = false) (x : Json) :
    specN2Ynode (.mk nm k ky cs) x =
      specN2Yleaves ky.length cs x >>= nix2yangRewrite ky := by
  subst hk
  simp only [specN2Ynode.eq_def, hke]
  cases hl : specN2Yleaves ky.length cs x with
  | error e => simp
  | ok x2 => simp

theorem specN2Ynode_keyless (nm : String) {k : SchemaNodeKind}
    {ky : List (String × DataValueType)} (cs : SchemaForest)
    (hk : k = SchemaNodeKind.list) (hke : ky.isEmpty = true) (x : Json) :
    specN2Ynode (.mk nm k ky cs) x = .ok x := by
  subst hk
  simp [specN2Ynode.eq_def, hke]

theorem specN2Ynode_nonlist (nm : String) {k : SchemaNodeKind}
    (ky : List (String × DataValueType)) (cs : SchemaForest)
    (hk : ¬ k = SchemaNodeKind.list) (x : Json) :
    specN2Ynode (.mk nm k ky cs) x = specN2YintoF cs x := by
  simp [specN2Ynode.eq_def, hk]

theorem validN_keyed (nm : String) {k : SchemaNodeKind}
    (ky : List (String × DataValueType)) (cs : SchemaForest)
    (hk : k = SchemaNodeKind.list) (hke : ky.isEmpty = false) (v : Json) :
    validN (.mk nm k ky cs) v =
      (match v with
        | .arr els =>
          !els.isEmpty &&
          els.all (fun el => fieldNamesNodup el && keysPresent ky el && validF cs el) &&
          decide ((els.map (keyStrsOf ky)).Nodup)
        | _ => false) := by
  subst hk
  cases v <;> simp [validN.eq_def, hke]

theorem validN_keyless (nm : String) {k : SchemaNodeKind}
    {ky : List (String × DataValueType)} (cs : SchemaForest)
    (hk : k = SchemaNodeKind.list) (hke : ky.isEmpty = true) (v : Json) :
    validN (.mk nm k ky cs) v = v.isArr := by
  subst hk
  simp [validN.eq_def, hke]

theorem validN_nonlist (nm : String) {k : SchemaNodeKind}
    (ky : List (String × DataValueType)) (cs : SchemaForest)
    (hk : ¬ k = SchemaNodeKind.list) (v : Json) :
    validN (.mk nm k ky cs) v =
      (match v with
        | .obj fields => decide ((fields.map Prod.fst).Nodup) && validF cs v
        | _ => true) := by
  cases v <;> simp [validN.eq_def, hk]

theorem validF_cons (c : SchemaNode) (cs : SchemaForest) (v : Json) :
    validF (.cons c cs) v =
      ((match v with
        | .obj fields =>
          match lookupF fields c.name with
          | some x => validN c x
          | none => true
        | _ => true) && validF cs v) := by
  cases v <;> (conv_lhs => rw [validF.eq_def]) <;> rfl

/-! ## Key stripping and reinsertion -/

/-- Iterated first-occurrence removal (the accumulated effect of the key
removal loop). -/
def stripObj (ks : List String) (o : List (String × Json)) : List (String × Json) :=
  ks.foldl dropF o

theorem stripObj_nil (o : List (String × Json)) : stripObj [] o = o := rfl

theorem stripObj_cons (k : String) (ks : List String) (o : List (String × Json)) :
    stripObj (k :: ks) o = stripObj ks (dropF o k) := rfl

theorem lookupF_some_mem_names {o : List (String × Json)} {k : String} {v : Json}
    (h : lookupF o k = some v) : k ∈ o.map Prod.fst := by
  induction o with
  | nil => exact Option.noConfusion h
  | cons kv rest ih =>
    obtain ⟨k0, v0⟩ := kv
    rw [lookupF] at h
    by_cases hk : k0 = k
    · exact hk ▸ List.mem_cons_self _ _
    · rw [if_neg hk] at h
      exact List.mem_cons_of_mem _ (ih h)

theorem lookupF_none_of_not_mem {o : List (String × Json)} {k : String}
    (h : ¬ k ∈ o.map Prod.fst) : lookupF o k = none := by
  induction o with
  | nil => rfl
  | cons kv rest ih =>
    obtain ⟨k0, v0⟩ := kv
    rw [lookupF, if_neg (fun hk : k0 = k => h (hk ▸ List.mem_cons_self _ _))]
    exact ih (fun hm => h (List.mem_cons_of_mem _ hm))

theorem dropF_sublist (o : List (String × Json)) (k : String) : (dropF o k).Sublist o := by
  induction o with
  | nil => exact List.Sublist.refl _
  | cons kv rest ih =>
    obtain ⟨k0, v0⟩ := kv
    by_cases hk : k0 = k
    · rw [dropF, if_pos hk]
      exact List.sublist_cons_self _ _
    · rw [dropF, if_neg hk]
      exact ih.cons₂ _

theorem not_mem_names_dropF_self {o : List (String × Json)} {k : String}
    (hnd : (o.map Prod.fst).Nodup) : ¬ k ∈ (dropF o k).map Prod.fst := by
  induction o with
  | nil => exact fun h => absurd h (List.not_mem_nil k)
  | cons kv rest ih =>
    obtain ⟨k0, v0⟩ := kv
    rw [List.map_cons, List.nodup_cons] at hnd
    by_cases hk : k0 = k
    · rw [dropF, if_pos hk]
      exact hk ▸ hnd.1
    · rw [dropF, if_neg hk, List.map_cons]
      intro hm
      rcases List.mem_cons.mp hm with hm | hm
      · exact hk hm.symm
      · exact ih hnd.2 hm

theorem names_dropF_sublist (o : List (String × Json)) (k : String) :
    ((dropF o k).map Prod.fst).Sublist (o.map Prod.fst) :=
  (dropF_sublist o k).map Prod.fst

theorem names_stripObj_sublist : ∀ (ks : List String) (o : List (String × Json)),
    ((stripObj ks o).map Prod.fst).Sublist (o.map Prod.fst) := by
  intro ks
  induction ks with
  | nil => exact fun o => List.Sublist.refl _
  | cons k ks ih =>
    intro o
    rw [stripObj_cons]
    exact (ih (dropF o k)).trans (names_dropF_sublist o k)

theorem lookupF_stripObj_not_mem : ∀ (ks : List String) (o : List (String × Json))
    {k : String}, ¬ k ∈ ks → lookupF (stripObj ks o) k = lookupF o k := by
  intro ks
  induction ks with
  | nil => exact fun o _ _ => rfl
  | cons k2 ks ih =>
    intro o k hk
    rw [stripObj_cons, ih (dropF o k2) (fun hm => hk (List.mem_cons_of_mem _ hm)),
      lookupF_dropF_ne o k2 k (fun he => hk (he ▸ List.mem_cons_self _ _))]

theorem stripObj_absent : ∀ (ks : List String) (o : List (String × Json)),
    (o.map Prod.fst).Nodup → ∀ k ∈ ks, lookupF (stripObj ks o) k = none := by
  intro ks
  induction ks with
  | nil => exact fun o _ k hk => absurd hk (List.not_mem_nil k)
  | cons k2 ks ih =>
    intro o hnd k hk
    rw [stripObj_cons]
    rcases List.mem_cons.mp hk with hk | hk
    · subst hk
      apply lookupF_none_of_not_mem
      intro hm
      exact not_mem_names_dropF_self hnd
        ((names_stripObj_sublist ks (dropF o k)).mem hm)
    · exact ih (dropF o k2) ((names_dropF_sublist o k2).nodup hnd) k hk

theorem keyStrsOf_cons (kt : String × DataValueType) (ky : List (String × DataValueType))
    (el : Json) :
    keyStrsOf (kt :: ky) el =
      (match el with
        | .obj fields =>
          match lookupF fields kt.1 with
          | some (.str s) => s
          | some (.num n) => intToStr n
          | _ => ""
        | _ => "") :: keyStrsOf ky el := rfl

theorem keyStrsOf_cons_obj (kt : String × DataValueType)
    (ky : List (String × DataValueType)) (o : List (String × Json)) :
    keyStrsOf (kt :: ky) (.obj o) =
      (match lookupF o kt.1 with
        | some (.str s) => s
        | some (.num n) => intToStr n
        | _ => "") :: keyStrsOf ky (.obj o) := rfl

theorem keysPresent_spec {ky : List (String × DataValueType)} {o : List (String × Json)}
    (h : keysPresent ky (.obj o) = true) :
    ∀ kt ∈ ky, ∃ v, lookupF o kt.1 = some v ∧ keyValOk kt.2 v = true := by
  intro kt hkt
  have h1 := List.all_eq_true.mp h kt hkt
  have h2 : (match lookupF o kt.1 with
    | some w => keyValOk kt.2 w
    | none => false) = true := h1
  cases hl : lookupF o kt.1 with
  | none => rw [hl] at h2; exact Bool.noConfusion h2
  | some w => rw [hl] at h2; exact ⟨w, rfl, h2⟩

theorem keyStrsOf_congr : ∀ (ky : List (String × DataValueType))
    (o2 o : List (String × Json)),
    (∀ kt ∈ ky, lookupF o2 kt.1 = lookupF o kt.1) →
    keyStrsOf ky (.obj o2) = keyStrsOf ky (.obj o) := by
  intro ky
  induction ky with
  | nil => intro o2 o _; rfl
  | cons kt ky ih =>
    intro o2 o hc
    rw [keyStrsOf_cons_obj, keyStrsOf_cons_obj, hc kt (List.mem_cons_self _ _),
      ih o2 o (fun kt2 h2 => hc kt2 (List.mem_cons_of_mem _ h2))]

theorem parseKeyVal_coerceKey {t : DataValueType} {v : Json} {s : String}
    (hok : keyValOk t v = true) (hc : coerceKey v = .ok s) : parseKeyVal t s = .ok v := by
  cases v with
  | num n =>
    have ht : t.isNumeric = true := hok
    injection hc with h2
    subst h2
    rw [parseKeyVal, if_pos ht, jsonFromStr_intToStr]
  | str s2 =>
    have hok2 : (!t.isNumeric) = true := hok
    have ht : t.isNumeric = false := by
      cases hb : t.isNumeric with
      | true => rw [hb] at hok2; exact Bool.noConfusion hok2
      | false => rfl
    injection hc with h2
    subst h2
    rw [parseKeyVal, if_neg (fun hh => by rw [ht] at hh; exact Bool.noConfusion hh)]
  | null => exact Bool.noConfusion hok
  | bool b => exact Bool.noConfusion hok
  | arr xs => exact Bool.noConfusion hok
  | obj o => exact Bool.noConfusion hok

theorem stripKeys_spec : ∀ (ky : List (String × DataValueType)) (o : List (String × Json)),
    (ky.map Prod.fst).Nodup →
    (∀ kt ∈ ky, ∃ v, lookupF o kt.1 = some v ∧ keyValOk kt.2 v = true) →
    stripKeys (ky.map Prod.fst) (.obj o) =
      .ok (keyStrsOf ky (.obj o), .obj (stripObj (ky.map Prod.fst) o)) := by
  intro ky
  induction ky with
  | nil => intro o _ _; rfl
  | cons kt ky ih =>
    intro o hnd hpres
    obtain ⟨v, hv, hok⟩ := hpres kt (List.mem_cons_self _ _)
    rw [List.map_cons] at hnd
    have hnd2 := List.nodup_cons.mp hnd
    have hlooks : ∀ kt2 ∈ ky, lookupF (dropF o kt.1) kt2.1 = lookupF o kt2.1 := by
      intro kt2 h2
      apply lookupF_dropF_ne
      intro he
      exact hnd2.1 (he ▸ List.mem_map_of_mem Prod.fst h2)
    have hpres2 : ∀ kt2 ∈ ky, ∃ v2, lookupF (dropF o kt.1) kt2.1 = some v2 ∧
        keyValOk kt2.2 v2 = true := by
      intro kt2 h2
      obtain ⟨v2, hv2, hok2⟩ := hpres kt2 (List.mem_cons_of_mem _ h2)
      exact ⟨v2, (hlooks kt2 h2).trans hv2, hok2⟩
    have hrem : removeF o kt.1 = some (v, dropF o kt.1) := by rw [removeF_eq, hv]; rfl
    rw [List.map_cons, stripKeys_cons, hrem]
    simp only [bind_ok]
    cases v with
    | num i =>
      rw [show coerceKey (Json.num i) = .ok (intToStr i) from rfl]
      simp only [bind_ok]
      rw [ih (dropF o kt.1) hnd2.2 hpres2]
      simp only [bind_ok]
      rw [keyStrsOf_cons_obj, hv, keyStrsOf_congr ky (dropF o kt.1) o hlooks, stripObj_cons]
    | str s2 =>
      rw [show coerceKey (Json.str s2) = .ok s2 from rfl]
      simp only [bind_ok]
      rw [ih (dropF o kt.1) hnd2.2 hpres2]
      simp only [bind_ok]
      rw [keyStrsOf_cons_obj, hv, keyStrsOf_congr ky (dropF o kt.1) o hlooks, stripObj_cons]
    | null => exact Bool.noConfusion hok
    | bool b => exact Bool.noConfusion hok
    | arr xs => exact Bool.noConfusion hok
    | obj o3 => exact Bool.noConfusion hok

theorem reinsertKeys_exact : ∀ (ky : List (String × DataValueType))
    (origEl o2 : List (String × Json)),
    (ky.map Prod.fst).Nodup →
    (∀ kt ∈ ky, ∃ v, lookupF origEl kt.1 = some v ∧ keyValOk kt.2 v = true) →
    (∀ kt ∈ ky, lookupF o2 kt.1 = none) →
    reinsertKeys ky (keyStrsOf ky (.obj origEl)) (.obj o2) =
      .ok (.obj (o2 ++ ky.map (fun kt => (kt.1, (lookupF origEl kt.1).getD .null)))) := by
  intro ky
  induction ky with
  | nil =>
    intro origEl o2 _ _ _
    rw [List.map_nil, List.append_nil]
    rfl
  | cons kt ky ih =>
    intro origEl o2 hnd hpres habs
    obtain ⟨v, hv, hok⟩ := hpres kt (List.mem_cons_self _ _)
    rw [List.map_cons] at hnd
    have hnd2 := List.nodup_cons.mp hnd
    have hpres2 : ∀ kt2 ∈ ky, ∃ v2, lookupF origEl kt2.1 = some v2 ∧
        keyValOk kt2.2 v2 = true :=
      fun kt2 h2 => hpres kt2 (List.mem_cons_of_mem _ h2)
    have habs2 : ∀ (kv : Json) (kt2 : String × DataValueType), kt2 ∈ ky →
        lookupF (o2 ++ [(kt.1, kv)]) kt2.1 = none := by
      intro kv kt2 h2
      rw [lookupF_append_none _ (habs kt2 (List.mem_cons_of_mem _ h2)), lookupF, if_neg]
      · rfl
      · intro he
        exact hnd2.1 (he ▸ List.mem_map_of_mem Prod.fst h2)
    have hmapc : (kt :: ky).map
        (fun kt2 => ((kt2.1 : String), (lookupF origEl kt2.1).getD Json.null)) =
        (kt.1, v) :: ky.map (fun kt2 => (kt2.1, (lookupF origEl kt2.1).getD Json.null)) := by
      simp only [List.map_cons]
      rw [hv]
      rfl
    cases v with
    | num i =>
      have ht : kt.2.isNumeric = true := hok
      have hs : keyStrsOf (kt :: ky) (.obj origEl) =
          intToStr i :: keyStrsOf ky (.obj origEl) := by
        rw [keyStrsOf_cons_obj, hv]
      rw [hs, reinsertKeys_cons,
        show parseKeyVal kt.2 (intToStr i) = .ok (.num i) from by
          rw [parseKeyVal, if_pos ht, jsonFromStr_intToStr]]
      simp only [bind_ok]
      rw [insertF_append_of_absent _ (habs kt (List.mem_cons_self _ _))]
      have hih := ih origEl (o2 ++ [(kt.1, Json.num i)]) hnd2.2 hpres2 (habs2 (Json.num i))
      rw [hih]
      rw [hmapc, List.append_assoc]
      rfl
    | str s2 =>
      have hok2 : (!kt.2.isNumeric) = true := hok
      have ht : kt.2.isNumeric = false := by
        cases hb : kt.2.isNumeric with
        | true => rw [hb] at hok2; exact Bool.noConfusion hok2
        | false => rfl
      have hs : keyStrsOf (kt :: ky) (.obj origEl) =
          s2 :: keyStrsOf ky (.obj origEl) := by
        rw [keyStrsOf_cons_obj, hv]
      rw [hs, reinsertKeys_cons,
        show parseKeyVal kt.2 s2 = .ok (.str s2) from by
          rw [parseKeyVal, if_neg (fun hh => by rw [ht] at hh; exact Bool.noConfusion hh)]]
      simp only [bind_ok]
      rw [insertF_append_of_absent _ (habs kt (List.mem_cons_self _ _))]
      have hih := ih origEl (o2 ++ [(kt.1, Json.str s2)]) hnd2.2 hpres2 (habs2 (Json.str s2))
      rw [hih]
      rw [hmapc, List.append_assoc]
      rfl
    | null => exact Bool.noConfusion hok
    | bool b => exact Bool.noConfusion hok
    | arr xs => exact Bool.noConfusion hok
    | obj o3 => exact Bool.noConfusion hok

/-! ## Validity of map-style (Nix-form) trees -/

/-- A map key at a level with the given declared type can be re-parsed
by `MapToList`: numeric types must re-parse to a number, everything else
is reinserted as a string. -/
def keyStrOk (t : DataValueType) (s : String) : Bool :=
  if t.isNumeric then
    (match jsonFromStr s with
      | .ok (.num _) => true
      | _ => false)
  else true

mutual
/-- Validity of a map-style value at a schema node: a keyed list is a
nested map with one object level per key (re-parsable key strings) whose
leaves are objects valid for the children; a keyless list is an array;
other nodes mirror the list-style validity. -/
def validMapN : SchemaNode → Json → Bool
  | .mk _ k ky cs, v =>
    if k = SchemaNodeKind.list then
      if ky.isEmpty then v.isArr
      else validMapTrie (ky.map Prod.snd) cs v
    else
      match v with
      | .obj fields => decide ((fields.map Prod.fst).Nodup) && validMapF cs v
      | _ => true
termination_by n _ => (sizeOf n, 0, 1, 0)

def validMapTrie : List DataValueType → SchemaForest → Json → Bool
  | [], cs, el => el.isObj && validMapF cs el
  | t :: ts, cs, x =>
    match x with
    | .obj o => validMapTrieF t ts cs o
    | _ => false
termination_by ts cs _ => (sizeOf cs, ts.length + 1, 0, 0)

def validMapTrieF : DataValueType → List DataValueType → SchemaForest →
    List (String × Json) → Bool
  | _, _, _, [] => true
  | t, ts, cs, kv :: o =>
    keyStrOk t kv.1 && validMapTrie ts cs kv.2 && validMapTrieF t ts cs o
termination_by t ts cs o => (sizeOf cs, ts.length + 1, o.length + 1, 0)

def validMapF : SchemaForest → Json → Bool
  | .nil, _ => true
  | .cons c cs, v =>
    (match v with
     | .obj fields =>
       match lookupF fields c.name with
       | some x => validMapN c x
       | none => true
     | _ => true) &&
    validMapF cs v
termination_by cs _ => (sizeOf cs, 0, 0, 0)
end

theorem validMapN_keyed (nm : String) {k : SchemaNodeKind}
    (ky : List (String × DataValueType)) (cs : SchemaForest)
    (hk : k = SchemaNodeKind.list) (hke : ky.isEmpty = false) (v : Json) :
    validMapN (.mk nm k ky cs) v = validMapTrie (ky.map Prod.snd) cs v := by
  subst hk
  simp [validMapN.eq_def, hke]

theorem validMapN_keyless (nm : String) {k : SchemaNodeKind}
    {ky : List (String × DataValueType)} (cs : SchemaForest)
    (hk : k = SchemaNodeKind.list) (hke : ky.isEmpty = true) (v : Json) :
    validMapN (.mk nm k ky cs) v = v.isArr := by
  subst hk
  simp [validMapN.eq_def, hke]

theorem validMapN_nonlist (nm : String) {k : SchemaNodeKind}
    (ky : List (String × DataValueType)) (cs : SchemaForest)
    (hk : ¬ k = SchemaNodeKind.list) (v : Json) :
    validMapN (.mk nm k ky cs) v =
      (match v with
        | .obj fields => decide ((fields.map Prod.fst).Nodup) && validMapF cs v
        | _ => true) := by
  cases v <;> simp [validMapN.eq_def, hk]

theorem validMapF_cons (c : SchemaNode) (cs : SchemaForest) (v : Json) :
    validMapF (.cons c cs) v =
      ((match v with
        | .obj fields =>
          match lookupF fields c.name with
          | some x => validMapN c x
          | none => true
        | _ => true) && validMapF cs v) := by
  cases v <;> (conv_lhs => rw [validMapF.eq_def]) <;> rfl

theorem validMapTrie_nil (cs : SchemaForest) (el : Json) :
    validMapTrie [] cs el = (el.isObj && validMapF cs el) := by
  simp only [validMapTrie]

theorem validMapTrie_cons (t : DataValueType) (ts : List DataValueType)
    (cs : SchemaForest) (x : Json) :
    validMapTrie (t :: ts) cs x =
      (match x with
        | .obj o => validMapTrieF t ts cs o
        | _ => false) := by
  cases x <;> (conv_lhs => rw [validMapTrie.eq_def]) <;> rfl

theorem validMapTrieF_nil (t : DataValueType) (ts : List DataValueType)
    (cs : SchemaForest) : validMapTrieF t ts cs [] = true := by
  simp only [validMapTrieF]

theorem validMapTrieF_cons (t : DataValueType) (ts : List DataValueType)
    (cs : SchemaForest) (kv : String × Json) (o : List (String × Json)) :
    validMapTrieF t ts cs (kv :: o) =
      (keyStrOk t kv.1 && validMapTrie ts cs kv.2 && validMapTrieF t ts cs o) := by
  simp only [validMapTrieF]

theorem validMapTrieF_all {t : DataValueType} {ts : List DataValueType}
    {cs : SchemaForest} {o : List (String × Json)} (h : validMapTrieF t ts cs o = true) :
    ∀ kv ∈ o, keyStrOk t kv.1 = true ∧ validMapTrie ts cs kv.2 = true := by
  induction o with
  | nil => exact fun kv hkv => absurd hkv (List.not_mem_nil kv)
  | cons kv2 o ih =>
    rw [validMapTrieF_cons, Bool.and_eq_true, Bool.and_eq_true] at h
    intro kv hkv
    rcases List.mem_cons.mp hkv with hkv | hkv
    · exact hkv ▸ ⟨h.1.1, h.1.2⟩
    · exact ih h.2 kv hkv

theorem validMapTrieF_of_all {t : DataValueType} {ts : List DataValueType}
    {cs : SchemaForest} {o : List (String × Json)}
    (h : ∀ kv ∈ o, keyStrOk t kv.1 = true ∧ validMapTrie ts cs kv.2 = true) :
    validMapTrieF t ts cs o = true := by
  induction o with
  | nil => exact validMapTrieF_nil t ts cs
  | cons kv o ih =>
    rw [validMapTrieF_cons, Bool.and_eq_true, Bool.and_eq_true]
    obtain ⟨h1, h2⟩ := h kv (List.mem_cons_self _ _)
    exact ⟨⟨h1, h2⟩, ih (fun kv2 hkv2 => h kv2 (List.mem_cons_of_mem _ hkv2))⟩

/-! ## The nested-map trie: inserting and collecting leaves -/

theorem forall₂_mem_left {α β : Type} {R : α → β → Prop} :
    ∀ {xs : List α} {ys : List β}, List.Forall₂ R xs ys → ∀ x ∈ xs, ∃ y ∈ ys, R x y := by
  intro xs ys h
  induction h with
  | nil => exact fun x hx => absurd hx (List.not_mem_nil x)
  | cons hab h ih =>
    intro x hx
    rcases List.mem_cons.mp hx with hx | hx
    · exact ⟨_, List.mem_cons_self _ _, hx ▸ hab⟩
    · obtain ⟨y, hy, hr⟩ := ih x hx
      exact ⟨y, List.mem_cons_of_mem _ hy, hr⟩

theorem lookupF_some_mem_pair {o : List (String × Json)} {k : String} {v : Json}
    (h : lookupF o k = some v) : (k, v) ∈ o := by
  induction o with
  | nil => exact Option.noConfusion h
  | cons kv rest ih =>
    obtain ⟨k0, v0⟩ := kv
    rw [lookupF] at h
    by_cases hk : k0 = k
    · rw [if_pos hk] at h
      injection h with h2
      subst hk
      subst h2
      exact List.mem_cons_self _ _
    · rw [if_neg hk] at h
      exact List.mem_cons_of_mem _ (ih h)

theorem mem_insertF₂ {o : List (String × Json)} {k : String} {y : Json}
    {kv : String × Json} (h : kv ∈ insertF o k y) : kv = (k, y) ∨ kv ∈ o := by
  induction o with
  | nil =>
    rw [insertF] at h
    exact Or.inl (List.mem_singleton.mp h)
  | cons kv0 rest ih =>
    obtain ⟨k0, v0⟩ := kv0
    rw [insertF] at h
    by_cases hk : k0 = k
    · rw [if_pos hk] at h
      rcases List.mem_cons.mp h with h | h
      · exact Or.inl (hk ▸ h)
      · exact Or.inr (List.mem_cons_of_mem _ h)
    · rw [if_neg hk] at h
      rcases List.mem_cons.mp h with h | h
      · exact Or.inr (h ▸ List.mem_cons_self _ _)
      · rcases ih h with h2 | h2
        · exact Or.inl h2
        · exact Or.inr (List.mem_cons_of_mem _ h2)

theorem collect_zero (ks : List String) (v : Json) :
    collectLeaves 0 ks v = .ok [(ks, v)] := rfl

theorem collect_succ_obj (d : Nat) (ks : List String) (o : List (String × Json)) :
    collectLeaves (d + 1) ks (.obj o) =
      List.flatten <$> o.mapM (fun kv => collectLeaves d (ks ++ [kv.1]) kv.2) := rfl

theorem collect_succ_obj_ok {d : Nat} {ks : List String} {o : List (String × Json)}
    {L : List (List String × Json)} (h : collectLeaves (d + 1) ks (.obj o) = .ok L) :
    ∃ Ls, o.mapM (fun kv => collectLeaves d (ks ++ [kv.1]) kv.2) = .ok Ls ∧
      L = Ls.flatten := by
  have h2 : List.flatten <$> o.mapM (fun kv => collectLeaves d (ks ++ [kv.1]) kv.2) =
      .ok L := h
  cases hm : o.mapM (fun kv => collectLeaves d (ks ++ [kv.1]) kv.2) with
  | error e => rw [hm] at h2; exact Except.noConfusion h2
  | ok Ls =>
    rw [hm] at h2
    injection h2 with h3
    exact ⟨Ls, rfl, h3.symm⟩

theorem collect_nested : ∀ (ss ks : List String) (el : Json),
    collectLeaves ss.length ks (insertPath .null ss el) = .ok [(ks ++ ss, el)] := by
  intro ss
  induction ss with
  | nil =>
    intro ks el
    rw [List.append_nil]
    rfl
  | cons s ss ih =>
    intro ks el
    rw [show insertPath .null (s :: ss) el = .obj [(s, insertPath .null ss el)] from rfl]
    show List.flatten <$>
      (List.mapM (fun kv => collectLeaves ss.length (ks ++ [kv.1]) kv.2)
        [(s, insertPath .null ss el)]) = _
    rw [List.mapM_cons, ih (ks ++ [s]), List.mapM_nil]
    show Except.ok ([[((ks ++ [s]) ++ ss, el)]].flatten) = _
    rw [List.flatten_cons, List.flatten_nil, List.append_nil, List.append_assoc]
    rfl

theorem insert_collect : ∀ (ss ks : List String) (T : Json)
    (L : List (List String × Json)) (el : Json),
    collectLeaves ss.length ks T = .ok L →
    ¬ (ks ++ ss) ∈ L.map Prod.fst →
    ∃ L1 L2, L = L1 ++ L2 ∧
      collectLeaves ss.length ks (insertPath T ss el) =
        .ok (L1 ++ (ks ++ ss, el) :: L2) := by
  intro ss
  induction ss with
  | nil =>
    intro ks T L el hc hmem
    have hc2 : Except.ok [(ks, T)] = Except.ok L := hc
    injection hc2 with h2
    subst h2
    exact absurd (by rw [List.append_nil]; exact List.mem_cons_self ks []) hmem
  | cons s ss ih =>
    intro ks T L el hc hmem
    cases T with
    | null => exact Except.noConfusion hc
    | bool b => exact Except.noConfusion hc
    | num n => exact Except.noConfusion hc
    | str s2 => exact Except.noConfusion hc
    | arr xs => exact Except.noConfusion hc
    | obj o =>
      obtain ⟨Ls, hm, rfl⟩ := collect_succ_obj_ok hc
      have hf := mapM_ok_forall₂ _ _ _ hm
      have hpath : (ks ++ [s]) ++ ss = ks ++ s :: ss := by
        rw [List.append_assoc]
        rfl
      cases hl : lookupF o s with
      | none =>
        have hT : insertPath (.obj o) (s :: ss) el =
            .obj (insertF o s (insertPath .null ss el)) := by
          show Json.obj (insertF o s (insertPath ((lookupF o s).getD .null) ss el)) = _
          rw [hl]
          rfl
        refine ⟨Ls.flatten, [], (List.append_nil _).symm, ?_⟩
        rw [hT, insertF_append_of_absent _ hl]
        have hnested : collectLeaves ss.length (ks ++ [s]) (insertPath .null ss el) =
            .ok [(ks ++ s :: ss, el)] := by
          rw [collect_nested, hpath]
        have hf2 : List.Forall₂
            (fun kv lv => collectLeaves ss.length (ks ++ [kv.1]) kv.2 = .ok lv)
            (o ++ [(s, insertPath .null ss el)]) (Ls ++ [[(ks ++ s :: ss, el)]]) :=
          forall₂_append_both hf (.cons hnested .nil)
        show List.flatten <$> _ = _
        rw [mapM_of_forall₂ hf2]
        show Except.ok ((Ls ++ [[(ks ++ s :: ss, el)]]).flatten) = _
        rw [List.flatten_append, List.flatten_cons, List.flatten_nil, List.append_nil]
      | some Tsub =>
        obtain ⟨o1, o2, rfl, ho1⟩ := lookupF_split hl
        obtain ⟨B1, Bmid, rfl, hfo1, hfmid⟩ := forall₂_append_left_split o1 _ hf
        cases hfmid with
        | cons hmid hfo2 =>
          rename_i Lmid B2
          have hnotmem : ¬ ((ks ++ [s]) ++ ss) ∈ Lmid.map Prod.fst := by
            intro hmm
            apply hmem
            obtain ⟨pr, hpr, hpr2⟩ := List.mem_map.mp hmm
            rw [show ks ++ s :: ss = (ks ++ [s]) ++ ss from hpath.symm]
            apply List.mem_map.mpr
            refine ⟨pr, ?_, hpr2⟩
            exact List.mem_flatten.mpr ⟨Lmid,
              List.mem_append_right B1 (List.mem_cons_self _ _), hpr⟩
          obtain ⟨A, B, hLmid, hins⟩ := ih (ks ++ [s]) Tsub Lmid el hmid hnotmem
          rw [hpath] at hins
          have hT : insertPath (.obj (o1 ++ (s, Tsub) :: o2)) (s :: ss) el =
              .obj (insertF (o1 ++ (s, Tsub) :: o2) s (insertPath Tsub ss el)) := by
            show Json.obj (insertF (o1 ++ (s, Tsub) :: o2) s
              (insertPath ((lookupF (o1 ++ (s, Tsub) :: o2) s).getD .null) ss el)) = _
            rw [hl]
            rfl
          refine ⟨B1.flatten ++ A, B ++ B2.flatten, ?_, ?_⟩
          · rw [hLmid]
            simp [List.flatten_append, List.flatten_cons, List.append_assoc]
          · rw [hT, insertF_split o2 Tsub _ ho1]
            have hf2 : List.Forall₂
                (fun kv lv => collectLeaves ss.length (ks ++ [kv.1]) kv.2 = .ok lv)
                (o1 ++ (s, insertPath Tsub ss el) :: o2)
                (B1 ++ (A ++ (ks ++ s :: ss, el) :: B) :: B2) :=
              forall₂_append_both hfo1 (.cons hins hfo2)
            show List.flatten <$> _ = _
            rw [mapM_of_forall₂ hf2]
            show Except.ok ((B1 ++ (A ++ (ks ++ s :: ss, el) :: B) :: B2).flatten) = _
            rw [List.flatten_append, List.flatten_cons]
            simp [List.append_assoc]

theorem fold_collect : ∀ (ps : List (List String × Json)) (len : Nat) (T : Json)
    (L : List (List String × Json)),
    collectLeaves len [] T = .ok L →
    (∀ p ∈ ps, p.1.length = len) →
    (L.map Prod.fst ++ ps.map Prod.fst).Nodup →
    ∃ L2, collectLeaves len []
        (ps.foldl (fun acc p => insertPath acc p.1 p.2) T) = .ok L2 ∧
      L2.Perm (L ++ ps) := by
  intro ps
  induction ps with
  | nil =>
    intro len T L hc _ _
    refine ⟨L, hc, ?_⟩
    rw [List.append_nil]
  | cons p ps ih =>
    intro len T L hc hlen hnd
    have hlen1 : p.1.length = len := hlen p (List.mem_cons_self _ _)
    have hc2 : collectLeaves p.1.length [] T = .ok L := by rw [hlen1]; exact hc
    have hdisj : List.Disjoint (L.map Prod.fst) ((p :: ps).map Prod.fst) :=
      List.disjoint_of_nodup_append hnd
    have hnotmem : ¬ (([] : List String) ++ p.1) ∈ L.map Prod.fst := by
      intro hmm
      rw [List.nil_append] at hmm
      exact hdisj hmm (List.map_cons Prod.fst p ps ▸ List.mem_cons_self _ _)
    obtain ⟨L1, L2s, rfl, hins⟩ := insert_collect p.1 [] T _ p.2 hc2 hnotmem
    have hins2 : collectLeaves len [] (insertPath T p.1 p.2) =
        .ok (L1 ++ (p.1, p.2) :: L2s) := by
      rw [← hlen1]
      have h0 : (([] : List String) ++ p.1) = p.1 := List.nil_append _
      rw [h0] at hins
      exact hins
    have hnd2 : (((L1 ++ (p.1, p.2) :: L2s).map Prod.fst) ++ ps.map Prod.fst).Nodup := by
      simp only [List.map_append, List.map_cons] at hnd ⊢
      have h1 : ((L1.map Prod.fst ++ L2s.map Prod.fst) ++ p.1 :: ps.map Prod.fst).Perm
          (p.1 :: ((L1.map Prod.fst ++ L2s.map Prod.fst) ++ ps.map Prod.fst)) :=
        List.perm_middle
      have hn1 := h1.nodup (by rw [List.append_assoc] at hnd ⊢; exact hnd)
      have h2 : ((L1.map Prod.fst ++ p.1 :: L2s.map Prod.fst) ++ ps.map Prod.fst).Perm
          ((p.1 :: (L1.map Prod.fst ++ L2s.map Prod.fst)) ++ ps.map Prod.fst) :=
        List.Perm.append_right _ List.perm_middle
      exact (h2.trans (by rw [List.cons_append])).symm.nodup hn1
    obtain ⟨L2, hcol, hperm⟩ := ih len (insertPath T p.1 p.2) _ hins2
      (fun q hq => hlen q (List.mem_cons_of_mem _ hq)) hnd2
    refine ⟨L2, ?_, ?_⟩
    · rw [List.foldl_cons]
      exact hcol
    · refine hperm.trans ?_
      refine (List.Perm.append_right ps List.perm_middle).trans ?_
      have h3 : ((p.1, p.2) :: (L1 ++ L2s)) ++ ps =
          (p.1, p.2) :: ((L1 ++ L2s) ++ ps) := List.cons_append _ _ _
      rw [h3]
      exact List.perm_middle.symm

theorem flatten_collect : ∀ (d : Nat) (g : Json → Except String Json)
    (ks : List String) (u : Json) (L : List (List String × Json)) (u2 : Json),
    collectLeaves d ks u = .ok L →
    applySteps g (List.replicate d .flattenStep) u = .ok u2 →
    ∃ L2, collectLeaves d ks u2 = .ok L2 ∧
      List.Forall₂ (fun p q => p.1 = q.1 ∧ g p.2 = .ok q.2) L L2 := by
  intro d g
  induction d with
  | zero =>
    intro ks u L u2 hc ha
    have hc2 : Except.ok [(ks, u)] = Except.ok L := hc
    injection hc2 with h2
    subst h2
    have ha2 : g u = .ok u2 := ha
    exact ⟨[(ks, u2)], rfl, .cons ⟨rfl, ha2⟩ .nil⟩
  | succ d ih =>
    intro ks u L u2 hc ha
    cases u with
    | null => exact Except.noConfusion hc
    | bool b => exact Except.noConfusion hc
    | num n => exact Except.noConfusion hc
    | str s => exact Except.noConfusion hc
    | arr xs => exact Except.noConfusion hc
    | obj o =>
      obtain ⟨Ls, hm, rfl⟩ := collect_succ_obj_ok hc
      have ha2 : Json.obj <$> o.mapM
          (fun kv => (fun x2 => (kv.1, x2)) <$>
            applySteps g (List.replicate d .flattenStep) kv.2) = .ok u2 := ha
      cases hm2 : o.mapM (fun kv => (fun x2 => (kv.1, x2)) <$>
          applySteps g (List.replicate d .flattenStep) kv.2) with
      | error e => rw [hm2] at ha2; exact Except.noConfusion ha2
      | ok o2 =>
        rw [hm2] at ha2
        injection ha2 with h3
        subst h3
        have hf1 := mapM_ok_forall₂ _ _ _ hm
        have hf2 := mapM_ok_forall₂ _ _ _ hm2
        suffices h : ∀ (o : List (String × Json)) (o2 : List (String × Json))
            (Ls : List (List (List String × Json))),
            List.Forall₂ (fun kv lv =>
              collectLeaves d (ks ++ [kv.1]) kv.2 = .ok lv) o Ls →
            List.Forall₂ (fun kv kv2 => (fun x2 => (kv.1, x2)) <$>
              applySteps g (List.replicate d .flattenStep) kv.2 = .ok kv2) o o2 →
            ∃ Ls2, o2.mapM (fun kv => collectLeaves d (ks ++ [kv.1]) kv.2) = .ok Ls2 ∧
              List.Forall₂ (List.Forall₂
                (fun p q => p.1 = q.1 ∧ g p.2 = .ok q.2)) Ls Ls2 by
          obtain ⟨Ls2, hm3, hrel⟩ := h o o2 Ls hf1 hf2
          refine ⟨Ls2.flatten, ?_, forall₂_flatten hrel⟩
          show List.flatten <$> _ = _
          rw [hm3]
          rfl
        intro o
        induction o with
        | nil =>
          intro o2 Ls h1 h2
          cases h1
          cases h2
          exact ⟨[], rfl, .nil⟩
        | cons kv o ihF =>
          intro o2 Ls h1 h2
          cases h1 with
          | cons hlv h1t =>
            cases h2 with
            | cons hkv2 h2t =>
              rename_i lv Ls3 kv2 o2t
              obtain ⟨hname, happ⟩ := pairF_ok hkv2
              obtain ⟨l2, hcol2, hrel2⟩ := ih (ks ++ [kv.1]) kv.2 lv _ hlv happ
              obtain ⟨Ls2t, hmt, hrelt⟩ := ihF o2t Ls3 h1t h2t
              refine ⟨l2 :: Ls2t, ?_, .cons hrel2 hrelt⟩
              rw [List.mapM_cons, hname, hcol2, hmt]
              rfl

theorem collect_atrefs : ∀ (d : Nat) (ks : List String) (v : Json)
    (L : List (List String × Json)) (Q : Json → Prop),
    collectLeaves d ks v = .ok L → (∀ p ∈ L, Q p.2) →
    AtRefs (List.replicate d .flattenStep) Q v := by
  intro d
  induction d with
  | zero =>
    intro ks v L Q hc hQ
    have hc2 : Except.ok [(ks, v)] = Except.ok L := hc
    injection hc2 with h2
    subst h2
    exact hQ (ks, v) (List.mem_cons_self _ _)
  | succ d ih =>
    intro ks v L Q hc hQ
    cases v with
    | null => exact Except.noConfusion hc
    | bool b => exact Except.noConfusion hc
    | num n => exact Except.noConfusion hc
    | str s => exact Except.noConfusion hc
    | arr xs => exact Except.noConfusion hc
    | obj o =>
      obtain ⟨Ls, hm, rfl⟩ := collect_succ_obj_ok hc
      have hf := mapM_ok_forall₂ _ _ _ hm
      intro kv hkv
      obtain ⟨lv, hlv, hr⟩ := forall₂_mem_left hf kv hkv
      exact ih (ks ++ [kv.1]) kv.2 lv Q hr
        (fun p hp => hQ p (List.mem_flatten.mpr ⟨lv, hlv, hp⟩))

theorem keyStrOk_parse {t : DataValueType} {s : String} (h : keyStrOk t s = true) :
    ∃ j, parseKeyVal t s = .ok j := by
  rw [parseKeyVal]
  by_cases hn : t.isNumeric = true
  · rw [if_pos hn]
    rw [keyStrOk, if_pos hn] at h
    cases hj : jsonFromStr s with
    | error e => rw [hj] at h; exact Bool.noConfusion h
    | ok j => exact ⟨j, rfl⟩
  · rw [if_neg hn]
    exact ⟨.str s, rfl⟩

theorem reinsert_total : ∀ (ky : List (String × DataValueType)) (ss : List String)
    (o : List (String × Json)),
    List.Forall₂ (fun (kt : String × DataValueType) s => keyStrOk kt.2 s = true) ky ss →
    ∃ o2, reinsertKeys ky ss (.obj o) = .ok (.obj o2) := by
  intro ky ss o h
  induction h generalizing o with
  | nil => exact ⟨o, rfl⟩
  | @cons kt s2 ky2 ss2 hks h2 ih =>
    obtain ⟨j, hj⟩ := keyStrOk_parse hks
    obtain ⟨o2, ho2⟩ := ih (insertF o kt.1 j)
    refine ⟨o2, ?_⟩
    rw [reinsertKeys_cons, hj, bind_ok, ho2]

theorem trie_collect_total : ∀ (ts : List DataValueType) (cs : SchemaForest) (y : Json),
    validMapTrie ts cs y = true → ∀ ks, ∃ L, collectLeaves ts.length ks y = .ok L ∧
      ∀ p ∈ L, (p.2.isObj = true ∧ validMapF cs p.2 = true) ∧
        ∃ suf, p.1 = ks ++ suf ∧
          List.Forall₂ (fun t s => keyStrOk t s = true) ts suf := by
  intro ts
  induction ts with
  | nil =>
    intro cs y hv ks
    rw [validMapTrie_nil, Bool.and_eq_true] at hv
    refine ⟨[(ks, y)], rfl, ?_⟩
    intro p hp
    rw [List.mem_singleton] at hp
    subst hp
    exact ⟨⟨hv.1, hv.2⟩, [], (List.append_nil ks).symm, .nil⟩
  | cons t ts ih =>
    intro cs y hv ks
    rw [validMapTrie_cons] at hv
    cases y with
    | null => exact Bool.noConfusion hv
    | bool b => exact Bool.noConfusion hv
    | num n => exact Bool.noConfusion hv
    | str s => exact Bool.noConfusion hv
    | arr xs => exact Bool.noConfusion hv
    | obj o =>
      have hall := validMapTrieF_all hv
      obtain ⟨Ls, hm, hf⟩ := mapM_ok_exists
        (fun kv => collectLeaves ts.length (ks ++ [kv.1]) kv.2) o
        (fun kv hkv => by
          obtain ⟨L0, hL0, _⟩ := ih cs kv.2 (hall kv hkv).2 (ks ++ [kv.1])
          exact ⟨L0, hL0⟩)
      refine ⟨Ls.flatten, ?_, ?_⟩
      · show List.flatten <$> _ = _
        rw [hm]
        rfl
      · intro p hp
        obtain ⟨lv, hlv, hpin⟩ := List.mem_flatten.mp hp
        obtain ⟨kv, hkv, hr⟩ := forall₂_mem_right hf lv hlv
        obtain ⟨L0, hL0, hprops⟩ := ih cs kv.2 (hall kv hkv).2 (ks ++ [kv.1])
        have hlv0 : L0 = lv := by
          rw [hr] at hL0
          exact (Except.ok.inj hL0).symm
        subst hlv0
        obtain ⟨hp2, suf, hpath, hsuf⟩ := hprops p hpin
        exact ⟨hp2, kv.1 :: suf,
          by rw [hpath, List.append_assoc]; rfl,
          .cons (hall kv hkv).1 hsuf⟩

theorem validMapTrie_nested : ∀ {ts : List DataValueType} {ss : List String}
    (cs : SchemaForest) (el : Json),
    List.Forall₂ (fun t s => keyStrOk t s = true) ts ss →
    el.isObj = true → validMapF cs el = true →
    validMapTrie ts cs (insertPath .null ss el) = true := by
  intro ts ss cs el h
  induction h with
  | nil =>
    intro h1 h2
    rw [show insertPath Json.null [] el = el from rfl, validMapTrie_nil, h1, h2]
    rfl
  | @cons t s2 ts2 ss2 hks h2 ih =>
    intro ho hvf
    rw [show insertPath .null (s2 :: ss2) el = .obj [(s2, insertPath .null ss2 el)] from rfl,
      validMapTrie_cons]
    apply validMapTrieF_of_all
    intro kv hkv
    rw [List.mem_singleton] at hkv
    subst hkv
    exact ⟨hks, ih ho hvf⟩

theorem validMapTrie_insertPath : ∀ (ts : List DataValueType) (ss : List String)
    (cs : SchemaForest) (T el : Json),
    validMapTrie ts cs T = true →
    List.Forall₂ (fun t s => keyStrOk t s = true) ts ss →
    el.isObj = true → validMapF cs el = true →
    validMapTrie ts cs (insertPath T ss el) = true := by
  intro ts
  induction ts with
  | nil =>
    intro ss cs T el _ hf ho hvf
    cases hf
    rw [show insertPath T [] el = el from rfl, validMapTrie_nil, ho, hvf]
    rfl
  | cons t ts ih =>
    intro ss cs T el hT hf ho hvf
    cases hf with
    | cons hks hf2 =>
      rename_i s2 ss2
      rw [validMapTrie_cons] at hT
      cases T with
      | null => exact Bool.noConfusion hT
      | bool b => exact Bool.noConfusion hT
      | num n => exact Bool.noConfusion hT
      | str s3 => exact Bool.noConfusion hT
      | arr xs => exact Bool.noConfusion hT
      | obj o =>
        have hall := validMapTrieF_all hT
        have hstep : insertPath (.obj o) (s2 :: ss2) el =
            .obj (insertF o s2 (insertPath ((lookupF o s2).getD .null) ss2 el)) := rfl
        rw [hstep, validMapTrie_cons]
        apply validMapTrieF_of_all
        intro kv hkv
        rcases mem_insertF₂ hkv with hkv | hkv
        · subst hkv
          refine ⟨hks, ?_⟩
          show validMapTrie ts cs
            (insertPath ((lookupF o s2).getD Json.null) ss2 el) = true
          cases hl : lookupF o s2 with
          | none => exact validMapTrie_nested cs el hf2 ho hvf
          | some Tsub =>
            exact ih ss2 cs Tsub el (hall (s2, Tsub) (lookupF_some_mem_pair hl)).2
              hf2 ho hvf
        · exact hall kv hkv

theorem validMapTrie_fold : ∀ (ps : List (List String × Json))
    (ts : List DataValueType) (cs : SchemaForest) (T : Json),
    validMapTrie ts cs T = true →
    (∀ p ∈ ps, List.Forall₂ (fun t s => keyStrOk t s = true) ts p.1 ∧
      p.2.isObj = true ∧ validMapF cs p.2 = true) →
    validMapTrie ts cs (ps.foldl (fun acc p => insertPath acc p.1 p.2) T) = true := by
  intro ps
  induction ps with
  | nil => exact fun ts cs T hT _ => hT
  | cons p ps ih =>
    intro ts cs T hT hall
    rw [List.foldl_cons]
    obtain ⟨h1, h2, h3⟩ := hall p (List.mem_cons_self _ _)
    exact ih ts cs _ (validMapTrie_insertPath ts p.1 cs T p.2 hT h1 h2 h3)
      (fun q hq => hall q (List.mem_cons_of_mem _ hq))

/-! ## Validity depends only on the looked-up fields -/

theorem validF_nil (v : Json) : validF .nil v = true := by
  conv_lhs => rw [validF.eq_def]

theorem validMapF_nil (v : Json) : validMapF .nil v = true := by
  conv_lhs => rw [validMapF.eq_def]

theorem validF_cons_obj (c : SchemaNode) (cs : SchemaForest) (o : List (String × Json)) :
    validF (.cons c cs) (.obj o) =
      ((match lookupF o c.name with
        | some x => validN c x
        | none => true) && validF cs (.obj o)) := by
  rw [validF_cons]

theorem validMapF_cons_obj (c : SchemaNode) (cs : SchemaForest)
    (o : List (String × Json)) :
    validMapF (.cons c cs) (.obj o) =
      ((match lookupF o c.name with
        | some x => validMapN c x
        | none => true) && validMapF cs (.obj o)) := by
  rw [validMapF_cons]

theorem validF_congr : ∀ (cs : SchemaForest) (o2 o : List (String × Json)),
    (∀ nm ∈ namesF cs, lookupF o2 nm = lookupF o nm) →
    validF cs (.obj o2) = validF cs (.obj o)
  | .nil, o2, o, _ => by rw [validF_nil, validF_nil]
  | .cons c cs, o2, o, h => by
    rw [validF_cons_obj, validF_cons_obj, h c.name (List.mem_cons_self _ _),
      validF_congr cs o2 o (fun nm hnm => h nm (List.mem_cons_of_mem _ hnm))]

theorem validMapF_congr : ∀ (cs : SchemaForest) (o2 o : List (String × Json)),
    (∀ nm ∈ namesF cs, lookupF o2 nm = lookupF o nm) →
    validMapF cs (.obj o2) = validMapF cs (.obj o)
  | .nil, o2, o, _ => by rw [validMapF_nil, validMapF_nil]
  | .cons c cs, o2, o, h => by
    rw [validMapF_cons_obj, validMapF_cons_obj, h c.name (List.mem_cons_self _ _),
      validMapF_congr cs o2 o (fun nm hnm => h nm (List.mem_cons_of_mem _ hnm))]

/-! ## Conversions commute with surgery on unrelated fields -/

theorem childUpdate_set_comm {nm nm2 : String} {g : Json → Except String Json}
    {o o2 : List (String × Json)} (y : Json) (hne : ¬ nm = nm2)
    (hp : ∃ w0, lookupF o nm2 = some w0)
    (h : childUpdate nm g (.obj o) = .ok (.obj o2)) :
    childUpdate nm g (.obj (insertF o nm2 y)) = .ok (.obj (insertF o2 nm2 y)) := by
  obtain ⟨w0, hw0⟩ := hp
  rw [childUpdate] at h ⊢
  cases hl : lookupF o nm with
  | none =>
    simp only [applySteps, hl] at h
    injection h with h2
    injection h2 with h3
    subst h3
    simp only [applySteps, lookupF_insertF_ne o nm2 nm y hne, hl]
  | some x =>
    simp only [applySteps, hl] at h
    cases hgx : g x with
    | error e => rw [hgx] at h; exact Except.noConfusion h
    | ok z =>
      rw [hgx] at h
      injection h with h2
      injection h2 with h3
      subst h3
      simp only [applySteps, lookupF_insertF_ne o nm2 nm y hne, hl, hgx]
      show Except.ok (Json.obj (insertF (insertF o nm2 y) nm z)) = _
      rw [insertF_comm_of_present z y hne hw0]

theorem childUpdate_drop_comm {nm nm2 : String} {g : Json → Except String Json}
    {o o2 : List (String × Json)} (hne : ¬ nm = nm2)
    (h : childUpdate nm g (.obj o) = .ok (.obj o2)) :
    childUpdate nm g (.obj (dropF o nm2)) = .ok (.obj (dropF o2 nm2)) := by
  rw [childUpdate] at h ⊢
  cases hl : lookupF o nm with
  | none =>
    simp only [applySteps, hl] at h
    injection h with h2
    injection h2 with h3
    subst h3
    simp only [applySteps, lookupF_dropF_ne o nm2 nm hne, hl]
  | some x =>
    simp only [applySteps, hl] at h
    cases hgx : g x with
    | error e => rw [hgx] at h; exact Except.noConfusion h
    | ok z =>
      rw [hgx] at h
      injection h with h2
      injection h2 with h3
      subst h3
      simp only [applySteps, lookupF_dropF_ne o nm2 nm hne, hl, hgx]
      show Except.ok (Json.obj (insertF (dropF o nm2) nm z)) = _
      rw [insertF_dropF_comm z hne]

theorem specN2YintoF_set_comm : ∀ (cs : SchemaForest) {nm2 : String}
    {o o2 : List (String × Json)} (y : Json),
    ¬ nm2 ∈ namesF cs → (∃ w0, lookupF o nm2 = some w0) →
    specN2YintoF cs (.obj o) = .ok (.obj o2) →
    specN2YintoF cs (.obj (insertF o nm2 y)) = .ok (.obj (insertF o2 nm2 y))
  | .nil, nm2, o, o2, y, _, _, h => by
    simp only [specN2YintoF] at h ⊢
    injection h with h2
    injection h2 with h3
    subst h3
    rfl
  | .cons c cs, nm2, o, o2, y, hnm, hp, h => by
    rw [specN2YintoF_cons] at h ⊢
    have hnm2 : ¬ nm2 ∈ namesF cs :=
      fun hm => hnm (List.mem_cons_of_mem _ hm)
    have hnec : ¬ c.name = nm2 :=
      fun he => hnm (he ▸ List.mem_cons_self _ _)
    cases hm : specN2YintoF cs (.obj o) with
    | error e => rw [hm] at h; exact Except.noConfusion h
    | ok v1 =>
      rw [hm] at h
      obtain ⟨o1, rfl, hn1, hlk1⟩ := specN2YintoF_frame cs _ _ hm
      have h2 : childUpdate c.name (specN2Ynode c) (.obj o1) = .ok (.obj o2) := h
      rw [specN2YintoF_set_comm cs y hnm2 hp hm]
      show childUpdate c.name (specN2Ynode c) (.obj (insertF o1 nm2 y)) = _
      refine childUpdate_set_comm y hnec ?_ h2
      obtain ⟨w0, hw0⟩ := hp
      exact ⟨w0, (hlk1 nm2 hnm2).trans hw0⟩

theorem specY2NintoF_drop_comm : ∀ (cs : SchemaForest) {nm2 : String}
    {o o2 : List (String × Json)},
    ¬ nm2 ∈ namesF cs →
    specY2NintoF cs (.obj o) = .ok (.obj o2) →
    specY2NintoF cs (.obj (dropF o nm2)) = .ok (.obj (dropF o2 nm2))
  | .nil, nm2, o, o2, _, h => by
    simp only [specY2NintoF] at h ⊢
    injection h with h2
    injection h2 with h3
    subst h3
    rfl
  | .cons c cs, nm2, o, o2, hnm, h => by
    rw [specY2NintoF_cons] at h ⊢
    have hnm2 : ¬ nm2 ∈ namesF cs :=
      fun hm => hnm (List.mem_cons_of_mem _ hm)
    have hnec : ¬ c.name = nm2 :=
      fun he => hnm (he ▸ List.mem_cons_self _ _)
    cases hm : specY2NintoF cs (.obj o) with
    | error e => rw [hm] at h; exact Except.noConfusion h
    | ok v1 =>
      rw [hm] at h
      obtain ⟨o1, rfl, hn1, hlk1⟩ := specY2NintoF_frame cs _ _ hm
      have h2 : childUpdate c.name (specY2Nnode c) (.obj o1) = .ok (.obj o2) := h
      rw [specY2NintoF_drop_comm cs hnm2 hm]
      show childUpdate c.name (specY2Nnode c) (.obj (dropF o1 nm2)) = _
      exact childUpdate_drop_comm hnec h2

theorem specY2NintoF_stripObj_comm : ∀ (ks : List String) (cs : SchemaForest)
    {o o2 : List (String × Json)},
    (∀ k ∈ ks, ¬ k ∈ namesF cs) →
    specY2NintoF cs (.obj o) = .ok (.obj o2) →
    specY2NintoF cs (.obj (stripObj ks o)) = .ok (.obj (stripObj ks o2)) := by
  intro ks
  induction ks with
  | nil =>
    intro cs o o2 _ h
    exact h
  | cons k ks ih =>
    intro cs o o2 hks h
    rw [stripObj_cons, stripObj_cons]
    exact ih cs (fun k2 hk2 => hks k2 (List.mem_cons_of_mem _ hk2))
      (specY2NintoF_drop_comm cs (hks k (List.mem_cons_self _ _)) h)

/-! ## Extraction helpers for well-formedness and validity -/

theorem wfN_parts {nm : String} {k : SchemaNodeKind} {ky : List (String × DataValueType)}
    {cs : SchemaForest} (h : wfN (.mk nm k ky cs) = true) :
    ((ky.map Prod.fst ++ namesF cs).Nodup) ∧
    ((!(decide (k = SchemaNodeKind.list) && decide (2 ≤ ky.length)) ||
      !hasKeyedF cs) = true) ∧
    wfF cs = true := by
  have h2 : (decide ((ky.map Prod.fst ++ namesF cs).Nodup) &&
      (!(decide (k = SchemaNodeKind.list) && decide (2 ≤ ky.length)) || !hasKeyedF cs) &&
      wfF cs) = true := h
  rw [Bool.and_eq_true, Bool.and_eq_true] at h2
  exact ⟨of_decide_eq_true h2.1.1, h2.1.2, h2.2⟩

theorem wfF_parts {c : SchemaNode} {cs : SchemaForest}
    (h : wfF (.cons c cs) = true) : wfN c = true ∧ wfF cs = true := by
  have h2 : (wfN c && wfF cs) = true := h
  rw [Bool.and_eq_true] at h2
  exact h2

theorem fieldNamesNodup_obj {el : Json} (h : fieldNamesNodup el = true) :
    ∃ o, el = .obj o ∧ (o.map Prod.fst).Nodup := by
  cases el with
  | obj o => exact ⟨o, rfl, of_decide_eq_true h⟩
  | null => exact Bool.noConfusion h
  | bool b => exact Bool.noConfusion h
  | num n => exact Bool.noConfusion h
  | str s => exact Bool.noConfusion h
  | arr xs => exact Bool.noConfusion h

theorem isArr_not_isObj {x : Json} (h : x.isArr = true) : x.isObj = false := by
  cases x with
  | arr xs => rfl
  | null => exact Bool.noConfusion h
  | bool b => exact Bool.noConfusion h
  | num n => exact Bool.noConfusion h
  | str s => exact Bool.noConfusion h
  | obj o => exact Bool.noConfusion h

theorem convertOps_singleton (op : ConvOp) (d : Json) :
    convertOps [op] d = applySteps op.2 op.1 d := by
  rw [convertOps_cons]
  cases h : applySteps op.2 op.1 d with
  | error e => rfl
  | ok d1 => rfl

theorem foldlM_insertEl : ∀ {els2 : List Json} {pairs : List (List String × Json)}
    (ks : List String),
    List.Forall₂ (fun el p => stripKeys ks el = .ok p) els2 pairs →
    ∀ T, els2.foldlM (insertEl ks) T =
      .ok (pairs.foldl (fun acc p => insertPath acc p.1 p.2) T) := by
  intro els2 pairs ks h
  induction h with
  | nil => intro T; rfl
  | @cons el p els3 ps3 hp hf ih =>
    intro T
    rw [List.foldlM_cons, insertEl_eq, hp, bind_ok, List.foldl_cons]
    exact ih _

theorem specY2Nelems_id {cs : SchemaForest} (h : hasKeyedF cs = false)
    (els : List Json) : specY2Nelems cs els = .ok els := by
  rw [specY2Nelems_eq_mapM]
  exact mapM_ok_id _ _ (fun el _ => specY2NintoF_id_of_no_keyed cs h el)

theorem validN_keyed_parts {nm : String} {k : SchemaNodeKind}
    {ky : List (String × DataValueType)} {cs : SchemaForest} {x : Json}
    (hk : k = SchemaNodeKind.list) (hke : ky.isEmpty = false)
    (h : validN (.mk nm k ky cs) x = true) :
    ∃ els, x = .arr els ∧ els.isEmpty = false ∧
      (∀ el ∈ els, fieldNamesNodup el = true ∧ keysPresent ky el = true ∧
        validF cs el = true) ∧
      (els.map (keyStrsOf ky)).Nodup := by
  rw [validN_keyed nm ky cs hk hke] at h
  cases x with
  | arr els =>
    rw [Bool.and_eq_true, Bool.and_eq_true] at h
    obtain ⟨⟨hne, hall⟩, hnd⟩ := h
    refine ⟨els, rfl, ?_, ?_, of_decide_eq_true hnd⟩
    · cases hels : els.isEmpty with
      | false => rfl
      | true => rw [hels] at hne; exact Bool.noConfusion hne
    · intro el hel
      have h2 := List.all_eq_true.mp hall el hel
      rw [Bool.and_eq_true, Bool.and_eq_true] at h2
      exact ⟨h2.1.1, h2.1.2, h2.2⟩
  | null => exact Bool.noConfusion h
  | bool b => exact Bool.noConfusion h
  | num n => exact Bool.noConfusion h
  | str s => exact Bool.noConfusion h
  | obj o => exact Bool.noConfusion h

theorem validF_cons_tail {c : SchemaNode} {cs : SchemaForest} {v : Json}
    (h : validF (.cons c cs) v = true) : validF cs v = true := by
  rw [validF_cons, Bool.and_eq_true] at h
  exact h.2

theorem validF_cons_head {c : SchemaNode} {cs : SchemaForest}
    {o : List (String × Json)} {x : Json}
    (h : validF (.cons c cs) (.obj o) = true) (hl : lookupF o c.name = some x) :
    validN c x = true := by
  rw [validF_cons_obj, Bool.and_eq_true] at h
  have h2 := h.1
  rw [hl] at h2
  exact h2

theorem validMapF_cons_tail {c : SchemaNode} {cs : SchemaForest} {v : Json}
    (h : validMapF (.cons c cs) v = true) : validMapF cs v = true := by
  rw [validMapF_cons, Bool.and_eq_true] at h
  exact h.2

theorem validMapF_cons_head {c : SchemaNode} {cs : SchemaForest}
    {o : List (String × Json)} {x : Json}
    (h : validMapF (.cons c cs) (.obj o) = true) (hl : lookupF o c.name = some x) :
    validMapN c x = true := by
  rw [validMapF_cons_obj, Bool.and_eq_true] at h
  have h2 := h.1
  rw [hl] at h2
  exact h2

theorem keyed_single_key {k : SchemaNodeKind} {ky : List (String × DataValueType)}
    {cs : SchemaForest}
    (hk : k = SchemaNodeKind.list) (hke : ky.isEmpty = false)
    (hwf2 : (!(decide (k = SchemaNodeKind.list) && decide (2 ≤ ky.length)) ||
      !hasKeyedF cs) = true)
    (hkeyed : hasKeyedF cs = true) : ky.length = 1 := by
  rw [hkeyed, decide_eq_true hk] at hwf2
  have h2 : (!decide (2 ≤ ky.length)) = true := by
    cases h3 : decide (2 ≤ ky.length) with
    | false => rfl
    | true =>
      rw [h3] at hwf2
      exact Bool.noConfusion hwf2
  have h4 : ¬ (2 ≤ ky.length) := by
    intro hge
    rw [decide_eq_true hge] at h2
    exact Bool.noConfusion h2
  have h5 : ky ≠ [] := by
    intro he
    rw [he] at hke
    exact Bool.noConfusion hke
  have h6 : 0 < ky.length := List.length_pos.mpr h5
  omega

theorem forall₂_exists {α β : Type} {R : α → β → Prop} :
    ∀ (xs : List α), (∀ x ∈ xs, ∃ y, R x y) → ∃ ys, List.Forall₂ R xs ys := by
  intro xs
  induction xs with
  | nil => exact fun _ => ⟨[], .nil⟩
  | cons x xs ih =>
    intro h
    obtain ⟨y, hy⟩ := h x (List.mem_cons_self _ _)
    obtain ⟨ys, hys⟩ := ih (fun z hz => h z (List.mem_cons_of_mem _ hz))
    exact ⟨y :: ys, .cons hy hys⟩

/-- Stripping the (still present, unchanged) key fields of a converted
element succeeds and is characterised by `keyStrsOf`/`stripObj` on the
converted fields. -/
theorem strip_converted {ky : List (String × DataValueType)} {cs : SchemaForest}
    {o : List (String × Json)} {w : Json}
    (hndky : (ky.map Prod.fst).Nodup)
    (hdisj : ∀ kn ∈ ky.map Prod.fst, ¬ kn ∈ namesF cs)
    (hpres : keysPresent ky (.obj o) = true)
    (hfr : FramedBy (namesF cs) (.obj o) w) :
    ∃ o2, w = .obj o2 ∧
      stripKeys (ky.map Prod.fst) w =
        .ok (keyStrsOf ky (.obj o), .obj (stripObj (ky.map Prod.fst) o2)) := by
  obtain ⟨o2, rfl, hn2, hlk2⟩ := hfr
  have hlkeq : ∀ kt ∈ ky, lookupF o2 kt.1 = lookupF o kt.1 := by
    intro kt hkt
    exact hlk2 kt.1 (hdisj kt.1 (List.mem_map_of_mem Prod.fst hkt))
  have hpres2 : ∀ kt ∈ ky, ∃ v, lookupF o2 kt.1 = some v ∧ keyValOk kt.2 v = true := by
    intro kt hkt
    obtain ⟨v, hv, hok⟩ := keysPresent_spec hpres kt hkt
    exact ⟨v, (hlkeq kt hkt).trans hv, hok⟩
  exact ⟨o2, rfl, by
    rw [stripKeys_spec ky o2 hndky hpres2, keyStrsOf_congr ky o2 o hlkeq]⟩

/-! ## The `Yang2Nix` converter refines the compositional conversion -/

mutual
/-- At a node: the compositional conversion succeeds on valid values,
and the converter operations for the subtree equal one field update by
the compositional conversion. -/
theorem thmY2N_N : ∀ (n : SchemaNode), wfN n = true →
    ((∀ x, validN n x = true → ∃ y, specY2Nnode n x = .ok y) ∧
     (∀ (b : Bool) (d : Json),
       AtRefs [NavStep.fieldStep (qualify b n.name)] (fun x => validN n x = true) d →
       convertOps (opsN .yang2nix b n) d =
         childUpdate (qualify b n.name) (specY2Nnode n) d))
  | .mk nm k ky cs, hwf => by
    obtain ⟨hwfnd, hwf2, hwfcs⟩ := wfN_parts hwf
    have hndcs : (namesF cs).Nodup := hwfnd.of_append_right
    have hndky : (ky.map Prod.fst).Nodup := hwfnd.of_append_left
    have hdisj : ∀ kn ∈ ky.map Prod.fst, ¬ kn ∈ namesF cs :=
      fun kn h1 h2 => (List.disjoint_of_nodup_append hwfnd) h1 h2
    by_cases hk : k = SchemaNodeKind.list
    · cases hke : ky.isEmpty with
      | true =>
        constructor
        · exact fun x _ => ⟨x, specY2Nnode_keyless nm cs hk hke x⟩
        · intro b d hAt
          have hky : ky = [] := by
            cases hkyq : ky with
            | nil => rfl
            | cons a l => rw [hkyq] at hke; exact Bool.noConfusion hke
          have hself : opsSelf .yang2nix b (.mk nm k ky cs) = [] := by
            rw [opsSelf, if_neg]
            intro hc
            exact hc.2 hky
          have hflat : flattensOf k ky = [] := by
            rw [flattensOf, if_pos hk, hky]
            rfl
          show convertOps (prefixOps
            (NavStep.fieldStep (qualify b nm) :: flattensOf k ky)
            (opsF .yang2nix cs) ++ opsSelf .yang2nix b (.mk nm k ky cs)) d = _
          rw [hself, hflat, List.append_nil]
          have hok : ∀ x, validN (.mk nm k ky cs) x = true →
              ∃ w, convertOps (opsF .yang2nix cs) x = .ok w := by
            intro x hx
            rw [validN_keyless nm cs hk hke] at hx
            exact ⟨x, convertOps_nonobj _ (opsF_head _ cs) x (isArr_not_isObj hx)⟩
          rw [convertOps_prefixed [NavStep.fieldStep (qualify b nm)] _ _ hok d hAt]
          exact applySteps_congr _ _ (fun x => validN (.mk nm k ky cs) x = true)
            (fun x hx => by
              have hx2 : validN (.mk nm k ky cs) x = true := hx
              rw [validN_keyless nm cs hk hke] at hx2
              rw [convertOps_nonobj _ (opsF_head _ cs) x (isArr_not_isObj hx2),
                specY2Nnode_keyless nm cs hk hke x])
            [NavStep.fieldStep (qualify b nm)] d hAt
      | false =>
        have hky2 : ky ≠ [] := by
          intro he
          rw [he] at hke
          exact Bool.noConfusion hke
        constructor
        · intro x hx
          obtain ⟨els, rfl, hne, hall, hndks⟩ := validN_keyed_parts hk hke hx
          rw [specY2Nnode_keyed nm ky cs hk hke]
          show ∃ y, (specY2Nelems cs els >>= fun els2 =>
            els2.foldlM (insertEl (ky.map Prod.fst)) .null) = .ok y
          rw [specY2Nelems_eq_mapM]
          obtain ⟨els2, hm, hf⟩ := mapM_ok_exists (specY2NintoF cs) els (fun el hel => by
            obtain ⟨w, hw, _⟩ := thmY2N_F cs hwfcs hndcs el (hall el hel).2.2
            exact ⟨w, hw⟩)
          have hstripex : ∀ el2 ∈ els2, ∃ p,
              stripKeys (ky.map Prod.fst) el2 = .ok p := by
            intro el2 hel2
            obtain ⟨el, hel, hio⟩ := forall₂_mem_right hf el2 hel2
            obtain ⟨oel, helq, hnoel⟩ := fieldNamesNodup_obj (hall el hel).1
            rw [helq] at hio
            have hfr := specY2NintoF_frame cs _ _ hio
            have hpres : keysPresent ky (.obj oel) = true := by
              rw [← helq]
              exact (hall el hel).2.1
            obtain ⟨o2, _, hstr⟩ := strip_converted hndky hdisj hpres hfr
            exact ⟨_, hstr⟩
          obtain ⟨pairs, hfp⟩ := forall₂_exists els2 hstripex
          rw [hm, bind_ok, foldlM_insertEl _ hfp .null]
          exact ⟨_, rfl⟩
        · intro b d hAt
          by_cases hkeyed : hasKeyedF cs = true
          · have hlen1 : ky.length = 1 := keyed_single_key hk hke hwf2 hkeyed
            have hflat : flattensOf k ky = [NavStep.flattenStep] := by
              rw [flattensOf, if_pos hk, hlen1]
              rfl
            have hself : opsSelf .yang2nix b (.mk nm k ky cs) =
                [([NavStep.fieldStep (qualify b nm)],
                  yang2nixRewrite (ky.map Prod.fst))] := by
              rw [opsSelf, if_pos (⟨hk, hky2⟩ :
                SchemaNode.kind (.mk nm k ky cs) = SchemaNodeKind.list ∧
                SchemaNode.keys (.mk nm k ky cs) ≠ [])]
              rfl
            show convertOps (prefixOps
              (NavStep.fieldStep (qualify b nm) :: flattensOf k ky)
              (opsF .yang2nix cs) ++ opsSelf .yang2nix b (.mk nm k ky cs)) d = _
            rw [hself, hflat, convertOps_append]
            have hQat : AtRefs [NavStep.fieldStep (qualify b nm), NavStep.flattenStep]
                (fun el => validF cs el = true) d := by
              cases d with
              | obj o =>
                intro x hx
                have hvx : validN (.mk nm k ky cs) x = true := hAt x hx
                obtain ⟨els, hxe, _, hall, _⟩ := validN_keyed_parts hk hke hvx
                subst hxe
                intro el hel
                exact (hall el hel).2.2
              | null => trivial
              | bool b2 => trivial
              | num n2 => trivial
              | str s2 => trivial
              | arr xs => trivial
            have hok : ∀ el, validF cs el = true →
                ∃ w, convertOps (opsF .yang2nix cs) el = .ok w := fun el hel => by
              obtain ⟨w, _, hw⟩ := thmY2N_F cs hwfcs hndcs el hel
              exact ⟨w, hw⟩
            rw [convertOps_prefixed
              [NavStep.fieldStep (qualify b nm), NavStep.flattenStep] _ _ hok d hQat]
            rw [applySteps_congr (convertOps (opsF .yang2nix cs)) (specY2NintoF cs)
              (fun el => validF cs el = true)
              (fun el hel => by
                obtain ⟨w, h1, h2⟩ := thmY2N_F cs hwfcs hndcs el hel
                rw [h1, h2])
              _ d hQat]
            rw [show ([NavStep.fieldStep (qualify b nm), NavStep.flattenStep] :
                List NavStep) =
              [NavStep.fieldStep (qualify b nm)] ++ [NavStep.flattenStep] from rfl,
              applySteps_append]
            obtain ⟨d1, hd1⟩ := applySteps_exists_ok
              (applySteps (specY2NintoF cs) [NavStep.flattenStep])
              [NavStep.fieldStep (qualify b nm)] d
              (atRefs_mono (fun x hx => by
                obtain ⟨els, rfl, _, hall, _⟩ := validN_keyed_parts hk hke hx
                obtain ⟨els2, hm2, _⟩ := mapM_ok_exists (specY2NintoF cs) els
                  (fun el hel => by
                    obtain ⟨w, hw, _⟩ := thmY2N_F cs hwfcs hndcs el (hall el hel).2.2
                    exact ⟨w, hw⟩)
                refine ⟨.arr els2, ?_⟩
                show Json.arr <$> els.mapM (specY2NintoF cs) = _
                rw [hm2]
                rfl) _ d hAt)
            rw [hd1, bind_ok, convertOps_singleton]
            rw [show applySteps (yang2nixRewrite (ky.map Prod.fst))
                [NavStep.fieldStep (qualify b nm)] d1 =
              applySteps (fun x =>
                applySteps (specY2NintoF cs) [NavStep.flattenStep] x >>=
                  yang2nixRewrite (ky.map Prod.fst))
                [NavStep.fieldStep (qualify b nm)] d from
              applySteps_comp _ _ _ d d1 hd1]
            exact applySteps_congr _ _ (fun x => validN (.mk nm k ky cs) x = true)
              (fun x hx => by
                obtain ⟨els, rfl, _, hall, _⟩ := validN_keyed_parts hk hke hx
                rw [specY2Nnode_keyed nm ky cs hk hke]
                show applySteps (specY2NintoF cs) [NavStep.flattenStep] (.arr els) >>=
                    yang2nixRewrite (ky.map Prod.fst) =
                  (specY2Nelems cs els >>= fun els2 =>
                    els2.foldlM (insertEl (ky.map Prod.fst)) .null)
                rw [specY2Nelems_eq_mapM]
                show (Json.arr <$> els.mapM (specY2NintoF cs)) >>=
                    yang2nixRewrite (ky.map Prod.fst) = _
                cases hm : els.mapM (specY2NintoF cs) with
                | error e => rfl
                | ok els2 => rfl)
              [NavStep.fieldStep (qualify b nm)] d hAt
          · have hkeyed2 : hasKeyedF cs = false := by
              cases hkf : hasKeyedF cs with
              | false => rfl
              | true => exact absurd hkf hkeyed
            have hopsF : opsF .yang2nix cs = [] := opsF_nil_of_no_keyed _ cs hkeyed2
            have hself : opsSelf .yang2nix b (.mk nm k ky cs) =
                [([NavStep.fieldStep (qualify b nm)],
                  yang2nixRewrite (ky.map Prod.fst))] := by
              rw [opsSelf, if_pos (⟨hk, hky2⟩ :
                SchemaNode.kind (.mk nm k ky cs) = SchemaNodeKind.list ∧
                SchemaNode.keys (.mk nm k ky cs) ≠ [])]
              rfl
            show convertOps (prefixOps
              (NavStep.fieldStep (qualify b nm) :: flattensOf k ky)
              (opsF .yang2nix cs) ++ opsSelf .yang2nix b (.mk nm k ky cs)) d = _
            rw [hself, hopsF]
            show convertOps ([] ++ [([NavStep.fieldStep (qualify b nm)],
              yang2nixRewrite (ky.map Prod.fst))]) d = _
            rw [List.nil_append, convertOps_singleton]
            exact applySteps_congr _ _ (fun x => validN (.mk nm k ky cs) x = true)
              (fun x hx => by
                obtain ⟨els, rfl, _, hall, _⟩ := validN_keyed_parts hk hke hx
                rw [specY2Nnode_keyed nm ky cs hk hke]
                show yang2nixRewrite (ky.map Prod.fst) (.arr els) =
                  (specY2Nelems cs els >>= fun els2 =>
                    els2.foldlM (insertEl (ky.map Prod.fst)) .null)
                rw [specY2Nelems_id hkeyed2, bind_ok]
                rfl)
              [NavStep.fieldStep (qualify b nm)] d hAt
    · constructor
      · intro x hx
        rw [specY2Nnode_nonlist nm ky cs hk]
        cases hxo : x.isObj with
        | false => exact ⟨x, specY2NintoF_nonobj cs x hxo⟩
        | true =>
          cases x with
          | obj o =>
            rw [validN_nonlist nm ky cs hk] at hx
            have hx2 : (decide ((o.map Prod.fst).Nodup) &&
              validF cs (.obj o)) = true := hx
            rw [Bool.and_eq_true] at hx2
            obtain ⟨w, hw, _⟩ := thmY2N_F cs hwfcs hndcs (.obj o) hx2.2
            exact ⟨w, hw⟩
          | null => exact Bool.noConfusion hxo
          | bool b2 => exact Bool.noConfusion hxo
          | num n2 => exact Bool.noConfusion hxo
          | str s2 => exact Bool.noConfusion hxo
          | arr xs => exact Bool.noConfusion hxo
      · intro b d hAt
        have hself : opsSelf .yang2nix b (.mk nm k ky cs) = [] := by
          rw [opsSelf, if_neg]
          intro hc
          exact hk hc.1
        have hflat : flattensOf k ky = [] := by
          rw [flattensOf, if_neg hk]
        show convertOps (prefixOps
          (NavStep.fieldStep (qualify b nm) :: flattensOf k ky)
          (opsF .yang2nix cs) ++ opsSelf .yang2nix b (.mk nm k ky cs)) d = _
        rw [hself, hflat, List.append_nil]
        have hok : ∀ x, validN (.mk nm k ky cs) x = true →
            ∃ w, convertOps (opsF .yang2nix cs) x = .ok w := by
          intro x hx
          cases hxo : x.isObj with
          | false => exact ⟨x, convertOps_nonobj _ (opsF_head _ cs) x hxo⟩
          | true =>
            cases x with
            | obj o =>
              rw [validN_nonlist nm ky cs hk] at hx
              have hx2 : (decide ((o.map Prod.fst).Nodup) &&
                validF cs (.obj o)) = true := hx
              rw [Bool.and_eq_true] at hx2
              obtain ⟨w, _, hw⟩ := thmY2N_F cs hwfcs hndcs (.obj o) hx2.2
              exact ⟨w, hw⟩
            | null => exact Bool.noConfusion hxo
            | bool b2 => exact Bool.noConfusion hxo
            | num n2 => exact Bool.noConfusion hxo
            | str s2 => exact Bool.noConfusion hxo
            | arr xs => exact Bool.noConfusion hxo
        rw [convertOps_prefixed [NavStep.fieldStep (qualify b nm)] _ _ hok d hAt]
        have hpt : ∀ x, validN (.mk nm k ky cs) x = true →
            convertOps (opsF .yang2nix cs) x = specY2Nnode (.mk nm k ky cs) x := by
          intro x hx
          rw [specY2Nnode_nonlist nm ky cs hk]
          cases hxo : x.isObj with
          | false =>
            rw [convertOps_nonobj _ (opsF_head _ cs) x hxo,
              specY2NintoF_nonobj cs x hxo]
          | true =>
            cases x with
            | obj o =>
              rw [validN_nonlist nm ky cs hk] at hx
              have hx2 : (decide ((o.map Prod.fst).Nodup) &&
                validF cs (.obj o)) = true := hx
              rw [Bool.and_eq_true] at hx2
              obtain ⟨w, h1, h2⟩ := thmY2N_F cs hwfcs hndcs (.obj o) hx2.2
              rw [h1, h2]
            | null => exact Bool.noConfusion hxo
            | bool b2 => exact Bool.noConfusion hxo
            | num n2 => exact Bool.noConfusion hxo
            | str s2 => exact Bool.noConfusion hxo
            | arr xs => exact Bool.noConfusion hxo
        exact applySteps_congr _ _ (fun x => validN (.mk nm k ky cs) x = true)
          hpt [NavStep.fieldStep (qualify b nm)] d hAt

/-- Over a forest: the compositional conversion and the converter
operations agree and succeed on valid values. -/
theorem thmY2N_F : ∀ (cs : SchemaForest), wfF cs = true → (namesF cs).Nodup →
    ∀ v, validF cs v = true →
      ∃ w, specY2NintoF cs v = .ok w ∧ convertOps (opsF .yang2nix cs) v = .ok w
  | .nil, _, _, v, _ => ⟨v, by simp only [specY2NintoF], rfl⟩
  | .cons c cs, hwf, hnd, v, hval => by
    obtain ⟨hwfc, hwfcs⟩ := wfF_parts hwf
    have hnd2 := List.nodup_cons.mp hnd
    obtain ⟨w1, hspec1, hconv1⟩ := thmY2N_F cs hwfcs hnd2.2 v (validF_cons_tail hval)
    have hAt : AtRefs [NavStep.fieldStep (qualify false c.name)]
        (fun x => validN c x = true) w1 := by
      cases v with
      | obj o =>
        obtain ⟨o1, rfl, hn1, hlk1⟩ := specY2NintoF_frame cs _ _ hspec1
        intro x hx
        have hx2 : lookupF o1 c.name = some x := hx
        exact validF_cons_head hval ((hlk1 c.name hnd2.1).symm.trans hx2)
      | null =>
        have hw : w1 = Json.null := specY2NintoF_frame cs _ _ hspec1
        rw [hw]
        trivial
      | bool b2 =>
        have hw : w1 = Json.bool b2 := specY2NintoF_frame cs _ _ hspec1
        rw [hw]
        trivial
      | num n2 =>
        have hw : w1 = Json.num n2 := specY2NintoF_frame cs _ _ hspec1
        rw [hw]
        trivial
      | str s2 =>
        have hw : w1 = Json.str s2 := specY2NintoF_frame cs _ _ hspec1
        rw [hw]
        trivial
      | arr xs =>
        have hw : w1 = Json.arr xs := specY2NintoF_frame cs _ _ hspec1
        rw [hw]
        trivial
    obtain ⟨w, hw⟩ := applySteps_exists_ok (specY2Nnode c)
      [NavStep.fieldStep (qualify false c.name)] w1
      (atRefs_mono (fun x hx => (thmY2N_N c hwfc).1 x hx) _ w1 hAt)
    refine ⟨w, ?_, ?_⟩
    · rw [specY2NintoF_cons, hspec1, bind_ok]
      exact hw
    · show convertOps (opsF .yang2nix cs ++ opsN .yang2nix false c) v = .ok w
      rw [convertOps_append, hconv1, bind_ok, (thmY2N_N c hwfc).2 false w1 hAt]
      exact hw
end

theorem forall₂_of_map_left {α β γ : Type} {R : γ → β → Prop} {f : α → γ} :
    ∀ {xs : List α} {ys : List β}, List.Forall₂ R (xs.map f) ys →
      List.Forall₂ (fun a b => R (f a) b) xs ys := by
  intro xs
  induction xs with
  | nil =>
    intro ys h
    cases h
    exact .nil
  | cons x xs ih =>
    intro ys h
    rw [List.map_cons] at h
    cases h with
    | cons hab h2 => exact .cons hab (ih h2)

/-! ## The `Nix2Yang` converter refines the compositional conversion -/

mutual
theorem thmN2Y_N : ∀ (n : SchemaNode), wfN n = true →
    ((∀ x, validMapN n x = true → ∃ y, specN2Ynode n x = .ok y) ∧
     (∀ (b : Bool) (d : Json),
       AtRefs [NavStep.fieldStep (qualify b n.name)] (fun x => validMapN n x = true) d →
       convertOps (opsN .nix2yang b n) d =
         childUpdate (qualify b n.name) (specN2Ynode n) d))
  | .mk nm k ky cs, hwf => by
    obtain ⟨hwfnd, hwf2, hwfcs⟩ := wfN_parts hwf
    have hndcs : (namesF cs).Nodup := hwfnd.of_append_right
    have hlents : (ky.map Prod.snd).length = ky.length := List.length_map ky Prod.snd
    have hleavesok : ∀ x, validMapTrie (ky.map Prod.snd) cs x = true →
        ∃ y, applySteps (specN2YintoF cs)
          (List.replicate ky.length .flattenStep) x = .ok y := by
      intro x hx
      obtain ⟨L, hcol, hprops⟩ := trie_collect_total (ky.map Prod.snd) cs x hx []
      rw [hlents] at hcol
      apply applySteps_exists_ok
      apply collect_atrefs ky.length [] x L _ hcol
      intro p hp
      obtain ⟨w, hw, _⟩ := thmN2Y_F cs hwfcs hndcs p.2 ((hprops p hp).1.2)
      exact ⟨w, hw⟩
    by_cases hk : k = SchemaNodeKind.list
    · cases hke : ky.isEmpty with
      | true =>
        constructor
        · exact fun x _ => ⟨x, specN2Ynode_keyless nm cs hk hke x⟩
        · intro b d hAt
          have hky : ky = [] := by
            cases hkyq : ky with
            | nil => rfl
            | cons a l => rw [hkyq] at hke; exact Bool.noConfusion hke
          have hself : opsSelf .nix2yang b (.mk nm k ky cs) = [] := by
            rw [opsSelf, if_neg]
            intro hc
            exact hc.2 hky
          have hflat : flattensOf k ky = [] := by
            rw [flattensOf, if_pos hk, hky]
            rfl
          show convertOps (prefixOps
            (NavStep.fieldStep (qualify b nm) :: flattensOf k ky)
            (opsF .nix2yang cs) ++ opsSelf .nix2yang b (.mk nm k ky cs)) d = _
          rw [hself, hflat, List.append_nil]
          have hok : ∀ x, validMapN (.mk nm k ky cs) x = true →
              ∃ w, convertOps (opsF .nix2yang cs) x = .ok w := by
            intro x hx
            rw [validMapN_keyless nm cs hk hke] at hx
            exact ⟨x, convertOps_nonobj _ (opsF_head _ cs) x (isArr_not_isObj hx)⟩
          rw [convertOps_prefixed [NavStep.fieldStep (qualify b nm)] _ _ hok d hAt]
          exact applySteps_congr _ _ (fun x => validMapN (.mk nm k ky cs) x = true)
            (fun x hx => by
              have hx2 : validMapN (.mk nm k ky cs) x = true := hx
              rw [validMapN_keyless nm cs hk hke] at hx2
              rw [convertOps_nonobj _ (opsF_head _ cs) x (isArr_not_isObj hx2),
                specN2Ynode_keyless nm cs hk hke x])
            [NavStep.fieldStep (qualify b nm)] d hAt
      | false =>
        have hky2 : ky ≠ [] := by
          intro he
          rw [he] at hke
          exact Bool.noConfusion hke
        constructor
        · intro x hx
          rw [validMapN_keyed nm ky cs hk hke] at hx
          rw [specN2Ynode_keyed nm ky cs hk hke]
          rw [specN2Yleaves_eq_applySteps cs ky.length x]
          obtain ⟨x2, hx2⟩ := hleavesok x hx
          rw [hx2, bind_ok]
          obtain ⟨L, hcol, hprops⟩ := trie_collect_total (ky.map Prod.snd) cs x hx []
          rw [hlents] at hcol
          obtain ⟨L2, hcol2, hf2⟩ := flatten_collect ky.length (specN2YintoF cs)
            [] x L x2 hcol hx2
          rw [nix2yangRewrite_eq]
          have hcol2b : collectLeaves (ky.length) [] x2 = .ok L2 := hcol2
          rw [show (ky.length : Nat) = List.length ky from rfl] at hcol2b
          rw [hcol2b]
          rw [bind_ok]
          obtain ⟨a, ha, _⟩ := mapM_ok_exists
            (fun p => reinsertKeys ky p.1 p.2) L2.reverse (fun p2 hp2 => by
              obtain ⟨p, hp, hr⟩ := forall₂_mem_right hf2 p2 (List.mem_reverse.mp hp2)
              obtain ⟨hname, happ⟩ := hr
              obtain ⟨⟨hobj, hvf⟩, suf, hpath, hsuf⟩ := hprops p hp
              obtain ⟨o2, ho2⟩ : ∃ o2, p2.2 = .obj o2 := by
                cases hpo : p.2 with
                | obj oo =>
                  rw [hpo] at happ
                  obtain ⟨o1, ho1, _, _⟩ := specN2YintoF_frame cs _ _ happ
                  exact ⟨o1, ho1⟩
                | null => rw [hpo] at hobj; exact Bool.noConfusion hobj
                | bool bb => rw [hpo] at hobj; exact Bool.noConfusion hobj
                | num nn => rw [hpo] at hobj; exact Bool.noConfusion hobj
                | str ss => rw [hpo] at hobj; exact Bool.noConfusion hobj
                | arr aa => rw [hpo] at hobj; exact Bool.noConfusion hobj
              have hsuf2 : List.Forall₂
                  (fun (kt : String × DataValueType) s => keyStrOk kt.2 s = true)
                  ky p2.1 := by
                rw [← hname, hpath, List.nil_append]
                exact forall₂_of_map_left hsuf
              obtain ⟨o3, ho3⟩ := reinsert_total ky p2.1 o2 hsuf2
              refine ⟨.obj o3, ?_⟩
              show reinsertKeys ky p2.1 p2.2 = _
              rw [ho2]
              exact ho3)
          rw [ha]
          exact ⟨_, rfl⟩
        · intro b d hAt
          have hflat : flattensOf k ky = List.replicate ky.length .flattenStep := by
            rw [flattensOf, if_pos hk]
          have hself : opsSelf .nix2yang b (.mk nm k ky cs) =
              [([NavStep.fieldStep (qualify b nm)], nix2yangRewrite ky)] := by
            rw [opsSelf, if_pos (⟨hk, hky2⟩ :
              SchemaNode.kind (.mk nm k ky cs) = SchemaNodeKind.list ∧
              SchemaNode.keys (.mk nm k ky cs) ≠ [])]
            rfl
          show convertOps (prefixOps
            (NavStep.fieldStep (qualify b nm) :: flattensOf k ky)
            (opsF .nix2yang cs) ++ opsSelf .nix2yang b (.mk nm k ky cs)) d = _
          rw [hself, hflat, convertOps_append]
          have hQat : AtRefs
              (NavStep.fieldStep (qualify b nm) ::
                List.replicate ky.length .flattenStep)
              (fun el => validMapF cs el = true) d := by
            cases d with
            | obj o =>
              intro x hx
              have hvx : validMapN (.mk nm k ky cs) x = true := hAt x hx
              rw [validMapN_keyed nm ky cs hk hke] at hvx
              obtain ⟨L, hcol, hprops⟩ := trie_collect_total (ky.map Prod.snd) cs x hvx []
              rw [hlents] at hcol
              exact collect_atrefs ky.length [] x L _ hcol
                (fun p hp => (hprops p hp).1.2)
            | null => trivial
            | bool b2 => trivial
            | num n2 => trivial
            | str s2 => trivial
            | arr xs => trivial
          have hok : ∀ el, validMapF cs el = true →
              ∃ w, convertOps (opsF .nix2yang cs) el = .ok w := fun el hel => by
            obtain ⟨w, _, hw⟩ := thmN2Y_F cs hwfcs hndcs el hel
            exact ⟨w, hw⟩
          rw [convertOps_prefixed
            (NavStep.fieldStep (qualify b nm) ::
              List.replicate ky.length .flattenStep) _ _ hok d hQat]
          rw [applySteps_congr (convertOps (opsF .nix2yang cs)) (specN2YintoF cs)
            (fun el => validMapF cs el = true)
            (fun el hel => by
              obtain ⟨w, h1, h2⟩ := thmN2Y_F cs hwfcs hndcs el hel
              rw [h1, h2])
            _ d hQat]
          rw [show (NavStep.fieldStep (qualify b nm) ::
              List.replicate ky.length .flattenStep) =
            [NavStep.fieldStep (qualify b nm)] ++
              List.replicate ky.length .flattenStep from rfl,
            applySteps_append]
          obtain ⟨d1, hd1⟩ := applySteps_exists_ok
            (applySteps (specN2YintoF cs) (List.replicate ky.length .flattenStep))
            [NavStep.fieldStep (qualify b nm)] d
            (atRefs_mono (fun x hx => by
              have hx2 : validMapN (.mk nm k ky cs) x = true := hx
              rw [validMapN_keyed nm ky cs hk hke] at hx2
              exact hleavesok x hx2) _ d hAt)
          rw [hd1, bind_ok, convertOps_singleton]
          rw [show applySteps (nix2yangRewrite ky)
              [NavStep.fieldStep (qualify b nm)] d1 =
            applySteps (fun x =>
              applySteps (specN2YintoF cs) (List.replicate ky.length .flattenStep) x >>=
                nix2yangRewrite ky)
              [NavStep.fieldStep (qualify b nm)] d from
            applySteps_comp _ _ _ d d1 hd1]
          have hfe : (fun x =>
              applySteps (specN2YintoF cs) (List.replicate ky.length .flattenStep) x >>=
                nix2yangRewrite ky) = specN2Ynode (.mk nm k ky cs) := by
            funext x
            rw [← specN2Yleaves_eq_applySteps cs ky.length x,
              ← specN2Ynode_keyed nm ky cs hk hke x]
          rw [hfe]
          rfl
    · constructor
      · intro x hx
        rw [specN2Ynode_nonlist nm ky cs hk]
        cases hxo : x.isObj with
        | false => exact ⟨x, specN2YintoF_nonobj cs x hxo⟩
        | true =>
          cases x with
          | obj o =>
            rw [validMapN_nonlist nm ky cs hk] at hx
            have hx2 : (decide ((o.map Prod.fst).Nodup) &&
              validMapF cs (.obj o)) = true := hx
            rw [Bool.and_eq_true] at hx2
            obtain ⟨w, hw, _⟩ := thmN2Y_F cs hwfcs hndcs (.obj o) hx2.2
            exact ⟨w, hw⟩
          | null => exact Bool.noConfusion hxo
          | bool b2 => exact Bool.noConfusion hxo
          | num n2 => exact Bool.noConfusion hxo
          | str s2 => exact Bool.noConfusion hxo
          | arr xs => exact Bool.noConfusion hxo
      · intro b d hAt
        have hself : opsSelf .nix2yang b (.mk nm k ky cs) = [] := by
          rw [opsSelf, if_neg]
          intro hc
          exact hk hc.1
        have hflat : flattensOf k ky = [] := by
          rw [flattensOf, if_neg hk]
        show convertOps (prefixOps
          (NavStep.fieldStep (qualify b nm) :: flattensOf k ky)
          (opsF .nix2yang cs) ++ opsSelf .nix2yang b (.mk nm k ky cs)) d = _
        rw [hself, hflat, List.append_nil]
        have hok : ∀ x, validMapN (.mk nm k ky cs) x = true →
            ∃ w, convertOps (opsF .nix2yang cs) x = .ok w := by
          intro x hx
          cases hxo : x.isObj with
          | false => exact ⟨x, convertOps_nonobj _ (opsF_head _ cs) x hxo⟩
          | true =>
            cases x with
            | obj o =>
              rw [validMapN_nonlist nm ky cs hk] at hx
              have hx2 : (decide ((o.map Prod.fst).Nodup) &&
                validMapF cs (.obj o)) = true := hx
              rw [Bool.and_eq_true] at hx2
              obtain ⟨w, _, hw⟩ := thmN2Y_F cs hwfcs hndcs (.obj o) hx2.2
              exact ⟨w, hw⟩
            | null => exact Bool.noConfusion hxo
            | bool b2 => exact Bool.noConfusion hxo
            | num n2 => exact Bool.noConfusion hxo
            | str s2 => exact Bool.noConfusion hxo
            | arr xs => exact Bool.noConfusion hxo
        rw [convertOps_prefixed [NavStep.fieldStep (qualify b nm)] _ _ hok d hAt]
        have hpt : ∀ x, validMapN (.mk nm k ky cs) x = true →
            convertOps (opsF .nix2yang cs) x = specN2Ynode (.mk nm k ky cs) x := by
          intro x hx
          rw [specN2Ynode_nonlist nm ky cs hk]
          cases hxo : x.isObj with
          | false =>
            rw [convertOps_nonobj _ (opsF_head _ cs) x hxo,
              specN2YintoF_nonobj cs x hxo]
          | true =>
            cases x with
            | obj o =>
              rw [validMapN_nonlist nm ky cs hk] at hx
              have hx2 : (decide ((o.map Prod.fst).Nodup) &&
                validMapF cs (.obj o)) = true := hx
              rw [Bool.and_eq_true] at hx2
              obtain ⟨w, h1, h2⟩ := thmN2Y_F cs hwfcs hndcs (.obj o) hx2.2
              rw [h1, h2]
            | null => exact Bool.noConfusion hxo
            | bool b2 => exact Bool.noConfusion hxo
            | num n2 => exact Bool.noConfusion hxo
            | str s2 => exact Bool.noConfusion hxo
            | arr xs => exact Bool.noConfusion hxo
        exact applySteps_congr _ _ (fun x => validMapN (.mk nm k ky cs) x = true)
          hpt [NavStep.fieldStep (qualify b nm)] d hAt

theorem thmN2Y_F : ∀ (cs : SchemaForest), wfF cs = true → (namesF cs).Nodup →
    ∀ v, validMapF cs v = true →
      ∃ w, specN2YintoF cs v = .ok w ∧ convertOps (opsF .nix2yang cs) v = .ok w
  | .nil, _, _, v, _ => ⟨v, by simp only [specN2YintoF], rfl⟩
  | .cons c cs, hwf, hnd, v, hval => by
    obtain ⟨hwfc, hwfcs⟩ := wfF_parts hwf
    have hnd2 := List.nodup_cons.mp hnd
    obtain ⟨w1, hspec1, hconv1⟩ := thmN2Y_F cs hwfcs hnd2.2 v (validMapF_cons_tail hval)
    have hAt : AtRefs [NavStep.fieldStep (qualify false c.name)]
        (fun x => validMapN c x = true) w1 := by
      cases v with
      | obj o =>
        obtain ⟨o1, rfl, hn1, hlk1⟩ := specN2YintoF_frame cs _ _ hspec1
        intro x hx
        have hx2 : lookupF o1 c.name = some x := hx
        exact validMapF_cons_head hval ((hlk1 c.name hnd2.1).symm.trans hx2)
      | null =>
        have hw : w1 = Json.null := specN2YintoF_frame cs _ _ hspec1
        rw [hw]
        trivial
      | bool b2 =>
        have hw : w1 = Json.bool b2 := specN2YintoF_frame cs _ _ hspec1
        rw [hw]
        trivial
      | num n2 =>
        have hw : w1 = Json.num n2 := specN2YintoF_frame cs _ _ hspec1
        rw [hw]
        trivial
      | str s2 =>
        have hw : w1 = Json.str s2 := specN2YintoF_frame cs _ _ hspec1
        rw [hw]
        trivial
      | arr xs =>
        have hw : w1 = Json.arr xs := specN2YintoF_frame cs _ _ hspec1
        rw [hw]
        trivial
    obtain ⟨w, hw⟩ := applySteps_exists_ok (specN2Ynode c)
      [NavStep.fieldStep (qualify false c.name)] w1
      (atRefs_mono (fun x hx => (thmN2Y_N c hwfc).1 x hx) _ w1 hAt)
    refine ⟨w, ?_, ?_⟩
    · rw [specN2YintoF_cons, hspec1, bind_ok]
      exact hw
    · show convertOps (opsF .nix2yang cs ++ opsN .nix2yang false c) v = .ok w
      rw [convertOps_append, hconv1, bind_ok, (thmN2Y_N c hwfc).2 false w1 hAt]
      exact hw
end

/-! ## Helpers for the round-trip theorem -/

theorem validMapF_nonobj : ∀ (cs : SchemaForest) (v : Json), v.isObj = false →
    validMapF cs v = true
  | .nil, v, _ => validMapF_nil v
  | .cons c cs, v, h => by
    rw [validMapF_cons, validMapF_nonobj cs v h]
    cases v with
    | obj o => exact Bool.noConfusion h
    | null => rfl
    | bool b => rfl
    | num n => rfl
    | str s => rfl
    | arr xs => rfl

theorem lookupF_none_not_mem : ∀ {o : List (String × Json)} {k : String},
    lookupF o k = none → ¬ k ∈ o.map Prod.fst := by
  intro o
  induction o with
  | nil => intro k _ hm; exact absurd hm (List.not_mem_nil k)
  | cons kv rest ih =>
    intro k h hm
    obtain ⟨k0, v0⟩ := kv
    rw [lookupF] at h
    by_cases hk : k0 = k
    · rw [if_pos hk] at h
      exact Option.noConfusion h
    · rw [if_neg hk] at h
      rw [List.map_cons, List.mem_cons] at hm
      rcases hm with hm | hm
      · exact hk hm.symm
      · exact ih h hm

theorem forall₂_map_eq {α β γ : Type} {f : α → γ} {g : β → γ} :
    ∀ {xs : List α} {ys : List β}, List.Forall₂ (fun a b => g b = f a) xs ys →
      ys.map g = xs.map f := by
  intro xs ys h
  induction h with
  | nil => rfl
  | cons hab h ih =>
    simp only [List.map_cons]
    rw [hab, ih]

theorem forall₂_map_of_imp {α β γ : Type} {S : α → γ → Prop} {T : α → β → Prop}
    (f : γ → β) (h : ∀ a c, S a c → T a (f c)) :
    ∀ {as : List α} {cs : List γ}, List.Forall₂ S as cs →
      List.Forall₂ T as (cs.map f) := by
  intro as cs hf
  induction hf with
  | nil => exact .nil
  | @cons a c as2 cs2 hac hf2 ih =>
    rw [List.map_cons]
    exact .cons (h a c hac) ih

theorem forall₂_map₂_of_imp {α β γ δ : Type} {S : α → γ → Prop} {T : β → δ → Prop}
    (f : γ → β) (g : γ → δ) (h : ∀ a c, S a c → T (f c) (g c)) :
    ∀ {as : List α} {cs : List γ}, List.Forall₂ S as cs →
      List.Forall₂ T (cs.map f) (cs.map g) := by
  intro as cs hf
  induction hf with
  | nil => exact .nil
  | @cons a c as2 cs2 hac hf2 ih =>
    simp only [List.map_cons]
    exact .cons (h a c hac) ih

theorem forall₂_swap {α β : Type} {R : α → β → Prop} :
    ∀ {xs : List α} {ys : List β}, List.Forall₂ R xs ys →
      List.Forall₂ (fun b a => R a b) ys xs := by
  intro xs ys h
  induction h with
  | nil => exact .nil
  | cons hab h ih => exact .cons hab ih

theorem forall₂_comp {α β γ : Type} {R : α → β → Prop} {S : α → γ → Prop} :
    ∀ {as : List α} {bs : List β} {cs : List γ},
      List.Forall₂ R as bs → List.Forall₂ S as cs →
      List.Forall₂ (fun b c => ∃ a, R a b ∧ S a c) bs cs := by
  intro as bs cs h1
  induction h1 generalizing cs with
  | nil =>
    intro h2
    cases h2
    exact .nil
  | @cons a b as2 bs2 hab h1 ih =>
    intro h2
    cases h2 with
    | cons hac h2 => exact .cons ⟨a, hab, hac⟩ (ih h2)

theorem mapM_sim {α β γ : Type} {f : α → Except String β} {P : β → γ → Prop} :
    ∀ {xs : List α} {ys : List γ},
      List.Forall₂ (fun x el => ∃ r, f x = .ok r ∧ P r el) xs ys →
      ∃ rs, xs.mapM f = .ok rs ∧ List.Forall₂ P rs ys := by
  intro xs ys h
  induction h with
  | nil => exact ⟨[], rfl, .nil⟩
  | @cons x el xs2 ys2 hx h2 ih =>
    obtain ⟨r, hr, hp⟩ := hx
    obtain ⟨rs, hrs, hf⟩ := ih
    refine ⟨r :: rs, ?_, .cons hp hf⟩
    rw [List.mapM_cons, hr, hrs]
    rfl

theorem keyStrsOf_ok : ∀ (ky : List (String × DataValueType)) (o : List (String × Json)),
    (∀ kt ∈ ky, ∃ v, lookupF o kt.1 = some v ∧ keyValOk kt.2 v = true) →
    List.Forall₂ (fun t s => keyStrOk t s = true)
      (ky.map Prod.snd) (keyStrsOf ky (.obj o)) := by
  intro ky
  induction ky with
  | nil => exact fun o _ => .nil
  | cons kt ky ih =>
    intro o hpres
    obtain ⟨v, hv, hok⟩ := hpres kt (List.mem_cons_self _ _)
    rw [List.map_cons, keyStrsOf_cons_obj, hv]
    refine .cons ?_ (ih o (fun kt2 h2 => hpres kt2 (List.mem_cons_of_mem _ h2)))
    cases v with
    | num i =>
      have ht : kt.2.isNumeric = true := hok
      show keyStrOk kt.2 (intToStr i) = true
      rw [keyStrOk, if_pos ht, jsonFromStr_intToStr]
    | str s2 =>
      have hok2 : (!kt.2.isNumeric) = true := hok
      have ht : kt.2.isNumeric = false := by
        cases hb : kt.2.isNumeric with
        | true => rw [hb] at hok2; exact Bool.noConfusion hok2
        | false => rfl
      show keyStrOk kt.2 s2 = true
      rw [keyStrOk, if_neg (fun hh => by rw [ht] at hh; exact Bool.noConfusion hh)]
    | null => exact Bool.noConfusion hok
    | bool b => exact Bool.noConfusion hok
    | arr xs => exact Bool.noConfusion hok
    | obj o3 => exact Bool.noConfusion hok

theorem perm_stripObj : ∀ (ky : List (String × DataValueType)) (o : List (String × Json)),
    (ky.map Prod.fst).Nodup →
    (∀ kt ∈ ky, ∃ v, lookupF o kt.1 = some v) →
    o.Perm (stripObj (ky.map Prod.fst) o ++
      ky.map (fun kt => (kt.1, (lookupF o kt.1).getD .null))) := by
  intro ky
  induction ky with
  | nil =>
    intro o _ _
    rw [List.map_nil, stripObj_nil, List.map_nil, List.append_nil]
  | cons kt ky ih =>
    intro o hnd hpres
    obtain ⟨v, hv⟩ := hpres kt (List.mem_cons_self _ _)
    rw [List.map_cons] at hnd
    have hnd2 := List.nodup_cons.mp hnd
    have hlk2 : ∀ kt2 ∈ ky, lookupF (dropF o kt.1) kt2.1 = lookupF o kt2.1 := by
      intro kt2 h2
      apply lookupF_dropF_ne
      intro he
      exact hnd2.1 (he ▸ List.mem_map_of_mem Prod.fst h2)
    have hpres2 : ∀ kt2 ∈ ky, ∃ v2, lookupF (dropF o kt.1) kt2.1 = some v2 := by
      intro kt2 h2
      obtain ⟨v2, hv2⟩ := hpres kt2 (List.mem_cons_of_mem _ h2)
      exact ⟨v2, (hlk2 kt2 h2).trans hv2⟩
    have hih := ih (dropF o kt.1) hnd2.2 hpres2
    have hmapeq : ky.map
        (fun kt2 => ((kt2.1 : String), (lookupF (dropF o kt.1) kt2.1).getD Json.null)) =
        ky.map (fun kt2 => (kt2.1, (lookupF o kt2.1).getD Json.null)) :=
      List.map_congr_left (fun kt2 h2 => by rw [hlk2 kt2 h2])
    rw [hmapeq] at hih
    have h1 : o.Perm ((kt.1, v) :: dropF o kt.1) := perm_drop hv
    have h2 := h1.trans (hih.cons (kt.1, v))
    have hgd : ((kt.1 : String), v) = (kt.1, (lookupF o kt.1).getD Json.null) := by
      rw [hv]
      rfl
    rw [hgd] at h2
    simp only [List.map_cons]
    rw [stripObj_cons]
    exact h2.trans List.perm_middle.symm

/-- One array element of a keyed list, seen through the full round trip:
the insertion pair obtained from its converted form carries the
element's coerced key strings, a valid map-style stripped value, and a
`MapToList` image that reinserts to something similar to the element. -/
def RTpair (ky : List (String × DataValueType)) (cs : SchemaForest)
    (el : Json) (p : List String × Json) : Prop :=
  p.1 = keyStrsOf ky el ∧
  List.Forall₂ (fun t s => keyStrOk t s = true) (ky.map Prod.snd) p.1 ∧
  p.2.isObj = true ∧ validMapF cs p.2 = true ∧
  ∃ w2, specN2YintoF cs p.2 = .ok w2 ∧
    ∃ r, reinsertKeys ky p.1 w2 = .ok r ∧ JsonSim r el

theorem fold_collect_ne (ps : List (List String × Json)) (len : Nat)
    (hlen : ∀ p ∈ ps, p.1.length = len)
    (hnd : (ps.map Prod.fst).Nodup) (hne : ps ≠ []) :
    ∃ L2, collectLeaves len []
        (ps.foldl (fun acc p => insertPath acc p.1 p.2) .null) = .ok L2 ∧
      L2.Perm ps := by
  cases ps with
  | nil => exact absurd rfl hne
  | cons p0 prest =>
    have hlen0 : p0.1.length = len := hlen p0 (List.mem_cons_self _ _)
    have hcol0 : collectLeaves len [] (insertPath .null p0.1 p0.2) = .ok [(p0.1, p0.2)] := by
      rw [← hlen0]
      have h := collect_nested p0.1 [] p0.2
      rw [List.nil_append] at h
      exact h
    have hnd2 : ([(p0.1, p0.2)].map Prod.fst ++ prest.map Prod.fst).Nodup := hnd
    obtain ⟨L2, hc, hp⟩ := fold_collect prest len (insertPath .null p0.1 p0.2)
      [(p0.1, p0.2)] hcol0 (fun q hq => hlen q (List.mem_cons_of_mem _ hq)) hnd2
    exact ⟨L2, hc, hp⟩

theorem validMapTrie_fold_ne (ps : List (List String × Json))
    (ts : List DataValueType) (cs : SchemaForest) (hne : ps ≠ [])
    (hall : ∀ p ∈ ps, List.Forall₂ (fun t s => keyStrOk t s = true) ts p.1 ∧
      p.2.isObj = true ∧ validMapF cs p.2 = true) :
    validMapTrie ts cs (ps.foldl (fun acc p => insertPath acc p.1 p.2) .null) = true := by
  cases ps with
  | nil => exact absurd rfl hne
  | cons p0 prest =>
    obtain ⟨h1, h2, h3⟩ := hall p0 (List.mem_cons_self _ _)
    exact validMapTrie_fold prest ts cs _ (validMapTrie_nested cs p0.2 h1 h2 h3)
      (fun q hq => hall q (List.mem_cons_of_mem _ hq))

/-! ## The compositional conversions round-trip on valid trees -/

mutual
theorem thmRT_N : ∀ (n : SchemaNode), wfN n = true →
    ∀ x, validN n x = true →
      ∃ y z, specY2Nnode n x = .ok y ∧ validMapN n y = true ∧
        specN2Ynode n y = .ok z ∧ JsonSim z x
  | .mk nm k ky cs, hwf => by
    obtain ⟨hwfnd, hwf2, hwfcs⟩ := wfN_parts hwf
    have hndcs : (namesF cs).Nodup := hwfnd.of_append_right
    have hndky : (ky.map Prod.fst).Nodup := hwfnd.of_append_left
    have hdisj : ∀ kn ∈ ky.map Prod.fst, ¬ kn ∈ namesF cs :=
      fun kn hk1 hk2 => List.disjoint_of_nodup_append hwfnd hk1 hk2
    have hdisj2 : ∀ nm2 ∈ namesF cs, ¬ nm2 ∈ ky.map Prod.fst :=
      fun nm2 h2 h1 => hdisj _ h1 h2
    have hlents : (ky.map Prod.snd).length = ky.length := List.length_map ky Prod.snd
    by_cases hk : k = SchemaNodeKind.list
    · cases hke : ky.isEmpty with
      | true =>
        intro x hx
        rw [validN_keyless nm cs hk hke] at hx
        refine ⟨x, x, specY2Nnode_keyless nm cs hk hke x, ?_,
          specN2Ynode_keyless nm cs hk hke x, simRefl x⟩
        rw [validMapN_keyless nm cs hk hke]
        exact hx
      | false =>
        intro x hx
        obtain ⟨els, rfl, hne, hallels, hndkeys⟩ := validN_keyed_parts hk hke hx
        have helsne : els ≠ [] := by
          intro he
          rw [he] at hne
          exact Bool.noConfusion hne
        have hbig : ∀ el ∈ els, ∃ up : Json × (List String × Json),
            specY2NintoF cs el = .ok up.1 ∧
            stripKeys (ky.map Prod.fst) up.1 = .ok up.2 ∧
            RTpair ky cs el up.2 := by
          intro el hel
          obtain ⟨h_nd, h_pres, h_vf⟩ := hallels el hel
          obtain ⟨oel, rfl, hnodel⟩ := fieldNamesNodup_obj h_nd
          obtain ⟨uel, wel, hYel, hMel, hNel, hSel⟩ :=
            thmRT_F cs hwfcs hndcs (.obj oel) h_vf
          have hfr := specY2NintoF_frame cs _ _ hYel
          obtain ⟨ouel, rfl, hstrip⟩ := strip_converted hndky hdisj h_pres hfr
          have hlks : ∀ nm2 ∈ namesF cs,
              lookupF (stripObj (ky.map Prod.fst) oel) nm2 = lookupF oel nm2 :=
            fun nm2 hm => lookupF_stripObj_not_mem (ky.map Prod.fst) oel (hdisj2 nm2 hm)
          have h_vf_s : validF cs (.obj (stripObj (ky.map Prod.fst) oel)) = true := by
            rw [validF_congr cs _ oel hlks]
            exact h_vf
          obtain ⟨u_s, w_s, hY_s, hM_s, hN_s, hS_s⟩ :=
            thmRT_F cs hwfcs hndcs (.obj (stripObj (ky.map Prod.fst) oel)) h_vf_s
          have hcomm := specY2NintoF_stripObj_comm (ky.map Prod.fst) cs hdisj hYel
          rw [hY_s] at hcomm
          have hus : u_s = .obj (stripObj (ky.map Prod.fst) ouel) := Except.ok.inj hcomm
          subst hus
          obtain ⟨wo_s, rfl, hfS⟩ := hS_s
          have hprespec := keysPresent_spec h_pres
          have hkso := keyStrsOf_ok ky oel hprespec
          have hnames_ws : (stripObj (ky.map Prod.fst) oel).map Prod.fst =
              wo_s.map Prod.fst :=
            forall₂_map_eq (List.Forall₂.imp (fun a b hab => hab.1.symm) hfS)
          have habs_ws : ∀ kt ∈ ky, lookupF wo_s kt.1 = none := by
            intro kt hkt
            apply lookupF_none_of_not_mem
            intro hm
            rw [← hnames_ws] at hm
            exact lookupF_none_not_mem
              (stripObj_absent (ky.map Prod.fst) oel hnodel kt.1
                (List.mem_map_of_mem Prod.fst hkt)) hm
          have hreins := reinsertKeys_exact ky oel wo_s hndky hprespec habs_ws
          have hperm := perm_stripObj ky oel hndky
            (fun kt hkt => (hprespec kt hkt).imp (fun v hv => hv.1))
          have hrefl : List.Forall₂
              (fun (a b : String × Json) => a.1 = b.1 ∧ JsonSim a.2 b.2)
              (ky.map (fun kt => (kt.1, (lookupF oel kt.1).getD .null)))
              (ky.map (fun kt => (kt.1, (lookupF oel kt.1).getD .null))) :=
            List.forall₂_same.mpr (fun p _ => ⟨rfl, simRefl p.2⟩)
          have hsimr : JsonSim
              (.obj (wo_s ++ ky.map (fun kt => (kt.1, (lookupF oel kt.1).getD .null))))
              (.obj oel) :=
            .obj (simO_of_perm_pointwise hperm (forall₂_append_both hfS hrefl))
          exact ⟨(.obj ouel,
              (keyStrsOf ky (.obj oel), .obj (stripObj (ky.map Prod.fst) ouel))),
            hYel, hstrip, rfl, hkso, rfl, hM_s,
            ⟨.obj wo_s, hN_s,
              ⟨.obj (wo_s ++ ky.map (fun kt => (kt.1, (lookupF oel kt.1).getD .null))),
                hreins, hsimr⟩⟩⟩
        obtain ⟨ups, hups⟩ := forall₂_exists els hbig
        have hYf : List.Forall₂ (fun el u => specY2NintoF cs el = .ok u)
            els (ups.map Prod.fst) :=
          forall₂_map_of_imp Prod.fst (fun a c hc => hc.1) hups
        have hStrip : List.Forall₂ (fun u p => stripKeys (ky.map Prod.fst) u = .ok p)
            (ups.map Prod.fst) (ups.map Prod.snd) :=
          forall₂_map₂_of_imp Prod.fst Prod.snd (fun a c hc => hc.2.1) hups
        have hD : List.Forall₂ (RTpair ky cs) els (ups.map Prod.snd) :=
          forall₂_map_of_imp Prod.snd (fun a c hc => hc.2.2) hups
        have hfsteq : (ups.map Prod.snd).map Prod.fst = els.map (keyStrsOf ky) :=
          forall₂_map_eq (List.Forall₂.imp (fun a b hb => hb.1) hD)
        have hndps : ((ups.map Prod.snd).map Prod.fst).Nodup := by
          rw [hfsteq]
          exact hndkeys
        have hlenps : ∀ p ∈ ups.map Prod.snd, (p.1 : List String).length = ky.length := by
          intro p hp
          obtain ⟨el, hel, hr⟩ := forall₂_mem_right hD p hp
          have hle := hr.2.1.length_eq
          rw [hlents] at hle
          exact hle.symm
        have hpsne : ups.map Prod.snd ≠ [] := by
          intro he
          have h0 : els.length = 0 := by rw [hD.length_eq, he]; rfl
          exact helsne (List.length_eq_zero.mp h0)
        have hfold := foldlM_insertEl (ky.map Prod.fst) hStrip Json.null
        obtain ⟨L2, hcolY, hpermL2⟩ :=
          fold_collect_ne (ups.map Prod.snd) ky.length hlenps hndps hpsne
        have hy : specY2Nnode (.mk nm k ky cs) (.arr els) =
            .ok ((ups.map Prod.snd).foldl (fun acc p => insertPath acc p.1 p.2) .null) := by
          rw [specY2Nnode_keyed nm ky cs hk hke]
          show (specY2Nelems cs els >>= fun els2 =>
            els2.foldlM (insertEl (ky.map Prod.fst)) .null) = _
          rw [specY2Nelems_eq_mapM, mapM_of_forall₂ hYf, bind_ok, hfold]
        have hallps : ∀ p ∈ ups.map Prod.snd,
            List.Forall₂ (fun t s => keyStrOk t s = true) (ky.map Prod.snd) p.1 ∧
            p.2.isObj = true ∧ validMapF cs p.2 = true := by
          intro p hp
          obtain ⟨el, hel, hr⟩ := forall₂_mem_right hD p hp
          exact ⟨hr.2.1, hr.2.2.1, hr.2.2.2.1⟩
        have hMy : validMapN (.mk nm k ky cs)
            ((ups.map Prod.snd).foldl (fun acc p => insertPath acc p.1 p.2) .null) = true := by
          rw [validMapN_keyed nm ky cs hk hke]
          exact validMapTrie_fold_ne _ _ cs hpsne hallps
        have hex : ∀ p ∈ L2, ∃ w2, specN2YintoF cs p.2 = .ok w2 := by
          intro p hp
          obtain ⟨el, hel, hr⟩ := forall₂_mem_right hD p (hpermL2.subset hp)
          obtain ⟨w2, hw2, _⟩ := hr.2.2.2.2
          exact ⟨w2, hw2⟩
        obtain ⟨y2, hy2⟩ := applySteps_exists_ok (specN2YintoF cs)
          (List.replicate ky.length .flattenStep) _
          (collect_atrefs ky.length [] _ L2 _ hcolY hex)
        obtain ⟨L3, hcolL3, hfL3⟩ := flatten_collect ky.length (specN2YintoF cs)
          [] _ L2 y2 hcolY hy2
        have hDsw : List.Forall₂ (fun p el => RTpair ky cs el p)
            (ups.map Prod.snd) els := forall₂_swap hD
        obtain ⟨els2, hpels, hDL2⟩ := forall₂_perm_left hpermL2.symm hDsw
        have hchain := forall₂_comp hfL3 hDL2
        have hreinsF : List.Forall₂
            (fun (q : List String × Json) el =>
              ∃ r, reinsertKeys ky q.1 q.2 = .ok r ∧ JsonSim r el) L3 els2 := by
          refine List.Forall₂.imp ?_ hchain
          intro q el hqe
          obtain ⟨p, ⟨hq1, hq2⟩, hrt⟩ := hqe
          obtain ⟨w2, hw2, r, hrr, hsim⟩ := hrt.2.2.2.2
          rw [hq2] at hw2
          have hw2q : w2 = q.2 := (Except.ok.inj hw2).symm
          subst hw2q
          rw [← hq1]
          exact ⟨r, hrr, hsim⟩
        obtain ⟨a, ha, hfa⟩ := mapM_sim (forall₂_rev hreinsF)
        have hz : specN2Ynode (.mk nm k ky cs)
            ((ups.map Prod.snd).foldl (fun acc p => insertPath acc p.1 p.2) .null) =
            .ok (.arr a) := by
          rw [specN2Ynode_keyed nm ky cs hk hke,
            specN2Yleaves_eq_applySteps cs ky.length _, hy2, bind_ok,
            nix2yangRewrite_eq]
          have hcolL3b : collectLeaves ky.length [] y2 = .ok L3 := hcolL3
          rw [show (ky.length : Nat) = List.length ky from rfl] at hcolL3b
          rw [hcolL3b, bind_ok, ha]
          rfl
        have hsimL : JsonSimL a els :=
          simL_of_perm_pointwise
            (hpels.trans (List.reverse_perm els2).symm) hfa
        exact ⟨_, .arr a, hy, hMy, hz, JsonSim.arr hsimL⟩
    · intro x hx
      rw [validN_nonlist nm ky cs hk] at hx
      cases x with
      | obj o =>
        have hx2 : (decide ((o.map Prod.fst).Nodup) && validF cs (.obj o)) = true := hx
        rw [Bool.and_eq_true] at hx2
        obtain ⟨u, w, hY, hM, hN, hS⟩ := thmRT_F cs hwfcs hndcs (.obj o) hx2.2
        obtain ⟨ou, rfl, hn1, hlk1⟩ := specY2NintoF_frame cs _ _ hY
        refine ⟨.obj ou, w, ?_, ?_, ?_, simFields_to_sim hS⟩
        · rw [specY2Nnode_nonlist nm ky cs hk]
          exact hY
        · rw [validMapN_nonlist nm ky cs hk]
          show (decide ((ou.map Prod.fst).Nodup) && validMapF cs (.obj ou)) = true
          rw [hn1, Bool.and_eq_true]
          exact ⟨hx2.1, hM⟩
        · rw [specN2Ynode_nonlist nm ky cs hk]
          exact hN
      | null =>
        refine ⟨.null, .null, ?_, ?_, ?_, simRefl _⟩
        · rw [specY2Nnode_nonlist nm ky cs hk]
          exact specY2NintoF_nonobj cs _ rfl
        · rw [validMapN_nonlist nm ky cs hk]
        · rw [specN2Ynode_nonlist nm ky cs hk]
          exact specN2YintoF_nonobj cs _ rfl
      | bool b =>
        refine ⟨.bool b, .bool b, ?_, ?_, ?_, simRefl _⟩
        · rw [specY2Nnode_nonlist nm ky cs hk]
          exact specY2NintoF_nonobj cs _ rfl
        · rw [validMapN_nonlist nm ky cs hk]
        · rw [specN2Ynode_nonlist nm ky cs hk]
          exact specN2YintoF_nonobj cs _ rfl
      | num n2 =>
        refine ⟨.num n2, .num n2, ?_, ?_, ?_, simRefl _⟩
        · rw [specY2Nnode_nonlist nm ky cs hk]
          exact specY2NintoF_nonobj cs _ rfl
        · rw [validMapN_nonlist nm ky cs hk]
        · rw [specN2Ynode_nonlist nm ky cs hk]
          exact specN2YintoF_nonobj cs _ rfl
      | str s2 =>
        refine ⟨.str s2, .str s2, ?_, ?_, ?_, simRefl _⟩
        · rw [specY2Nnode_nonlist nm ky cs hk]
          exact specY2NintoF_nonobj cs _ rfl
        · rw [validMapN_nonlist nm ky cs hk]
        · rw [specN2Ynode_nonlist nm ky cs hk]
          exact specN2YintoF_nonobj cs _ rfl
      | arr xs =>
        refine ⟨.arr xs, .arr xs, ?_, ?_, ?_, simRefl _⟩
        · rw [specY2Nnode_nonlist nm ky cs hk]
          exact specY2NintoF_nonobj cs _ rfl
        · rw [validMapN_nonlist nm ky cs hk]
        · rw [specN2Ynode_nonlist nm ky cs hk]
          exact specN2YintoF_nonobj cs _ rfl

theorem thmRT_F : ∀ (cs : SchemaForest), wfF cs = true → (namesF cs).Nodup →
    ∀ v, validF cs v = true →
      ∃ u w, specY2NintoF cs v = .ok u ∧ validMapF cs u = true ∧
        specN2YintoF cs u = .ok w ∧ SimFields w v
  | .nil, _, _, v, _ =>
    ⟨v, v, by simp only [specY2NintoF], validMapF_nil v,
      by simp only [specN2YintoF], simFields_refl v⟩
  | .cons c cs, hwf, hnd, v, hval => by
    obtain ⟨hwfc, hwfcs⟩ := wfF_parts hwf
    have hnd2 := List.nodup_cons.mp hnd
    cases v with
    | null =>
      exact ⟨.null, .null, specY2NintoF_nonobj _ _ rfl, validMapF_nonobj _ _ rfl,
        specN2YintoF_nonobj _ _ rfl, simFields_refl _⟩
    | bool b =>
      exact ⟨.bool b, .bool b, specY2NintoF_nonobj _ _ rfl, validMapF_nonobj _ _ rfl,
        specN2YintoF_nonobj _ _ rfl, simFields_refl _⟩
    | num n2 =>
      exact ⟨.num n2, .num n2, specY2NintoF_nonobj _ _ rfl, validMapF_nonobj _ _ rfl,
        specN2YintoF_nonobj _ _ rfl, simFields_refl _⟩
    | str s2 =>
      exact ⟨.str s2, .str s2, specY2NintoF_nonobj _ _ rfl, validMapF_nonobj _ _ rfl,
        specN2YintoF_nonobj _ _ rfl, simFields_refl _⟩
    | arr xs =>
      exact ⟨.arr xs, .arr xs, specY2NintoF_nonobj _ _ rfl, validMapF_nonobj _ _ rfl,
        specN2YintoF_nonobj _ _ rfl, simFields_refl _⟩
    | obj o =>
      obtain ⟨u1, w1, hY1, hM1, hN1, hS1⟩ :=
        thmRT_F cs hwfcs hnd2.2 (.obj o) (validF_cons_tail hval)
      obtain ⟨o1, rfl, hn1, hlk1⟩ := specY2NintoF_frame cs _ _ hY1
      obtain ⟨wo1, rfl, hnw1, hlkw1⟩ := specN2YintoF_frame cs _ _ hN1
      obtain ⟨wo1b, hweq, hfS1⟩ := hS1
      injection hweq with hweq2
      subst hweq2
      have hcn : ¬ c.name ∈ namesF cs := hnd2.1
      have hlk1c : lookupF o1 c.name = lookupF o c.name := hlk1 c.name hcn
      have hlkw1c : lookupF wo1 c.name = lookupF o1 c.name := hlkw1 c.name hcn
      cases hlko : lookupF o c.name with
      | none =>
        refine ⟨.obj o1, .obj wo1, ?_, ?_, ?_, ⟨wo1, rfl, hfS1⟩⟩
        · rw [specY2NintoF_cons, hY1, bind_ok]
          show childUpdate c.name (specY2Nnode c) (.obj o1) = _
          rw [childUpdate]
          simp only [applySteps, hlk1c, hlko]
        · rw [validMapF_cons_obj, hlk1c, hlko, Bool.and_eq_true]
          exact ⟨rfl, hM1⟩
        · rw [specN2YintoF_cons, hN1, bind_ok]
          show childUpdate c.name (specN2Ynode c) (.obj wo1) = _
          rw [childUpdate]
          simp only [applySteps, hlkw1c, hlk1c, hlko]
      | some x =>
        have hvx : validN c x = true := validF_cons_head hval hlko
        obtain ⟨y, z, hy, hmy, hz, hsz⟩ := thmRT_N c hwfc x hvx
        have hlk1s : lookupF o1 c.name = some x := hlk1c.trans hlko
        refine ⟨.obj (insertF o1 c.name y), .obj (insertF wo1 c.name z),
          ?_, ?_, ?_, ?_⟩
        · rw [specY2NintoF_cons, hY1, bind_ok]
          show childUpdate c.name (specY2Nnode c) (.obj o1) = _
          rw [childUpdate]
          simp only [applySteps, hlk1s, hy]
          rfl
        · rw [validMapF_cons_obj, Bool.and_eq_true]
          refine ⟨?_, ?_⟩
          · rw [lookupF_insertF_self o1 c.name y]
            exact hmy
          · rw [validMapF_congr cs (insertF o1 c.name y) o1
              (fun nm2 hm => lookupF_insertF_ne o1 c.name nm2 y
                (fun he => hcn (he ▸ hm)))]
            exact hM1
        · rw [specN2YintoF_cons,
            specN2YintoF_set_comm cs y hcn ⟨x, hlk1s⟩ hN1, bind_ok]
          show childUpdate c.name (specN2Ynode c) (.obj (insertF wo1 c.name y)) = _
          rw [childUpdate]
          simp only [applySteps, lookupF_insertF_self, hz]
          show Except.ok (Json.obj (insertF (insertF wo1 c.name y) c.name z)) = _
          rw [insertF_insertF]
        · exact ⟨insertF wo1 c.name z, rfl, forall₂_insertF z hfS1 hlko hsz⟩
end

/-! ## Top-level assembly: the converter run over all roots -/

/-- The module qualification applied to an outermost schema node
(`format!("rtbrick-config:{}", an.name())` at `i == 0`). -/
def qualifyRoot (n : SchemaNode) : SchemaNode :=
  .mk ("rtbrick-config:" ++ n.name) n.kind n.keys n.children

/-- The roots, module-qualified, as a forest in the sibling order in
which the converter visits them (later roots first). -/
def rootsForest (roots : List SchemaNode) : SchemaForest :=
  SchemaForest.ofList ((roots.map qualifyRoot).reverse)

theorem opsN_qualifyRoot : ∀ (mode : ConvertMode) (n : SchemaNode),
    opsN mode true n = opsN mode false (qualifyRoot n)
  | .yang2nix, .mk nm k ky cs => rfl
  | .nix2yang, .mk nm k ky cs => rfl

theorem opsF_ofList_snoc (mode : ConvertMode) :
    ∀ (xs : List SchemaNode) (n : SchemaNode),
      opsF mode (SchemaForest.ofList (xs ++ [n])) =
        opsN mode false n ++ opsF mode (SchemaForest.ofList xs)
  | [], n => by
    show opsF mode (SchemaForest.ofList [n]) =
      opsN mode false n ++ ([] : List ConvOp)
    rw [List.append_nil]
    rfl
  | x :: xs, n => by
    show opsF mode (SchemaForest.ofList (xs ++ [n])) ++ opsN mode false x = _
    rw [opsF_ofList_snoc mode xs n, List.append_assoc]
    rfl

theorem top_ops (mode : ConvertMode) : ∀ (roots : List SchemaNode),
    roots.flatMap (opsN mode true) = opsF mode (rootsForest roots)
  | [] => rfl
  | r :: roots => by
    show opsN mode true r ++ roots.flatMap (opsN mode true) = _
    rw [top_ops mode roots, opsN_qualifyRoot mode r]
    show _ = opsF mode (SchemaForest.ofList (((r :: roots).map qualifyRoot).reverse))
    rw [List.map_cons, List.reverse_cons, opsF_ofList_snoc]
    rfl

/-- C1 (amended): for every value tree valid in list-style form for the
(module-qualified, well-formed) schema, `MapToList (ListToMap T)`
succeeds and returns a tree equal to `T` up to object-field order,
array-element order, and numeric key text canonicalization.
Well-formedness asks for globally distinct key-field/child names and for
any keyed list with at least two keys to contain no keyed-list
descendant; list-style validity asks every keyed list value to be a
non-empty array of objects with distinct field names, all key fields
present with string/number values matching the declared kind, and
pairwise distinct coerced key tuples.  Versus the original claim, the
round trip also reorders array elements (the nested map is rebuilt in
reverse insertion order), so equality only holds up to array-element
order as well. -/
theorem c1_amended_roundtrip (roots : List SchemaNode) (T : Json)
    (hwf : wfF (rootsForest roots) = true)
    (hnn : (namesF (rootsForest roots)).Nodup)
    (hval : validF (rootsForest roots) T = true) :
    ∃ U W, convert .yang2nix roots T = .ok U ∧
      convert .nix2yang roots U = .ok W ∧ JsonSim W T := by
  obtain ⟨u, w, hY, hM, hN, hS⟩ := thmRT_F (rootsForest roots) hwf hnn T hval
  obtain ⟨u2, hY2, hC2⟩ := thmY2N_F (rootsForest roots) hwf hnn T hval
  rw [hY] at hY2
  have hu : u2 = u := (Except.ok.inj hY2).symm
  subst hu
  obtain ⟨w2, hN2, hC3⟩ := thmN2Y_F (rootsForest roots) hwf hnn u2 hM
  rw [hN] at hN2
  have hw : w2 = w := (Except.ok.inj hN2).symm
  subst hw
  refine ⟨u2, w2, ?_, ?_, simFields_to_sim hS⟩
  · rw [convert_ops, top_ops]
    exact hC2
  · rw [convert_ops, top_ops]
    exact hC3

/-- Schema: `container c { list items { key id; leaf id (string); leaf v; } }`. -/
def itemsNode : SchemaNode :=
  .mk "items" .list [("id", .string)] (.cons (.mk "v" .leaf [] .nil) .nil)

def schemaC : List SchemaNode := [.mk "c" .container [] (.cons itemsNode .nil)]

/-- List-style document for `schemaC` (top level is module-qualified). -/
def docC : Json :=
  .obj [("rtbrick-config:c", .obj [("items", .arr
    [.obj [("id", .str "a"), ("v", .num 1)],
     .obj [("id", .str "b"), ("v", .num 2)]])])]

/-- The map-style image of `docC`. -/
def docCmapped : Json :=
  .obj [("rtbrick-config:c", .obj [("items", .obj
    [("a", .obj [("v", .num 1)]), ("b", .obj [("v", .num 2)])])])]

/-- `docC` with an empty `items` array. -/
def docEmptyItems : Json :=
  .obj [("rtbrick-config:c", .obj [("items", .arr [])])]

/-- A map-style document (the wrong starting shape for `Yang2Nix`). -/
def docMapStyle : Json :=
  .obj [("rtbrick-config:c", .obj [("items", .obj [("a", .obj [("v", .num 1)])])])]

/-- Schema: a two-key list `m` containing a keyed list `n`. -/
def nNode : SchemaNode :=
  .mk "n" .list [("id", .string)] (.cons (.mk "w" .leaf [] .nil) .nil)

def mNode : SchemaNode :=
  .mk "m" .list [("k1", .string), ("k2", .string)] (.cons nNode .nil)

def schemaM : List SchemaNode := [mNode]

/-- List-style document for `schemaM`: one `m` element containing one `n`
element. -/
def docM : Json :=
  .obj [("rtbrick-config:m", .arr
    [.obj [("k1", .str "a"), ("k2", .str "b"),
           ("n", .arr [.obj [("id", .str "x"), ("w", .num 1)]])]])]

/-- What the code's own visiting order (child `n` first, then `m`)
produces from `docM`: the inner list `n` is silently left in array form,
because navigating through the still-array-style two-key ancestor `m`
flattens two levels where the array has only one. -/
def docMbad : Json :=
  .obj [("rtbrick-config:m", .obj
    [("a", .obj [("b", .obj
      [("n", .arr [.obj [("id", .str "x"), ("w", .num 1)]])])])])]

/-- What the opposite order (`m` first, then `n`) produces from `docM`:
the inner list `n` is converted. -/
def docMgood : Json :=
  .obj [("rtbrick-config:m", .obj
    [("a", .obj [("b", .obj
      [("n", .obj [("x", .obj [("w", .num 1)])])])])])]

/-! ## Claims -/

/-- **C10**: a keyed list whose data is an empty array is rewritten to
`Null` by `ListToMap` (the value is taken out before iteration and no
element ever recreates an object), both at the rewrite itself and through
the whole converter. -/
theorem c10_empty_array_becomes_null :
    (∀ ks : List String, yang2nixRewrite ks (.arr []) = .ok .null) ∧
    convert .yang2nix schemaC docEmptyItems =
      .ok (.obj [("rtbrick-config:c", .obj [("items", .null)])]) :=
  ⟨fun _ => rfl, rfl⟩

/-- **C5**: a value of the wrong starting shape at a visited keyed list
node is a fatal input-shape error in both directions, and the whole
conversion then yields an error (no partial JSON output), e.g. for a
map-style document fed to `Yang2Nix`. -/
theorem c5_shape_mismatch_is_fatal :
    (∀ (ks : List String) (v : Json), v.isArr = false →
      yang2nixRewrite ks v = .error "Expected an array. Are you sure this is a YANG-style file?") ∧
    (∀ (kd : List (String × DataValueType)) (v : Json), kd ≠ [] → v.isObj = false →
      nix2yangRewrite kd v = .error "Expected an object. Are you sure this is a Nix-style file?") ∧
    convert .yang2nix schemaC docMapStyle =
      .error "Expected an array. Are you sure this is a YANG-style file?" := by
  refine ⟨?_, ?_, rfl⟩
  · intro ks v h
    cases v <;> simp_all [yang2nixRewrite, Json.isArr]
  · intro kd v hkd h
    match kd with
    | [] => exact absurd rfl hkd
    | k :: kd =>
      cases v with
      | obj o => simp [Json.isObj] at h
      | null => rfl
      | bool b => rfl
      | num n => rfl
      | str s => rfl
      | arr xs => rfl

/-- **C5 witness**: the shape-error lemmas applied at concrete inputs. -/
theorem c5_witness :
    yang2nixRewrite ["id"] (.obj []) =
      .error "Expected an array. Are you sure this is a YANG-style file?" ∧
    nix2yangRewrite [("id", DataValueType.string)] (.num 3) =
      .error "Expected an object. Are you sure this is a Nix-style file?" :=
  ⟨c5_shape_mismatch_is_fatal.1 ["id"] (.obj []) rfl,
   c5_shape_mismatch_is_fatal.2.1 [("id", .string)] (.num 3) (by simp) rfl⟩

/-- **C3**: the `ListToMap` rewrite removes each key field in schema key
order and coerces its value to a string map-key (strings pass through,
numbers are rendered canonically, every other value type is an error);
a single element becomes one nested object level per key with the
stripped element as leaf; and the concrete single-string-key scenario
`{"items":[{"id":"a","v":1},{"id":"b","v":2}]}` maps to
`{"items":{"a":{"v":1},"b":{"v":2}}}` (under the module-qualified top
level the source requires). -/
theorem c3_listToMap_strip_coerce_nest :
    (∀ s, coerceKey (.str s) = .ok s) ∧
    (∀ n, coerceKey (.num n) = .ok (intToStr n)) ∧
    coerceKey .null = .error "can not determine key" ∧
    (∀ b, coerceKey (.bool b) = .error "can not determine key") ∧
    (∀ xs, coerceKey (.arr xs) = .error "can not determine key") ∧
    (∀ o, coerceKey (.obj o) = .error "can not determine key") ∧
    (∀ ks el ss el2, stripKeys ks el = .ok (ss, el2) →
      insertEl ks .null el = .ok (nestedObj ss el2)) ∧
    convert .yang2nix schemaC docC = .ok docCmapped := by
  refine ⟨fun _ => rfl, fun _ => rfl, rfl, fun _ => rfl, fun _ => rfl, fun _ => rfl,
    ?_, rfl⟩
  intro ks el ss el2 h
  simp only [insertEl, h, insertPath_null]
  rfl

/-- **C3 witness**: the nesting law applied to one concrete element with
two keys. -/
theorem c3_witness :
    stripKeys ["r", "z"] (.obj [("r", .str "us"), ("z", .num 1), ("x", .bool true)]) =
      .ok (["us", "1"], .obj [("x", .bool true)]) ∧
    insertEl ["r", "z"] .null (.obj [("r", .str "us"), ("z", .num 1), ("x", .bool true)]) =
      .ok (.obj [("us", .obj [("1", .obj [("x", .bool true)])])]) :=
  ⟨rfl, c3_listToMap_strip_coerce_nest.2.2.2.2.2.2.1 ["r", "z"] _ ["us", "1"]
    (.obj [("x", .bool true)]) rfl⟩

/-- **C4**: the `MapToList` rewrite re-parses each accumulated key string
against the key field's declared type — numeric types go through the JSON
parser (so canonical integer text yields the number back), every other
type is inserted as a string — and in particular map key `"1"` for a
`uint32`-typed key is re-inserted as the number `1`, not the string
`"1"`. -/
theorem c4_key_reparse_by_declared_type :
    (∀ t s, DataValueType.isNumeric t = true → parseKeyVal t s = jsonFromStr s) ∧
    (∀ t s, DataValueType.isNumeric t = false → parseKeyVal t s = .ok (.str s)) ∧
    (∀ i : Int, jsonFromStr (intToStr i) = .ok (.num i)) ∧
    parseKeyVal .uint32 "1" = .ok (.num 1) ∧
    nix2yangRewrite [("region", .string), ("zone", .uint32)]
        (.obj [("us", .obj [("1", .obj [("x", .bool true)])])]) =
      .ok (.arr [.obj [("x", .bool true), ("region", .str "us"), ("zone", .num 1)]]) := by
  refine ⟨?_, ?_, jsonFromStr_intToStr, rfl, rfl⟩
  · intro t s h
    simp [parseKeyVal, h]
  · intro t s h
    simp [parseKeyVal, h]

/-- **C4 witness**: the typed re-parse rules applied at concrete types. -/
theorem c4_witness :
    parseKeyVal DataValueType.uint32 "7" = jsonFromStr "7" ∧
    parseKeyVal DataValueType.string "7" = .ok (.str "7") :=
  ⟨c4_key_reparse_by_declared_type.1 .uint32 "7" rfl,
   c4_key_reparse_by_declared_type.2.1 .string "7" rfl⟩

/-- **C6 counterexample**: an intermediate nested-map level that exists
but is not an object is *silently replaced* by an empty object during
`ListToMap` insertion, not reported as an error as the claim states: here
the existing string at level `"p"` is discarded and the insertion
succeeds. -/
theorem c6_counterexample :
    insertEl ["a", "b"] (.obj [("p", .str "BOOM")])
        (.obj [("a", .str "p"), ("b", .str "q"), ("v", .num 1)]) =
      .ok (.obj [("p", .obj [("q", .obj [("v", .num 1)])])]) := rfl

/-- **C6 amended**: intermediate levels are created as empty objects on
demand; a level that exists but is *not* an object is silently replaced
by an empty object (its prior content is discarded); the insertion walk
itself can never fail (every `ListToMap` failure comes from key removal
or coercion); and at the final insertion point the prior content is
overwritten by the new leaf. -/
theorem c6_amended_nonobject_levels_overwritten :
    (∀ (v : Json) (k : String) (ks : List String) (el : Json), v.isObj = false →
      insertPath v (k :: ks) el = insertPath (.obj []) (k :: ks) el) ∧
    (∀ ks acc el p, stripKeys ks el = .ok p →
      insertEl ks acc el = .ok (insertPath acc p.1 p.2)) ∧
    (∀ acc el, insertPath acc [] el = el) := by
  refine ⟨?_, ?_, fun _ _ => rfl⟩
  · intro v k ks el h
    cases v <;> simp_all [Json.isObj, insertPath]
  · intro ks acc el p h
    simp only [insertEl, h]
    rfl

/-- **C6 amended witness**: the overwrite law applied at a concrete
non-object level, and the no-fail law at a concrete element. -/
theorem c6_amended_witness :
    insertPath (.str "BOOM") ["q"] (.obj [("v", .num 1)]) =
      insertPath (.obj []) ["q"] (.obj [("v", .num 1)]) ∧
    insertEl ["a"] (.str "BOOM") (.obj [("a", .str "p")]) =
      .ok (insertPath (.str "BOOM") ["p"] (.obj [])) :=
  ⟨c6_amended_nonobject_levels_overwritten.1 (.str "BOOM") "q" [] (.obj [("v", .num 1)]) rfl,
   c6_amended_nonobject_levels_overwritten.2.1 ["a"] (.str "BOOM") (.obj [("a", .str "p")])
     (["p"], .obj []) rfl⟩

/-- **C7**: when every navigation branch for a keyed list node dies at a
failed field lookup (the node's ancestor path is absent from the
instance), the conversion of that node is a no-op: the document is
returned exactly unchanged, for the step navigator and hence for the
per-node conversion. -/
theorem c7_absent_path_is_noop :
    (∀ (f : Json → Except String Json) (steps : List NavStep) (v : Json),
      absentAt steps v = true → applySteps f steps v = .ok v) ∧
    (∀ (mode : ConvertMode) (entry : List SchemaNode × SchemaNode) (v : Json),
      absentAt (ancestorSteps true entry.1) v = true →
      convertEntry mode entry v = .ok v) :=
  ⟨fun f steps v h => applySteps_absent f steps v h,
   fun _ entry v h => applySteps_absent _ (ancestorSteps true entry.1) v h⟩

/-- **C7 witness**: converting the `items` node against a document that
lacks the whole ancestor path leaves the document untouched. -/
theorem c7_witness :
    absentAt (ancestorSteps true [.mk "c" .container [] (.cons itemsNode .nil), itemsNode])
      (.obj [("other", .num 5)]) = true ∧
    convertEntry .yang2nix ([.mk "c" .container [] (.cons itemsNode .nil), itemsNode], itemsNode)
      (.obj [("other", .num 5)]) = .ok (.obj [("other", .num 5)]) :=
  ⟨rfl, c7_absent_path_is_noop.2 .yang2nix
    ([.mk "c" .container [] (.cons itemsNode .nil), itemsNode], itemsNode)
    (.obj [("other", .num 5)]) rfl⟩

/-- A keyed list nested directly below a keyless list. -/
def kdNode : SchemaNode := .mk "kd" .list [("id", .string)] .nil

def klNode : SchemaNode := .mk "kl" .list [] (.cons kdNode .nil)

/-- A document whose keyless-list node holds an *object*-shaped value. -/
def docKL : Json :=
  .obj [("rtbrick-config:kl", .obj [("kd", .arr [.obj [("id", .str "a"), ("v", .num 1)]])])]

def docKLout : Json :=
  .obj [("rtbrick-config:kl", .obj [("kd", .obj [("a", .obj [("v", .num 1)])])])]

/-- **C8 counterexample**: a keyed list nested below a *keyless* list is
enumerated and rewritten.  The keyless ancestor contributes its name
lookup and zero flattening steps, so when the keyless node's value is
object-shaped the descendant's reference resolves and its data — below
the keyless node — is converted: "the value tree at and below that node
is left unchanged by convert" fails. -/
theorem c8_counterexample :
    keyedListEntries [klNode] = [([klNode, kdNode], kdNode)] ∧
    convert .yang2nix [klNode] docKL = .ok docKLout ∧
    getPath docKLout ["rtbrick-config:kl", "kd"] ≠
      getPath docKL ["rtbrick-config:kl", "kd"] := by
  refine ⟨rfl, rfl, ?_⟩
  intro h
  have h1 : (getPath docKLout ["rtbrick-config:kl", "kd"]).map Json.isArr = some false := rfl
  have h2 : (getPath docKL ["rtbrick-config:kl", "kd"]).map Json.isArr = some true := rfl
  rw [h, h2] at h1
  exact Bool.noConfusion (Option.some.inj h1)

/-- **C8 (amended)**: a list schema node with no key fields is itself
never rewritten — the node filter enumerates exactly the keyed lists,
and a schema whose enumeration is empty converts every document to
itself in both directions — and navigation through a keyless list
ancestor contributes its name lookup with *zero* flattening steps, so
whenever the keyless node's value has its list shape (an array, the
only shape list-style validity permits there), every deeper reference
is dropped and converting any descendant entry leaves the document
exactly unchanged.  Only an object-shaped value at the keyless node, as
in the counterexample, lets a keyed-list descendant be rewritten. -/
theorem c8_amended_keyless_frame :
    (∀ (roots : List SchemaNode) (entry : List SchemaNode × SchemaNode),
      entry ∈ keyedListEntries roots → entry.2.kind = .list ∧ entry.2.keys ≠ []) ∧
    (∀ (mode : ConvertMode) (roots : List SchemaNode) (d : Json),
      keyedListEntries roots = [] → convert mode roots d = .ok d) ∧
    (∀ (mode : ConvertMode) (b : Bool) (kl c : SchemaNode) (rest : List SchemaNode)
      (n : SchemaNode) (o : List (String × Json)) (x : Json),
      kl.isKeylessList = true →
      lookupF o (qualify b kl.name) = some x → x.isArr = true →
      applySteps (nodeRewrite mode n) (ancestorSteps b (kl :: c :: rest)) (.obj o) =
        .ok (.obj o)) := by
  refine ⟨?_, ?_, ?_⟩
  · intro roots entry h
    rw [keyedListEntries, List.mem_filter] at h
    have h2 := h.2
    simp only [Bool.and_eq_true, decide_eq_true_eq, Bool.not_eq_true',
      List.isEmpty_eq_false] at h2
    exact ⟨h2.1, h2.2⟩
  · intro mode roots d h
    rw [convert, h]
    rfl
  · intro mode b kl c rest n o x hkl hlk harr
    obtain ⟨nm, k, ky, cs⟩ := kl
    have hkl2 : decide (k = SchemaNodeKind.list ∧ ky = []) = true := hkl
    obtain ⟨hk, hky⟩ := of_decide_eq_true hkl2
    subst hk
    subst hky
    have hlk2 : lookupF o (qualify b nm) = some x := hlk
    cases x with
    | arr xs =>
      show applySteps (nodeRewrite mode n)
        (.fieldStep (qualify b nm) :: ancestorSteps false (c :: rest)) (.obj o) =
        .ok (.obj o)
      simp only [applySteps, hlk2]
      show Except.ok (Json.obj (insertF o (qualify b nm) (.arr xs))) = .ok (.obj o)
      rw [insertF_self hlk2]
    | null => exact Bool.noConfusion harr
    | bool b2 => exact Bool.noConfusion harr
    | num n2 => exact Bool.noConfusion harr
    | str s2 => exact Bool.noConfusion harr
    | obj o2 => exact Bool.noConfusion harr

/-- **C8 amended witness**: through the concrete keyless list `kl`
holding its array-shaped value, converting the keyed descendant entry
leaves the document exactly unchanged. -/
theorem c8_amended_witness :
    SchemaNode.isKeylessList klNode = true ∧
    lookupF [("rtbrick-config:kl", Json.arr [.num 1])] (qualify true klNode.name) =
      some (.arr [.num 1]) ∧
    (Json.arr [.num 1]).isArr = true ∧
    applySteps (nodeRewrite .yang2nix kdNode) (ancestorSteps true [klNode, kdNode])
      (.obj [("rtbrick-config:kl", .arr [.num 1])]) =
      .ok (.obj [("rtbrick-config:kl", .arr [.num 1])]) :=
  ⟨rfl, rfl, rfl,
    c8_amended_keyless_frame.2.2 .yang2nix true klNode kdNode [] kdNode
      [("rtbrick-config:kl", .arr [.num 1])] (.arr [.num 1]) rfl rfl rfl⟩

/-- **C9 counterexample**: the options generator's type table does *not*
map every signed fixed-width integer: the signed 16-, 32- and 64-bit
integer base types hit the `todo!` arm and fail, where the claim's table
promises the matching sized integer types. -/
theorem c9_counterexample :
    (leafType (some DataValueType.int16)).isOk = false ∧
    (leafType (some DataValueType.int32)).isOk = false ∧
    (leafType (some DataValueType.int64)).isOk = false :=
  ⟨rfl, rfl, rfl⟩

/-- **C9 amended**: the fixed table maps enumeration/union/string to the
text type, the signed *8-bit* and unsigned 8/16/32-bit integers to the
matching sized integer types, 64-bit unsigned to the generic unsigned
type and 64-bit decimal to the numeric type; every other base type
(including signed 16/32/64-bit integers) is a hard failure, never
silently defaulted. -/
theorem c9_amended_leaf_type_table :
    leafType (some .enumeration) = .ok "lib.types.str" ∧
    leafType (some .union) = .ok "lib.types.str" ∧
    leafType (some .string) = .ok "lib.types.str" ∧
    leafType (some .int8) = .ok "lib.types.ints.s8" ∧
    leafType (some .uint8) = .ok "lib.types.ints.u8" ∧
    leafType (some .uint16) = .ok "lib.types.ints.u16" ∧
    leafType (some .uint32) = .ok "lib.types.ints.u32" ∧
    leafType (some .uint64) = .ok "lib.types.ints.unsigned" ∧
    leafType (some .dec64) = .ok "lib.types.number" ∧
    (∀ t : Option DataValueType,
      t ∉ ([some .enumeration, some .union, some .string, some .int8, some .uint8,
        some .uint16, some .uint32, some .uint64, some .dec64] : List (Option DataValueType)) →
      (leafType t).isOk = false) := by
  refine ⟨rfl, rfl, rfl, rfl, rfl, rfl, rfl, rfl, rfl, ?_⟩
  intro t ht
  match t with
  | none => rfl
  | some dt =>
    cases dt <;> first
      | rfl
      | exact absurd (by simp) ht

/-- **C9 amended witness**: the hard-failure clause applied at the
unmapped `boolean` base type. -/
theorem c9_amended_witness :
    (leafType (some DataValueType.boolean)).isOk = false :=
  c9_amended_leaf_type_table.2.2.2.2.2.2.2.2.2 (some .boolean) (by simp)

/-- The round trip of `docC`: both elements survive, but the output array
order is reversed (the `Nix2Yang` work list is LIFO) and each element's
key field is re-inserted at the end. -/
def docCroundtrip : Json :=
  .obj [("rtbrick-config:c", .obj [("items", .arr
    [.obj [("v", .num 2), ("id", .str "b")],
     .obj [("v", .num 1), ("id", .str "a")]])])]

/-- **C1 counterexample**: the round trip `MapToList ∘ ListToMap` does
not return every valid list-style tree up to object-field order and
numeric key canonicalization.  (1) On `docC` it succeeds but returns the
array elements in reversed order, which equality up to object-field order
does not absorb (arrays are ordered): `equivF` — equality up to
object-field order at every recursion fuel — rejects the pair.  (2) On a
valid document whose list is an empty array, the round trip aborts with
an error (ListToMap leaves `Null`, which MapToList rejects).  (3) On a
valid document for a schema nesting a keyed list inside a two-key list,
the round trip also aborts: `Yang2Nix` silently fails to convert the
inner list, and `Nix2Yang` then finds an array where it expects the
nested map. -/
theorem c1_counterexample :
    (convert .yang2nix schemaC docC >>= convert .nix2yang schemaC) = .ok docCroundtrip ∧
    (∀ fuel, equivF fuel docCroundtrip docC = false) ∧
    (convert .yang2nix schemaC docEmptyItems >>= convert .nix2yang schemaC) =
      .error "Expected an object. Are you sure this is a Nix-style file?" ∧
    (convert .yang2nix schemaM docM >>= convert .nix2yang schemaM) =
      .error "Expected an object. Are you sure this is a Nix-style file?" := by
  refine ⟨rfl, ?_, rfl, rfl⟩
  intro fuel
  match fuel with
  | 0 => rfl
  | 1 => rfl
  | 2 => rfl
  | 3 => rfl
  | 4 => rfl
  | f + 5 => rfl

/-- **C2 (code bug)**: visiting order is *not* irrelevant.  The code's own
order (reversed preorder: inner list `n` before its two-key ancestor `m`)
silently leaves `n` unconverted, because descending into the still
array-style `m` flattens one level per key — two levels — where the array
form has only one, so the name lookup for `n` is attempted inside the
elements' field values and every reference is dropped; the opposite order
converts `n`.  The two permutations produce different final trees. -/
theorem c2_order_dependence :
    keyedListEntries schemaM = [([mNode, nNode], nNode), ([mNode], mNode)] ∧
    convert .yang2nix schemaM docM = .ok docMbad ∧
    convertEntries .yang2nix [([mNode], mNode), ([mNode, nNode], nNode)] docM = .ok docMgood ∧
    docMbad ≠ docMgood := by
  refine ⟨rfl, rfl, rfl, ?_⟩
  intro h
  have h1 : (getPath docMbad ["rtbrick-config:m", "a", "b", "n"]).map Json.isArr = some true := rfl
  have h2 : (getPath docMgood ["rtbrick-config:m", "a", "b", "n"]).map Json.isArr = some false := rfl
  rw [h, h2] at h1
  exact Bool.noConfusion (Option.some.inj h1)

/-- Witness for the amended C1 round trip: the concrete schema
`container c { list items { key id; ... } }` and the two-element
list-style document satisfy the hypotheses, and the round trip holds. -/
theorem c1_amended_witness :
    wfF (rootsForest schemaC) = true ∧
    (namesF (rootsForest schemaC)).Nodup ∧
    validF (rootsForest schemaC) docC = true ∧
    ∃ U W, convert .yang2nix schemaC docC = .ok U ∧
      convert .nix2yang schemaC U = .ok W ∧ JsonSim W docC :=
  ⟨by decide, by decide, by decide,
    c1_amended_roundtrip schemaC docC (by decide) (by decide) (by decide)⟩

end NixYang
